import Mathlib

/-!
Verification of the confreader configuration-file parser
(src/confreader.h, with src/confreader.hpp the identical class variant).

The C code parses a whole file buffer in place: pass 1 splits the buffer
into lines (overwriting the line terminators 0x0A / 0x0D 0x0A with NUL),
counting section-header lines and parameter lines; pass 2 links section
and parameter records whose key/value fields are NUL-terminated views
into the same buffer; the lookup API compares keys and section names
ASCII-case-insensitively.

The shallow embedding below models the byte buffer as a `List Nat`
(one `Nat` per byte), in-place writes as `List.set`, and C-string views
as an offset into the buffer read up to the first NUL (`cstr`).  Reads
out of bounds (which the C code never performs on the paths reachable
through `confreaderParseFile`; see the per-function comments) are
modelled as reading 0.  The nested `for` loops of the C code become
fuel-indexed structurally recursive functions; every caller passes
fuel `n + 1` (`n` = logical buffer size), which is enough for loops
that advance at least one byte per step, so the fuel never runs out on
reachable executions.  `malloc` failure and `read` failure are modelled
by explicit oracles (`allocFail`, `shortRead`, `file = none`), since the
error-handling claims quantify over them.
-/

namespace Confreader

/-- Byte-level buffer: one `Nat` (0..255) per byte of the file. -/
abbrev Buf := List Nat

/-- Read byte `i`; out-of-bounds reads give 0 (see the module comment). -/
def rd (b : Buf) (i : Nat) : Nat := b.getD i 0

/-- Write byte `i` in place; out-of-bounds writes are dropped
(the C code never performs one on reachable paths). -/
def wr (b : Buf) (i : Nat) (v : Nat) : Buf := b.set i v

/-- Space or horizontal tab, the two whitespace bytes the parser skips. -/
def wsB (c : Nat) : Bool := c == 32 || c == 9

/-- Key/value separator bytes: `'='`, space, tab (confreader.h:288,294). -/
def isSepB (c : Nat) : Bool := c == 61 || c == 32 || c == 9

/-- Comment-marker bytes `'#'` and `';'`. -/
def isCmB (c : Nat) : Bool := c == 35 || c == 59

/-- ASCII lower-casing of one byte, as done by `strcasecmp`. -/
def lowerB (c : Nat) : Nat := if 65 ≤ c ∧ c ≤ 90 then c + 32 else c

/-- `strcasecmp(a, b) == 0`: the two byte strings are equal up to ASCII case. -/
def casEq (a b : List Nat) : Bool := decide (a.map lowerB = b.map lowerB)

/-- The C string stored at offset `p` of the buffer: bytes up to (excluding)
the first NUL.  All key/value/name fields of the parsed tables are such
views (confreader.h stores `char *` pointers into `confreader_fileBuf`). -/
def cstr (b : Buf) (p : Nat) : List Nat := (b.drop p).takeWhile (fun c => c ≠ 0)

/-! ### Pass 1: line splitting (confreader.h:170-210) -/

/-- Leading-whitespace skip, the inner loop at confreader.h:176-178
(also reused at 258-260 and 293-295 behave similarly for their classes):
advance while `i < n` and the byte is space/tab. -/
def skipWS (fuel : Nat) (b : Buf) (n i : Nat) : Nat :=
  match fuel with
  | 0 => i
  | fuel + 1 =>
    if i < n ∧ (rd b i = 32 ∨ rd b i = 9) then skipWS fuel b n (i + 1) else i

/-- The line-terminator scan at confreader.h:191-209: scan forward from `i`
for 0x0D or 0x0A.  A 0x0D must be followed by 0x0A (else the parse fails);
the terminator byte(s) are overwritten with NUL.  Returns the mutated
buffer and the position of the last overwritten byte (the C loop's `i`
at `break`), or an error if a CR is not followed by LF. -/
def scanEOL (fuel : Nat) (b : Buf) (n i : Nat) : Except Unit (Buf × Nat) :=
  match fuel with
  | 0 => .ok (b, i)
  | fuel + 1 =>
    if i < n then
      if rd b i = 13 then
        let b1 := wr b i 0
        if rd b1 (i + 1) = 10 then .ok (wr b1 (i + 1) 0, i + 1) else .error ()
      else if rd b i = 10 then .ok (wr b i 0, i)
      else scanEOL fuel b n (i + 1)
    else .ok (b, i)

/-- Result of pass 1: mutated buffer, recorded line-start offsets
(`confreader_lines`), section-header count (initialised to 1 for the
implicit bucket) and parameter-line count. -/
structure Pass1St where
  buf : Buf
  lines : List Nat
  sectCount : Nat
  paramCount : Nat
deriving Repr, DecidableEq

/-- The pass-1 outer loop (confreader.h:174-210).  Each iteration skips
leading whitespace, records the line-start offset, classifies the line
from its first byte (`[` → section header; `#`/`;`/LF/CR → comment or
blank; otherwise parameter), then consumes the line terminator via
`scanEOL`.  On a CR-without-LF failure the error value is the 1-based
line number (`lineIdx` after the record, confreader.h:197), i.e. the
length of the recorded-offsets list.  The C `lines` array has exactly
`lineCount` slots and the loop writes exactly one entry per consumed
terminator, so the list append models the array writes exactly. -/
def pass1Loop (fuel : Nat) (b : Buf) (n i : Nat) (ls : List Nat)
    (sc pc : Nat) : Except Nat Pass1St :=
  match fuel with
  | 0 => .ok ⟨b, ls, sc, pc⟩
  | fuel + 1 =>
    if i < n then
      let j := skipWS (n + 1) b n i
      let ls1 := ls ++ [j]
      let c := rd b j
      let sc1 := if c = 91 then sc + 1 else sc
      let pc1 := if c ≠ 91 ∧ c ≠ 35 ∧ c ≠ 59 ∧ c ≠ 10 ∧ c ≠ 13 then pc + 1 else pc
      match scanEOL (n + 1) b n j with
      | .error _ => .error ls1.length
      | .ok (b1, i1) => pass1Loop fuel b1 n (i1 + 1) ls1 sc1 pc1
    else .ok ⟨b, ls, sc, pc⟩

/-! ### Pass 2: linking sections and parameters (confreader.h:228-331) -/

/-- The `]`-scan of a section header (confreader.h:244-255): on `]` the
byte is overwritten with NUL and the position after it is returned; on a
NUL (end of line reached before `]`) the header is malformed. -/
def scanName (fuel : Nat) (b : Buf) (n i : Nat) : Except Unit (Buf × Nat) :=
  match fuel with
  | 0 => .ok (b, i)
  | fuel + 1 =>
    if i < n then
      if rd b i = 93 then .ok (wr b i 0, i + 1)
      else if rd b i = 0 then .error ()
      else scanName fuel b n (i + 1)
    else .ok (b, i)

/-- The key scan (confreader.h:280-289): find the first `'='`/space/tab;
hitting the line-end NUL first is an error ("unexpected end of line
after the parameter name").  Returns the separator position. -/
def scanKey (fuel : Nat) (b : Buf) (n i : Nat) : Except Unit Nat :=
  match fuel with
  | 0 => .ok i
  | fuel + 1 =>
    if i < n then
      if rd b i = 0 then .error ()
      else if rd b i = 61 ∨ rd b i = 32 ∨ rd b i = 9 then .ok i
      else scanKey fuel b n (i + 1)
    else .ok i

/-- The separator-run skip before the value (confreader.h:293-295):
advance while the byte is `'='`, space or tab. -/
def skipSep (fuel : Nat) (b : Buf) (n i : Nat) : Nat :=
  match fuel with
  | 0 => i
  | fuel + 1 =>
    if i < n ∧ (rd b i = 61 ∨ rd b i = 32 ∨ rd b i = 9) then skipSep fuel b n (i + 1) else i

/-- The value scan (confreader.h:306-319): stop at the line-end NUL, or
at `'#'`/`';'` provided the preceding byte is space/tab (otherwise the
comment is not space-separated from the value: parse error).  Returns
the stop position. -/
def scanVal (fuel : Nat) (b : Buf) (n i : Nat) : Except Unit Nat :=
  match fuel with
  | 0 => .ok i
  | fuel + 1 =>
    if i < n then
      if rd b i = 0 then .ok i
      else if rd b i = 35 ∨ rd b i = 59 then
        if rd b (i - 1) ≠ 32 ∧ rd b (i - 1) ≠ 9 then .error () else .ok i
      else scanVal fuel b n (i + 1)
    else .ok i

/-- The backward trailing-whitespace trim (confreader.h:322-324), scanning
down from index `k`: the first index below which sits a non-whitespace
byte, i.e. the C loop's final `++i` (the position where the new NUL
terminator is written).  Reaching index 0 on a whitespace byte models the
C loop running to `i = -1` followed by `++i`. -/
def trimBack (b : Buf) (k : Nat) : Nat :=
  match k with
  | 0 => if rd b 0 = 32 ∨ rd b 0 = 9 then 0 else 1
  | k + 1 => if rd b (k + 1) = 32 ∨ rd b (k + 1) = 9 then trimBack b k else k + 2

/-- The NUL-write position after the value ends at `s` (confreader.h:322-326):
`trimBack` from `s - 1`. -/
def trimPos (b : Buf) (s : Nat) : Nat :=
  match s with
  | 0 => 0
  | k + 1 => trimBack b k

/-- One entry of the section table (`ConfreaderSection`): the name view
(offset into the buffer; `none` for the implicit bucket 0), the number of
parameters, and the index of the first parameter in the parameter table
(`none` while the section is empty, modelling the NULL `params` pointer). -/
structure SectRec where
  name : Option Nat
  size : Nat
  firstParam : Option Nat
deriving Repr, DecidableEq

/-- Mutable state of the pass-2 linking loop: the buffer, the linked
section records (index 0 is the implicit bucket; the C array
`confreaderSects` has `sectCount` slots of which only these have been
initialised — the remaining slots hold indeterminate bytes), and the
linked parameter records (key offset, value offset). -/
structure Pass2St where
  buf : Buf
  sects : List SectRec
  params : List (Nat × Nat)
deriving Repr, DecidableEq

/-- Append a parameter record (confreader.h:272-329): record the key and
value offsets, point the current (= last) section at it if the section
was empty, and bump the section's size. -/
def appendParam (st : Pass2St) (k v : Nat) : Pass2St :=
  let idx := st.params.length
  let upd := fun (s : SectRec) =>
    { s with size := s.size + 1,
             firstParam := match s.firstParam with
                           | none => some idx
                           | some f => some f }
  { st with params := st.params ++ [(k, v)],
            sects := st.sects.dropLast ++ [upd (st.sects.getLastD ⟨none, 0, none⟩)] }

/-- Process one recorded line in pass 2 (the body of the loop at
confreader.h:235-331).  `lineNo` is the 1-based line number used for
parse errors (`lineIdx + 1`).  A `[` opens a section; a byte that is not
`#`, `;` or NUL starts a parameter line; anything else is a comment or
blank line and is skipped. -/
def doLine (n : Nat) (st : Pass2St) (lineNo i : Nat) : Except Nat Pass2St :=
  let b := st.buf
  if rd b i = 91 then
    match scanName (n + 1) b n (i + 1) with
    | .error _ => .error lineNo
    | .ok (b1, i1) =>
      let i2 := skipWS (n + 1) b1 n i1
      if rd b1 i2 ≠ 0 ∧ rd b1 i2 ≠ 35 ∧ rd b1 i2 ≠ 59 then .error lineNo
      else .ok { buf := b1,
                 sects := st.sects ++ [⟨some (i + 1), 0, none⟩],
                 params := st.params }
  else if rd b i ≠ 35 ∧ rd b i ≠ 59 ∧ rd b i ≠ 0 then
    match scanKey (n + 1) b n i with
    | .error _ => .error lineNo
    | .ok sepPos =>
      let b1 := wr b sepPos 0
      let i1 := skipSep (n + 1) b1 n (sepPos + 1)
      if rd b1 i1 = 0 ∨ rd b1 i1 = 35 ∨ rd b1 i1 = 59 then .error lineNo
      else
        match scanVal (n + 1) b1 n i1 with
        | .error _ => .error lineNo
        | .ok stop =>
          let b2 := wr b1 (trimPos b1 stop) 0
          .ok (appendParam { st with buf := b2 } i i1)
  else .ok st

/-- The pass-2 loop (confreader.h:235): iterate over the recorded line
offsets while `paramIdx < paramCount` (the defensive bound from pass 1;
`paramIdx` is the length of the linked parameter list).  Note the loop
stops as soon as the bound is reached, before looking at any further
recorded line. -/
def pass2Loop (n paramCount : Nat) (offs : List Nat) (lineIdx : Nat)
    (st : Pass2St) : Except Nat Pass2St :=
  match offs with
  | [] => .ok st
  | i :: rest =>
    if st.params.length < paramCount then
      match doLine n st (lineIdx + 1) i with
      | .error ln => .error ln
      | .ok st1 => pass2Loop n paramCount rest (lineIdx + 1) st1
    else .ok st

/-! ### Document state and `confreaderParseFile` -/

/-- The global parser state of confreader.h:61-72 (equivalently the
fields of the `Confreader` class): buffers and tables are `Option`s,
`none` modelling a NULL pointer. -/
structure ConfState where
  fileBuf : Option Buf
  lines : Option (List Nat)
  lineCount : Nat
  params : Option (List (Nat × Nat))
  paramCount : Nat
  sects : Option (List SectRec)
  sectCount : Nat
  errorNum : Nat
  errorLineNum : Nat
deriving Repr, DecidableEq

/-- Error codes (confreader.h:41-47). -/
def EREADFILE : Nat := 1
def EPARSINGFILE : Nat := 2
def ENOSECT : Nat := 3
def ENOPARAM : Nat := 4
def EINVVAL : Nat := 5
def EBUSY : Nat := 6
def ENOMEM : Nat := 7

/-- The process-start state: global variables are zero-initialised. -/
def confreaderInitState : ConfState :=
  ⟨none, none, 0, none, 0, none, 0, 0, 0⟩

/-- `confreaderInit` (confreader.h:74-82).  Note it does not touch
`lineCount`/`paramCount`. -/
def confreaderInit (st : ConfState) : ConfState :=
  { st with sectCount := 0, sects := none, params := none,
            lines := none, fileBuf := none, errorNum := 0, errorLineNum := 0 }

/-- `confreaderClear` (confreader.h:84-102): free and NULL the four
resources and zero `sectCount`; `errorNum`/`errorLineNum` are untouched. -/
def confreaderClear (st : ConfState) : ConfState :=
  { st with sectCount := 0, sects := none, params := none,
            lines := none, fileBuf := none }

/-- `confreaderParseFile` (confreader.h:104-337).  The file system and
allocator are external collaborators, modelled by oracles:
`file = none` models `open`/`fstat` failure, `shortRead` a `read` that
returns fewer bytes than the file size, and `allocFail.getD k false`
failure of the k-th `malloc` (0 = file buffer, 1 = line array,
2 = parameter table, 3 = section table).  Returns the new state and the
C return value (0 = `CONFREADER_OK`, -1 = `CONFREADER_ERROR`). -/
def confreaderParseFile (file : Option Buf) (allocFail : List Bool)
    (shortRead : Bool) (st0 : ConfState) : ConfState × Int :=
  let st := { st0 with errorLineNum := 0 }
  if st.fileBuf ≠ none then ({ st with errorNum := EBUSY }, -1)
  else
    let st := confreaderInit st
    match file with
    | none => ({ st with errorNum := EREADFILE }, -1)
    | some f =>
      if f.length = 0 then ({ st with errorNum := 0 }, 0)
      else if allocFail.getD 0 false then ({ st with errorNum := ENOMEM }, -1)
      else if shortRead then ({ st with errorNum := EREADFILE }, -1)
      else
        let b := f ++ [10]
        let n := f.length + 1
        let lineCount := b.countP (fun c => c == 10)
        if allocFail.getD 1 false then ({ confreaderClear st with errorNum := ENOMEM }, -1)
        else
          match pass1Loop (n + 1) b n 0 [] 1 0 with
          | .error ln =>
            ({ confreaderClear st with errorNum := EPARSINGFILE, errorLineNum := ln }, -1)
          | .ok p1 =>
            if allocFail.getD 2 false then
              ({ confreaderClear st with errorNum := ENOMEM }, -1)
            else if allocFail.getD 3 false then
              ({ confreaderClear st with errorNum := ENOMEM }, -1)
            else
              match pass2Loop n p1.paramCount p1.lines 0 ⟨p1.buf, [⟨none, 0, none⟩], []⟩ with
              | .error ln =>
                ({ confreaderClear st with errorNum := EPARSINGFILE, errorLineNum := ln }, -1)
              | .ok p2 =>
                ({ st with fileBuf := some p2.buf, lines := none,
                           lineCount := lineCount,
                           params := some p2.params, paramCount := p1.paramCount,
                           sects := some p2.sects, sectCount := p1.sectCount,
                           errorNum := 0 }, 0)

/-! ### Lookup API -/

/-- The key scan inside one section (confreader.h:344-349, 353-358):
linear scan of the section's `size` parameters starting at its first
parameter, returning the value offset of the first case-insensitive key
match.  On reachable states every index is inside the linked parameter
table; an out-of-range index is modelled as a mismatch. -/
def findInSect (b : Buf) (ps : List (Nat × Nat)) (first sz : Nat)
    (key : List Nat) : Option Nat :=
  (List.range sz).findSome? (fun j =>
    match ps.get? (first + j) with
    | some kv => if casEq key (cstr b kv.1) then some kv.2 else none
    | none => none)

/-- The first section with index in `[1, sectCount)` whose name matches
`snm` case-insensitively (confreader.h:351-352).  Entries beyond the
linked prefix of the section table were never initialised by pass 2; in
C reading their `name` field is an uninitialised-memory read, which is
modelled here as a mismatch. -/
def findSect (b : Buf) (sects : List SectRec) (sectCount : Nat)
    (snm : List Nat) : Option SectRec :=
  (List.range' 1 (sectCount - 1)).findSome? (fun i =>
    match sects.get? i with
    | some s =>
      match s.name with
      | some noff => if casEq snm (cstr b noff) then some s else none
      | none => none
    | none => none)

/-- `confreaderFind` (confreader.h:339-366): with no section, search only
bucket 0; with a section name, search only the first section whose name
matches.  Returns the updated state (`errorNum` is set to OK on a hit and
to `ENOPARAM` on a miss) and the value string. -/
def confreaderFind (st : ConfState) (key : List Nat)
    (sectionQ : Option (List Nat)) : ConfState × Option (List Nat) :=
  match st.fileBuf with
  | some b =>
    let res : Option Nat :=
      match st.sects, st.params with
      | some sects, some ps =>
        match sectionQ with
        | none =>
          match sects.get? 0 with
          | some s0 => findInSect b ps (s0.firstParam.getD 0) s0.size key
          | none => none
        | some snm =>
          match findSect b sects st.sectCount snm with
          | some s => findInSect b ps (s.firstParam.getD 0) s.size key
          | none => none
      | _, _ => none
    match res with
    | some voff => ({ st with errorNum := 0 }, some (cstr b voff))
    | none => ({ st with errorNum := ENOPARAM }, none)
  | none => ({ st with errorNum := ENOPARAM }, none)

/-- `confreaderHasSection` (confreader.h:368-378): true iff some section
with index in `[1, sectCount)` has a case-insensitively matching name;
on a miss `errorNum` is set to `ENOSECT`. -/
def confreaderHasSection (st : ConfState) (snm : List Nat) : ConfState × Bool :=
  match findSect (st.fileBuf.getD []) (st.sects.getD []) st.sectCount snm with
  | some _ => (st, true)
  | none => ({ st with errorNum := ENOSECT }, false)

/-- `confreaderHas` (confreader.h:380-385). -/
def confreaderHas (st : ConfState) (key : List Nat)
    (sectionQ : Option (List Nat)) : ConfState × Bool :=
  match confreaderFind st key sectionQ with
  | (st1, some _) => (st1, true)
  | (st1, none) => (st1, false)

/-- `confreaderGetChar` (confreader.h:387-394): the first byte of the
value (`val[0]`; for an empty value this reads the NUL terminator,
modelled by `headD 0`), or the default when the parameter is absent. -/
def confreaderGetChar (st : ConfState) (key : List Nat)
    (sectionQ : Option (List Nat)) (dflt : Nat) : ConfState × Nat :=
  match confreaderFind st key sectionQ with
  | (st1, some v) => (st1, v.headD 0)
  | (st1, none) => (st1, dflt)

/-- `confreaderGetString` (confreader.h:396-403). -/
def confreaderGetString (st : ConfState) (key : List Nat)
    (sectionQ : Option (List Nat)) (dflt : List Nat) : ConfState × List Nat :=
  match confreaderFind st key sectionQ with
  | (st1, some v) => (st1, v)
  | (st1, none) => (st1, dflt)

/-- ASCII digit. -/
def isDig (c : Nat) : Bool := 48 ≤ c && c ≤ 57

/-- Result of `confreaderGetInt`: either `strtol(val, NULL, 10)` was
applied to the raw value string (its `long` result then converted to
`int`), or the caller-supplied default was returned.  The numeric
result — `strtol`'s clamping at `LONG_MIN`/`LONG_MAX` and the
`long`-to-`int` conversion — is deliberately not modelled; the claims
concern which branch is taken and which string is converted. -/
inductive IntRes where
  | converted (raw : List Nat)
  | useDefault (d : Int)
deriving Repr, DecidableEq

/-- `confreaderGetInt` (confreader.h:405-425): the first byte must be a
digit or `'-'`, all remaining bytes must be digits; otherwise `EINVVAL`
and the default are returned.  On acceptance `strtol` is applied to the
value string. -/
def confreaderGetInt (st : ConfState) (key : List Nat)
    (sectionQ : Option (List Nat)) (dflt : Int) : ConfState × IntRes :=
  match confreaderFind st key sectionQ with
  | (st1, some v) =>
    if ¬ isDig (v.headD 0) ∧ v.headD 0 ≠ 45 then
      ({ st1 with errorNum := EINVVAL }, .useDefault dflt)
    else if (v.drop 1).all isDig then (st1, .converted v)
    else ({ st1 with errorNum := EINVVAL }, .useDefault dflt)
  | (st1, none) => (st1, .useDefault dflt)

/-- Result of `confreaderGetDouble`: either `strtod` was applied to the
raw value string, or the caller-supplied default was returned.  The
numeric result of `strtod` is IEEE floating point and is not modelled;
the claims concern which branch is taken. -/
inductive DoubleRes where
  | converted (raw : List Nat)
  | useDefault
deriving Repr, DecidableEq

/-- `confreaderGetDouble` (confreader.h:427-447): the first byte must be
a digit or `'-'`, all remaining bytes digits or `'.'`; otherwise
`EINVVAL` and the default. -/
def confreaderGetDouble (st : ConfState) (key : List Nat)
    (sectionQ : Option (List Nat)) : ConfState × DoubleRes :=
  match confreaderFind st key sectionQ with
  | (st1, some v) =>
    if ¬ isDig (v.headD 0) ∧ v.headD 0 ≠ 45 then
      ({ st1 with errorNum := EINVVAL }, .useDefault)
    else if (v.drop 1).all (fun c => isDig c || c == 46) then (st1, .converted v)
    else ({ st1 with errorNum := EINVVAL }, .useDefault)
  | (st1, none) => (st1, .useDefault)

/-! ### Specification-side reference definitions

These definitions follow the wording of the specification (spec §4.2,
§4.3, §6, §8): split the input into physical lines, strip the leading
whitespace, classify each line, and extract section names and key/value
pairs as substrings of the line.  They are compared against the
imperative parser above in the refinement theorems. -/

/-- Helper for `segsOf`: split at line-feed bytes, accumulating the
current segment in reverse. A trailing partial segment cannot occur on
`f ++ [10]` and is dropped. -/
def segsAux : List Nat → List Nat → List (List Nat)
  | [], _ => []
  | c :: rest, cur =>
    if c = 10 then cur.reverse :: segsAux rest [] else segsAux rest (c :: cur)

/-- The physical lines of the input: the maximal line-feed-free segments
of `f` with one synthetic final line feed appended (spec §4.1: the
logical buffer is the file content plus one line-feed byte). -/
def segsOf (f : List Nat) : List (List Nat) := segsAux (f ++ [10]) []

/-- Remove the trailing carriage return of a `\r\n`-terminated line. -/
def stripCR (seg : List Nat) : List Nat :=
  if seg.getLast? = some 13 then seg.dropLast else seg

/-- The content of a physical line as the parser sees it: line-ending
normalisation, then the leading-whitespace skip (spec §4.2 step 1). -/
def lineTrim (seg : List Nat) : List Nat := (stripCR seg).dropWhile wsB

/-- Remove trailing spaces/tabs (spec §4.3: "Trailing whitespace on the
value is trimmed"). -/
def trimTrail (l : List Nat) : List Nat := (l.reverse.dropWhile wsB).reverse

/-- Section-header parsing per spec §4.3: the name is the substring
between `[` and the first `]`; failing if no `]` occurs before the line
end, or if anything other than whitespace followed by a comment trails
the `]`. `t` is the line content with the leading `[` still present. -/
def parseHeader (t : List Nat) : Option (List Nat) :=
  let a := t.drop 1
  match a.findIdx? (fun c => c == 93) with
  | none => none
  | some k =>
    let rest := (a.drop (k + 1)).dropWhile wsB
    if rest.isEmpty || isCmB (rest.headD 0) then some (a.take k) else none

/-- Parameter-line parsing per spec §4.3 and claim C1's wording: the key
is the prefix before the first `'='`/whitespace separator byte; the run
of separator bytes after it is skipped; the value extends to the next
whitespace-separated comment marker or the line end, with trailing
whitespace trimmed.  Fails if no separator occurs, if no value is
present, or if a comment marker is not preceded by whitespace. -/
def parseParam (t : List Nat) : Option (List Nat × List Nat) :=
  let key := t.takeWhile (fun c => ! isSepB c)
  let r1 := (t.drop key.length).dropWhile isSepB
  if r1.isEmpty || isCmB (r1.headD 0) then none
  else
    match r1.findIdx? isCmB with
    | some k => if wsB (r1.getD (k - 1) 0) then some (key, trimTrail (r1.take k)) else none
    | none => some (key, trimTrail r1)

/-- A section of the reference document: its name (`none` for the
implicit unscoped bucket) and its key/value pairs in line order. -/
abbrev SpecSect := Option (List Nat) × List (List Nat × List Nat)

/-- One line of the reference parse: blank and comment lines are
skipped, a header opens a new section, a parameter is appended to the
last open section. -/
def specStep (doc : List SpecSect) (t : List Nat) : Option (List SpecSect) :=
  if t.isEmpty then some doc
  else if t.headD 0 = 91 then (parseHeader t).map (fun nm => doc ++ [(some nm, [])])
  else if isCmB (t.headD 0) then some doc
  else (parseParam t).map (fun kv =>
    doc.dropLast ++ [((doc.getLastD (none, [])).1, (doc.getLastD (none, [])).2 ++ [kv])])

/-- Fold `specStep` over a list of line contents. -/
def specFold (doc : List SpecSect) : List (List Nat) → Option (List SpecSect)
  | [] => some doc
  | t :: rest =>
    match specStep doc t with
    | none => none
    | some d => specFold d rest

/-- The reference document of an input: all lines parsed per the spec,
starting from the lone implicit bucket. `none` when some line is
malformed (the input is not well-formed). -/
def specDoc (f : List Nat) : Option (List SpecSect) :=
  specFold [(none, [])] ((segsOf f).map lineTrim)

/-- First case-insensitive key match among a section's parameters
(spec §3: "lookup returns the first match in document order"). -/
def lookupKey (ps : List (List Nat × List Nat)) (key : List Nat) : Option (List Nat) :=
  (ps.find? (fun kv => casEq key kv.1)).map (fun kv => kv.2)

/-- Reference lookup (spec §4.4): without a section, only the unscoped
bucket is searched; with one, only the first section whose name matches
case-insensitively. -/
def specFind (doc : List SpecSect) (key : List Nat)
    (sq : Option (List Nat)) : Option (List Nat) :=
  match sq with
  | none => lookupKey (doc.headD (none, [])).2 key
  | some snm =>
    match (doc.drop 1).find? (fun s =>
            match s.1 with
            | some nm => casEq snm nm
            | none => false) with
    | some s => lookupKey s.2 key
    | none => none

/-- Position `j` of the logical buffer `f ++ [10]` holds a carriage
return that is not immediately followed by a line feed (spec §4.2
step 3). -/
def offendAt (f : List Nat) (j : Nat) : Prop :=
  rd (f ++ [10]) j = 13 ∧ rd (f ++ [10]) (j + 1) ≠ 10

instance (f : List Nat) (j : Nat) : Decidable (offendAt f j) := by
  unfold offendAt; infer_instance

/-- The 1-based number of the physical line containing byte `j`. -/
def lineNumAt (f : List Nat) (j : Nat) : Nat :=
  1 + (f.take j).countP (fun c => c == 10)

/-! ### Derived notions used by the refinement proofs -/

/-- Line-ending normalisation of one byte: pass 1 overwrites every line
feed, and every carriage return of a `\r\n` pair, with NUL. -/
def zeroB (c : Nat) : Nat := if c = 10 ∨ c = 13 then 0 else c

/-- Rebuild the buffer from its segments: each segment followed by its
line-feed delimiter. -/
def joinLF (segs : List (List Nat)) : List Nat :=
  segs.foldr (fun s acc => s ++ 10 :: acc) []

/-- The line-start offsets pass 1 records, computed from the segments:
each line starts past its leading whitespace, and the next segment
begins after this segment and its delimiter. -/
def lineStarts (base : Nat) : List (List Nat) → List Nat
  | [] => []
  | s :: rest => (base + (s.takeWhile wsB).length) :: lineStarts (base + s.length + 1) rest

/-- The segment is classified as a section-header line (first
non-whitespace byte `[`). -/
def isHeadSeg (s : List Nat) : Bool := (lineTrim s).headD 0 == 91

/-- The segment is classified as a parameter line: non-blank and the
first non-whitespace byte is none of `[`, `#`, `;`. -/
def isParamSeg (s : List Nat) : Bool :=
  !(lineTrim s).isEmpty && !((lineTrim s).headD 0 == 91) && !isCmB ((lineTrim s).headD 0)

/-- The segment contains a carriage return at a non-final position,
i.e. one not immediately followed by the line feed that delimits the
segment — exactly the lines pass 1 rejects. -/
def segBad (s : List Nat) : Prop := 13 ∈ s.dropLast

instance (s : List Nat) : Decidable (segBad s) := by
  unfold segBad; infer_instance

/-! ### Pass-2 representation predicates -/

/-- Bytes `w` terminated by a NUL sit at offset `o` of the buffer, and the
whole view (terminator included) lies strictly below `base`, the low end
of the region that later writes may touch. -/
def OffHolds (b : Buf) (base o : Nat) (w : List Nat) : Prop :=
  (∀ k, k < w.length → rd b (o + k) = w.getD k 0) ∧
  rd b (o + w.length) = 0 ∧
  o + w.length < base ∧
  (0:Nat) ∉ w

/-- All key/value pairs of a reference document, in document order. -/
def kvsOf (doc : List SpecSect) : List (List Nat × List Nat) :=
  (doc.map (fun s => s.2)).flatten

/-- The parameter-table index of the first parameter of section `idx`:
the parameters of the preceding sections, in order, come before it. -/
def firstIdx (doc : List SpecSect) (idx : Nat) : Nat :=
  ((doc.take idx).map (fun s => s.2.length)).sum

/-- The linked section and parameter tables represent the reference
document `doc` on buffer `b`, every stored view lying below `base`. -/
def Repr2 (b : Buf) (base : Nat) (sects : List SectRec)
    (params : List (Nat × Nat)) (doc : List SpecSect) : Prop :=
  sects.length = doc.length ∧
  params.length = (kvsOf doc).length ∧
  (∀ idx, idx < doc.length →
    (match (sects.getD idx ⟨none, 0, none⟩).name, (doc.getD idx (none, [])).1 with
     | none, none => True
     | some o, some nm => OffHolds b base o nm
     | _, _ => False) ∧
    (sects.getD idx ⟨none, 0, none⟩).size = (doc.getD idx (none, [])).2.length ∧
    ((doc.getD idx (none, [])).2 = [] →
      (sects.getD idx ⟨none, 0, none⟩).firstParam = none) ∧
    ((doc.getD idx (none, [])).2 ≠ [] →
      (sects.getD idx ⟨none, 0, none⟩).firstParam = some (firstIdx doc idx))) ∧
  (∀ m, m < params.length →
    OffHolds b base (params.getD m (0, 0)).1 ((kvsOf doc).getD m ([], [])).1 ∧
    OffHolds b base (params.getD m (0, 0)).2 ((kvsOf doc).getD m ([], [])).2)

/-! ### Theorems -/

/-- Helper: a parse started on a not-loaded document never reports
`Busy` (the `Busy` check is `confreader_fileBuf != NULL`,
confreader.h:112). -/
theorem parse_no_busy (file : Option Buf) (allocFail : List Bool) (shortRead : Bool)
    (st : ConfState) (hb : st.fileBuf = none) :
    (confreaderParseFile file allocFail shortRead st).1.errorNum ≠ EBUSY := by
  obtain ⟨fb, l1, l2, p1, p2, s1, s2, e1, e2⟩ := st
  simp only [ConfState.fileBuf] at hb
  subst hb
  simp only [confreaderParseFile, confreaderInit, confreaderClear]
  rw [if_neg (by simp)]
  repeat' split
  all_goals simp [EBUSY, EREADFILE, ENOMEM, EPARSINGFILE]

/-- C2: the claim says a `[name]` header is linked (so `hasSection` is
true) even when it occurs after the last parameter line.  The code is
wrong there: the pass-2 loop (confreader.h:235) stops as soon as
`paramIdx == paramCount`, so for the input `"a=1\n[S]\n"` the header
`[S]` is never linked — `sectCount` is 2 but only one section record
(the implicit bucket) was ever initialised, `confreaderHasSection`
on `"S"` consults the uninitialised slot (an undefined-memory read in C,
modelled as a mismatch) and returns false instead of the specified
true. -/
theorem c2_trailing_header_never_linked :
    confreaderParseFile (some [97, 61, 49, 10, 91, 83, 93, 10]) [] false confreaderInitState =
      ({ fileBuf := some [97, 0, 49, 0, 91, 83, 93, 0, 0], lines := none, lineCount := 3,
         params := some [(0, 2)], paramCount := 1,
         sects := some [⟨none, 1, some 0⟩], sectCount := 2,
         errorNum := 0, errorLineNum := 0 }, 0) ∧
    (confreaderHasSection
      (confreaderParseFile (some [97, 61, 49, 10, 91, 83, 93, 10]) [] false confreaderInitState).1
      [83]).2 = false ∧
    (confreaderHasSection
      (confreaderParseFile (some [97, 61, 49, 10, 91, 83, 93, 10]) [] false confreaderInitState).1
      [83]).1.errorNum = ENOSECT :=
  ⟨rfl, rfl, rfl⟩

/-- C7: parsing a zero-byte file returns `CONFREADER_OK` with `errorNum`
OK, leaves zero sections (`sectCount = 0`), `hasSection` returns false
(signalling `ENOSECT`) for every name, and `find` without a section
signals `ENOPARAM` and returns no value for every key. -/
theorem c7_empty_file_parse :
    (confreaderParseFile (some []) [] false confreaderInitState).2 = 0 ∧
    (confreaderParseFile (some []) [] false confreaderInitState).1.errorNum = 0 ∧
    (confreaderParseFile (some []) [] false confreaderInitState).1.sectCount = 0 ∧
    (∀ nm, confreaderHasSection
        (confreaderParseFile (some []) [] false confreaderInitState).1 nm =
      ({ (confreaderParseFile (some []) [] false confreaderInitState).1 with
          errorNum := ENOSECT }, false)) ∧
    (∀ key, confreaderFind
        (confreaderParseFile (some []) [] false confreaderInitState).1 key none =
      ({ (confreaderParseFile (some []) [] false confreaderInitState).1 with
          errorNum := ENOPARAM }, none)) :=
  ⟨rfl, rfl, rfl, fun _ => rfl, fun _ => rfl⟩

/-- C4 counterexample: for the input `"a = -"` the stored value is the
lone `"-"` (byte 45), which does not match `-?[0-9]+` (no digit), yet
`confreaderGetInt` accepts it: it passes the lone `"-"` to `strtol`
(which, having no digits to consume, yields 0 in C) instead of
returning the caller default 7, and leaves `errorNum` OK instead of
signalling `EINVVAL` — refuting the claimed "at least one digit in all
cases". -/
theorem c4_counterexample_lone_minus :
    (confreaderFind
      (confreaderParseFile (some [97, 32, 61, 32, 45]) [] false confreaderInitState).1
      [97] none).2 = some [45] ∧
    confreaderGetInt
      (confreaderParseFile (some [97, 32, 61, 32, 45]) [] false confreaderInitState).1
      [97] none 7 =
      ((confreaderParseFile (some [97, 32, 61, 32, 45]) [] false confreaderInitState).1,
        .converted [45]) ∧
    (confreaderGetInt
      (confreaderParseFile (some [97, 32, 61, 32, 45]) [] false confreaderInitState).1
      [97] none 7).1.errorNum = 0 :=
  ⟨rfl, rfl, rfl⟩

/-- C5 counterexample: for the input `"a = .5"` the stored value `".5"`
(bytes 46, 53) consists only of digits and `'.'` with no other
character, so the claim says `getDouble` converts it; the code instead
requires the first byte to be a digit or `'-'`, signals `EINVVAL` and
returns the default. -/
theorem c5_counterexample_dot5 :
    (confreaderFind
      (confreaderParseFile (some [97, 32, 61, 32, 46, 53]) [] false confreaderInitState).1
      [97] none).2 = some [46, 53] ∧
    ([46, 53].all (fun c => isDig c || c == 46)) = true ∧
    confreaderGetDouble
      (confreaderParseFile (some [97, 32, 61, 32, 46, 53]) [] false confreaderInitState).1
      [97] none =
      ({ (confreaderParseFile (some [97, 32, 61, 32, 46, 53]) [] false confreaderInitState).1 with
          errorNum := EINVVAL }, .useDefault) :=
  ⟨rfl, rfl, rfl⟩

/-- C6 counterexample: after the successful parse of a zero-byte file the
buffer was never allocated (`fileBuf` is still NULL), so a second
`parseFile` before any release is *accepted* (returns `CONFREADER_OK`,
`errorNum` OK) rather than rejected with `Busy` as the claim states for
"a parse that has already completed successfully (including ... a
zero-byte file)". -/
theorem c6_counterexample_empty_reload :
    confreaderParseFile (some []) [] false confreaderInitState =
      (confreaderInitState, 0) ∧
    confreaderParseFile (some []) [] false
      (confreaderParseFile (some []) [] false confreaderInitState).1 =
      (confreaderInitState, 0) ∧
    (confreaderParseFile (some []) [] false
      (confreaderParseFile (some []) [] false confreaderInitState).1).1.errorNum ≠ EBUSY :=
  ⟨rfl, rfl, by decide⟩

/-- C1 counterexample: for the duplicate-key input `"a=1\na=2\n"` the
second parameter line's claimed substring is `"2"` (as the reference
extraction `parseParam` of its line content `[97, 61, 50]` shows), but
`find("a")` returns the *first* match `"1"` — the claim's universal
quantification over every parameter line fails for duplicated keys. -/
theorem c1_counterexample_duplicate_key :
    (confreaderFind
      (confreaderParseFile (some [97, 61, 49, 10, 97, 61, 50, 10]) [] false confreaderInitState).1
      [97] none).2 = some [49] ∧
    (segsOf [97, 61, 49, 10, 97, 61, 50, 10]).get? 1 = some [97, 61, 50] ∧
    parseParam (lineTrim [97, 61, 50]) = some ([97], [50]) ∧
    ([49] : List Nat) ≠ [50] :=
  ⟨rfl, rfl, rfl, by decide⟩

/-- C8 counterexample: the input `"=x"` is classified as a parameter line
(first non-whitespace byte `'='`), and the linked parameter's key view is
the *empty* string — the `'='` at offset 0 is overwritten with the key's
NUL terminator — refuting "the stored key view contains at least one
byte".  The parameter is real: looking up the empty key returns `"x"`. -/
theorem c8_counterexample_eq_line :
    (confreaderParseFile (some [61, 120]) [] false confreaderInitState).1.params =
      some [(0, 1)] ∧
    cstr ((confreaderParseFile (some [61, 120]) [] false confreaderInitState).1.fileBuf.getD []) 0
      = [] ∧
    (confreaderFind
      (confreaderParseFile (some [61, 120]) [] false confreaderInitState).1 [] none).2 =
      some [120] :=
  ⟨rfl, rfl, rfl⟩

/-- C3: whenever `confreaderParseFile` on a not-loaded document returns
`CONFREADER_ERROR` — for any read failure, parse failure or allocation
failure — the resulting state holds no buffer, no line array, no
parameter table and no section table, `sectCount` is zero (exactly the
allocation state `confreaderInit` establishes), and a subsequent load
attempt is never rejected with `Busy`.  (`errorNum`/`errorLineNum` carry
the surfaced error and are exactly the fields `confreaderClear` leaves
alone.) -/
theorem c3_error_rolls_back (file : Option Buf) (allocFail : List Bool) (shortRead : Bool)
    (st0 : ConfState) (hb : st0.fileBuf = none) :
    ∀ st1, confreaderParseFile file allocFail shortRead st0 = (st1, -1) →
      st1.fileBuf = none ∧ st1.lines = none ∧ st1.params = none ∧
      st1.sects = none ∧ st1.sectCount = 0 ∧
      (∀ file2 af2 sr2, (confreaderParseFile file2 af2 sr2 st1).1.errorNum ≠ EBUSY) := by
  intro st1 h
  have base : st1.fileBuf = none ∧ st1.lines = none ∧ st1.params = none ∧
      st1.sects = none ∧ st1.sectCount = 0 := by
    obtain ⟨fb, l1, l2, p1, p2, s1, s2, e1, e2⟩ := st0
    simp only [ConfState.fileBuf] at hb
    subst hb
    simp only [confreaderParseFile, confreaderInit, confreaderClear] at h
    split at h
    · exact absurd rfl (by assumption)
    · repeat' (split at h)
      all_goals
        first
        | (cases h; exact ⟨rfl, rfl, rfl, rfl, rfl⟩)
        | (exfalso; exact absurd (congrArg Prod.snd h) (by simp))
  exact ⟨base.1, base.2.1, base.2.2.1, base.2.2.2.1, base.2.2.2.2,
         fun file2 af2 sr2 => parse_no_busy file2 af2 sr2 st1 base.1⟩

/-- Witness for C3 at a concrete failing load (open failure on a fresh
document). -/
theorem c3_error_rolls_back_witness :
    (confreaderParseFile none [] false confreaderInitState).1.fileBuf = none ∧
    (confreaderParseFile none [] false confreaderInitState).1.lines = none ∧
    (confreaderParseFile none [] false confreaderInitState).1.params = none ∧
    (confreaderParseFile none [] false confreaderInitState).1.sects = none ∧
    (confreaderParseFile none [] false confreaderInitState).1.sectCount = 0 ∧
    (∀ file2 af2 sr2, (confreaderParseFile file2 af2 sr2
        (confreaderParseFile none [] false confreaderInitState).1).1.errorNum ≠ EBUSY) :=
  c3_error_rolls_back none [] false confreaderInitState rfl
    (confreaderParseFile none [] false confreaderInitState).1 rfl

/-- C6 (amended): re-parsing is rejected with `Busy` — original data
untouched (only `errorNum`/`errorLineNum` change) — exactly when the
document *holds a buffer*; every successful parse of a *non-empty* file
leaves the buffer held, so the `Busy` rejection applies to it.  (The
successful parse of a zero-byte file allocates no buffer, so it is not
protected — see the counterexample.) -/
theorem c6_busy_iff_buffer_held :
    (∀ (st : ConfState) (file : Option Buf) (allocFail : List Bool) (shortRead : Bool),
      st.fileBuf ≠ none →
      confreaderParseFile file allocFail shortRead st =
        ({ st with errorLineNum := 0, errorNum := EBUSY }, -1)) ∧
    (∀ (f : Buf) (st0 st1 : ConfState) (allocFail : List Bool) (shortRead : Bool),
      f ≠ [] →
      confreaderParseFile (some f) allocFail shortRead st0 = (st1, 0) →
      st1.fileBuf ≠ none) := by
  constructor
  · intro st file af sr h
    simp only [confreaderParseFile]
    rw [if_pos (by simpa using h)]
  · intro f st0 st1 af sr hf h
    obtain ⟨fb, l1, l2, p1, p2, s1, s2, e1, e2⟩ := st0
    simp only [confreaderParseFile, confreaderInit, confreaderClear] at h
    repeat' (split at h)
    all_goals obtain ⟨h1, h2⟩ := Prod.mk.injEq .. |>.mp h
    any_goals (exfalso; omega)
    all_goals subst h1
    any_goals exact Option.some_ne_none _
    all_goals simp_all

/-- Witness for C6: a document loaded from `"a=1"` rejects a reload with
`Busy`, data untouched; and that loaded document indeed holds a buffer. -/
theorem c6_busy_iff_buffer_held_witness :
    confreaderParseFile none [] false
        (confreaderParseFile (some [97, 61, 49]) [] false confreaderInitState).1 =
      ({ (confreaderParseFile (some [97, 61, 49]) [] false confreaderInitState).1 with
          errorLineNum := 0, errorNum := EBUSY }, -1) ∧
    (confreaderParseFile (some [97, 61, 49]) [] false confreaderInitState).1.fileBuf ≠ none :=
  ⟨c6_busy_iff_buffer_held.1
      (confreaderParseFile (some [97, 61, 49]) [] false confreaderInitState).1
      none [] false (by decide),
   c6_busy_iff_buffer_held.2 [97, 61, 49] confreaderInitState
      (confreaderParseFile (some [97, 61, 49]) [] false confreaderInitState).1
      [] false (by decide) rfl⟩

/-- C4 (amended): when `find` succeeds, `getInt` converts the value iff
its first byte is a digit or `'-'` and all remaining bytes are digits —
the grammar `(-|[0-9])[0-9]*`, which unlike the claimed `-?[0-9]+` also
accepts the digit-less lone `"-"`.  On acceptance `strtol` is applied
to exactly the stored value string (the numeric `long` result and its
conversion to `int` are outside the verified contract); otherwise
`EINVVAL` is signalled and the caller default returned. -/
theorem c4_getInt_grammar (st st1 : ConfState) (key v : List Nat)
    (sq : Option (List Nat)) (dflt : Int)
    (h : confreaderFind st key sq = (st1, some v)) :
    ((isDig (v.headD 0) ∨ v.headD 0 = 45) ∧ (∀ c ∈ v.drop 1, isDig c) →
      confreaderGetInt st key sq dflt = (st1, .converted v)) ∧
    (¬ ((isDig (v.headD 0) ∨ v.headD 0 = 45) ∧ (∀ c ∈ v.drop 1, isDig c)) →
      confreaderGetInt st key sq dflt =
        ({ st1 with errorNum := EINVVAL }, .useDefault dflt)) := by
  have e : confreaderGetInt st key sq dflt =
      (if ¬ isDig (v.headD 0) ∧ v.headD 0 ≠ 45 then
        ({ st1 with errorNum := EINVVAL }, .useDefault dflt)
       else if (v.drop 1).all isDig then (st1, .converted v)
       else ({ st1 with errorNum := EINVVAL }, .useDefault dflt)) := by
    simp only [confreaderGetInt, h]
  constructor
  · rintro ⟨h1, h2⟩
    rw [e, if_neg, if_pos (List.all_eq_true.mpr h2)]
    rcases h1 with h1 | h1
    · exact fun hc => hc.1 h1
    · exact fun hc => hc.2 h1
  · intro hn
    by_cases h1 : isDig (v.headD 0) ∨ v.headD 0 = 45
    · have h2 : ¬ ∀ c ∈ v.drop 1, isDig c := fun h2 => hn ⟨h1, h2⟩
      rw [e, if_neg, if_neg (by simpa using h2)]
      rcases h1 with h1 | h1
      · exact fun hc => hc.1 h1
      · exact fun hc => hc.2 h1
    · push_neg at h1
      rw [e, if_pos ⟨h1.1, h1.2⟩]

/-- Witness for C4 at the value `"5"` of the input `"a = 5"`. -/
theorem c4_getInt_grammar_witness :
    confreaderGetInt
      (confreaderParseFile (some [97, 32, 61, 32, 53]) [] false confreaderInitState).1
      [97] none 7 =
      ((confreaderParseFile (some [97, 32, 61, 32, 53]) [] false confreaderInitState).1,
        .converted [53]) := by
  have h := (c4_getInt_grammar
      (confreaderParseFile (some [97, 32, 61, 32, 53]) [] false confreaderInitState).1
      (confreaderParseFile (some [97, 32, 61, 32, 53]) [] false confreaderInitState).1
      [97] [53] none 7 rfl).1 ⟨Or.inl (by decide), by decide⟩
  exact h

/-- C5 (amended): when `find` succeeds, `getDouble` converts the value
iff its *first* byte is a digit or `'-'` and all remaining bytes are
digits or `'.'` — so `".5"` (first byte `'.'`) is rejected with
`EINVVAL`, contrary to the claim, while `"3.14.5"` and the digit-less
`"-"` are accepted. -/
theorem c5_getDouble_charclass (st st1 : ConfState) (key v : List Nat)
    (sq : Option (List Nat))
    (h : confreaderFind st key sq = (st1, some v)) :
    ((isDig (v.headD 0) ∨ v.headD 0 = 45) ∧ (∀ c ∈ v.drop 1, isDig c ∨ c = 46) →
      confreaderGetDouble st key sq = (st1, .converted v)) ∧
    (¬ ((isDig (v.headD 0) ∨ v.headD 0 = 45) ∧ (∀ c ∈ v.drop 1, isDig c ∨ c = 46)) →
      confreaderGetDouble st key sq = ({ st1 with errorNum := EINVVAL }, .useDefault)) := by
  have e : confreaderGetDouble st key sq =
      (if ¬ isDig (v.headD 0) ∧ v.headD 0 ≠ 45 then
        ({ st1 with errorNum := EINVVAL }, .useDefault)
       else if (v.drop 1).all (fun c => isDig c || c == 46) then (st1, .converted v)
       else ({ st1 with errorNum := EINVVAL }, .useDefault)) := by
    simp only [confreaderGetDouble, h]
  constructor
  · rintro ⟨h1, h2⟩
    rw [e, if_neg, if_pos]
    · refine List.all_eq_true.mpr (fun c hc => ?_)
      rcases h2 c hc with hd | hd
      · simp [hd]
      · simp [hd]
    · rcases h1 with h1 | h1
      · exact fun hc => hc.1 h1
      · exact fun hc => hc.2 h1
  · intro hn
    by_cases h1 : isDig (v.headD 0) ∨ v.headD 0 = 45
    · have h2 : ¬ ∀ c ∈ v.drop 1, (isDig c ∨ c = 46) := fun h2 => hn ⟨h1, h2⟩
      rw [e, if_neg, if_neg]
      · intro hall
        refine h2 (fun c hc => ?_)
        have hc2 := List.all_eq_true.mp hall c hc
        simpa using hc2
      · rcases h1 with h1 | h1
        · exact fun hc => hc.1 h1
        · exact fun hc => hc.2 h1
    · push_neg at h1
      rw [e, if_pos ⟨h1.1, h1.2⟩]

/-- Witness for C5 at the value `"3.14"` of the input `"x = 3.14"`. -/
theorem c5_getDouble_charclass_witness :
    confreaderGetDouble
      (confreaderParseFile (some [120, 32, 61, 32, 51, 46, 49, 52]) [] false confreaderInitState).1
      [120] none =
      ((confreaderParseFile (some [120, 32, 61, 32, 51, 46, 49, 52]) [] false confreaderInitState).1,
        .converted [51, 46, 49, 52]) := by
  have h := (c5_getDouble_charclass
      (confreaderParseFile (some [120, 32, 61, 32, 51, 46, 49, 52]) [] false confreaderInitState).1
      (confreaderParseFile (some [120, 32, 61, 32, 51, 46, 49, 52]) [] false confreaderInitState).1
      [120] [51, 46, 49, 52] none rfl).1 ⟨Or.inl (by decide), by decide⟩
  exact h

/-! ### Buffer read/write lemmas -/

theorem wr_length (b : Buf) (i v : Nat) : (wr b i v).length = b.length :=
  List.length_set b i v

theorem rd_wr_self (b : Buf) (i v : Nat) (h : i < b.length) : rd (wr b i v) i = v := by
  simp [rd, wr, List.getD_eq_getElem?_getD, List.getElem?_set_self, h]

theorem rd_wr_ne (b : Buf) (i v j : Nat) (h : j ≠ i) : rd (wr b i v) j = rd b j := by
  simp [rd, wr, List.getD_eq_getElem?_getD, List.getElem?_set_ne (Ne.symm h)]

theorem rd_of_drop {b : Buf} {i : Nat} {L : List Nat} (h : b.drop i = L) (t : Nat) :
    rd b (i + t) = rd L t := by
  have : (b.drop i).getD t 0 = b.getD (i + t) 0 := by
    simp [List.getD_eq_getElem?_getD, List.getElem?_drop]
  rw [rd, ← this, h, rd]

theorem drop_cons_succ {b : Buf} {i : Nat} {c : Nat} {L : List Nat}
    (h : b.drop i = c :: L) : b.drop (i + 1) = L := by
  have h1 : b.drop (i + 1) = (b.drop i).drop 1 := by
    rw [List.drop_drop, Nat.add_comm]
  rw [h1, h, List.drop_one, List.tail_cons]

theorem drop_len_lt {b : Buf} {i : Nat} {w : List Nat} {c : Nat} {r : List Nat}
    (h : b.drop i = w ++ c :: r) : i + w.length < b.length := by
  have h1 : (b.drop i).length = b.length - i := List.length_drop i b
  rw [h] at h1
  simp only [List.length_append, List.length_cons] at h1
  omega

theorem drop_wr_of_lt {b : Buf} {j v q : Nat} (h : j < q) :
    (wr b j v).drop q = b.drop q := by
  apply List.ext_getElem?
  intro t
  have h1 : ∀ (l : List Nat), (l.drop q)[t]? = l[q + t]? := fun l => List.getElem?_drop l q t
  rw [h1, h1, wr, List.getElem?_set_ne (by omega)]

theorem rd_lt_of_drop {b : Buf} {i : Nat} {w : List Nat} {c : Nat} {r : List Nat}
    (h : b.drop i = w ++ c :: r) (t : Nat) (ht : t < w.length) :
    rd b (i + t) = rd w t := by
  rw [rd_of_drop h t, rd, rd, List.getD_eq_getElem?_getD, List.getD_eq_getElem?_getD,
      List.getElem?_append_left ht]

theorem rd_stop_of_drop {b : Buf} {i : Nat} {w : List Nat} {c : Nat} {r : List Nat}
    (h : b.drop i = w ++ c :: r) :
    rd b (i + w.length) = c := by
  rw [rd_of_drop h w.length, rd, List.getD_eq_getElem?_getD,
      List.getElem?_append_right (Nat.le_refl _)]
  simp

/-! ### Correspondence lemmas for the inner scanning loops -/

theorem skipWS_eq (w : List Nat) :
    ∀ (b : Buf) (n i fuel : Nat) (r : List Nat) (c : Nat),
    n = b.length →
    b.drop i = w ++ c :: r →
    (∀ x ∈ w, x = 32 ∨ x = 9) →
    ¬ (c = 32 ∨ c = 9) →
    w.length < fuel →
    skipWS fuel b n i = i + w.length := by
  induction w with
  | nil =>
    intro b n i fuel r c hn hd hw hc hf
    cases fuel with
    | zero => omega
    | succ fuel =>
      simp only [skipWS]
      rw [if_neg]
      · simp
      · intro hcon
        have he : rd b i = c := by simpa using rd_stop_of_drop (w := []) hd
        rw [he] at hcon
        exact hc hcon.2
  | cons a w ih =>
    intro b n i fuel r c hn hd hw hc hf
    cases fuel with
    | zero => simp at hf
    | succ fuel =>
      have ha : rd b i = a := by
        have := rd_stop_of_drop (w := []) (by simpa using hd)
        simpa using this
      have hlt : i < n := by
        have := drop_len_lt (w := []) (c := a) (by simpa using hd)
        omega
      simp only [skipWS]
      rw [if_pos ⟨hlt, by rw [ha]; exact hw a (by simp)⟩]
      rw [ih b n (i + 1) fuel r c hn (by simpa using drop_cons_succ hd)
          (fun x hx => hw x (by simp [hx])) hc (by simpa using Nat.lt_of_succ_lt_succ hf)]
      simp [Nat.add_comm, Nat.add_assoc, Nat.add_left_comm]

theorem skipSep_eq (w : List Nat) :
    ∀ (b : Buf) (n i fuel : Nat) (r : List Nat) (c : Nat),
    n = b.length →
    b.drop i = w ++ c :: r →
    (∀ x ∈ w, x = 61 ∨ x = 32 ∨ x = 9) →
    ¬ (c = 61 ∨ c = 32 ∨ c = 9) →
    w.length < fuel →
    skipSep fuel b n i = i + w.length := by
  induction w with
  | nil =>
    intro b n i fuel r c hn hd hw hc hf
    cases fuel with
    | zero => omega
    | succ fuel =>
      simp only [skipSep]
      rw [if_neg]
      · simp
      · intro hcon
        have he : rd b i = c := by simpa using rd_stop_of_drop (w := []) hd
        rw [he] at hcon
        exact hc hcon.2
  | cons a w ih =>
    intro b n i fuel r c hn hd hw hc hf
    cases fuel with
    | zero => simp at hf
    | succ fuel =>
      have ha : rd b i = a := by
        have := rd_stop_of_drop (w := []) (by simpa using hd)
        simpa using this
      have hlt : i < n := by
        have := drop_len_lt (w := []) (c := a) (by simpa using hd)
        omega
      simp only [skipSep]
      rw [if_pos ⟨hlt, by rw [ha]; exact hw a (by simp)⟩]
      rw [ih b n (i + 1) fuel r c hn (by simpa using drop_cons_succ hd)
          (fun x hx => hw x (by simp [hx])) hc (by simpa using Nat.lt_of_succ_lt_succ hf)]
      simp [Nat.add_comm, Nat.add_assoc, Nat.add_left_comm]

theorem scanKey_eq (w : List Nat) :
    ∀ (b : Buf) (n i fuel : Nat) (r : List Nat) (c : Nat),
    n = b.length →
    b.drop i = w ++ c :: r →
    (∀ x ∈ w, x ≠ 0 ∧ ¬ (x = 61 ∨ x = 32 ∨ x = 9)) →
    (c = 0 ∨ c = 61 ∨ c = 32 ∨ c = 9) →
    w.length < fuel →
    scanKey fuel b n i =
      (if c = 0 then .error () else .ok (i + w.length)) := by
  induction w with
  | nil =>
    intro b n i fuel r c hn hd hw hstop hf
    cases fuel with
    | zero => omega
    | succ fuel =>
      have hc : rd b i = c := by
        have := rd_stop_of_drop (w := []) hd
        simpa using this
      have hlt : i < n := by
        have := drop_len_lt (w := []) (c := c) hd
        omega
      simp only [scanKey]
      rw [if_pos hlt, hc]
      by_cases h0 : c = 0
      · simp [h0]
      · rw [if_neg h0, if_neg h0, if_pos (by tauto)]
        simp
  | cons a w ih =>
    intro b n i fuel r c hn hd hw hstop hf
    cases fuel with
    | zero => simp at hf
    | succ fuel =>
      have ha : rd b i = a := by
        have := rd_stop_of_drop (w := []) (by simpa using hd)
        simpa using this
      have hlt : i < n := by
        have := drop_len_lt (w := []) (c := a) (by simpa using hd)
        omega
      obtain ⟨ha0, has⟩ := hw a (by simp)
      simp only [scanKey]
      rw [if_pos hlt, ha, if_neg ha0, if_neg has]
      rw [ih b n (i + 1) fuel r c hn (by simpa using drop_cons_succ hd)
          (fun x hx => hw x (by simp [hx])) hstop (by simpa using Nat.lt_of_succ_lt_succ hf)]
      have heq : i + 1 + w.length = i + (a :: w).length := by simp; omega
      rw [heq]

theorem scanName_eq (w : List Nat) :
    ∀ (b : Buf) (n i fuel : Nat) (r : List Nat) (c : Nat),
    n = b.length →
    b.drop i = w ++ c :: r →
    (∀ x ∈ w, x ≠ 93 ∧ x ≠ 0) →
    (c = 93 ∨ c = 0) →
    w.length < fuel →
    scanName fuel b n i =
      (if c = 93 then .ok (wr b (i + w.length) 0, i + w.length + 1) else .error ()) := by
  induction w with
  | nil =>
    intro b n i fuel r c hn hd hw hstop hf
    cases fuel with
    | zero => omega
    | succ fuel =>
      have hc : rd b i = c := by simpa using rd_stop_of_drop (w := []) hd
      have hlt : i < n := by
        have := drop_len_lt (w := []) (c := c) hd
        omega
      simp only [scanName]
      rw [if_pos hlt, hc]
      rcases hstop with h9 | h0
      · rw [if_pos h9, if_pos h9]
        simp
      · rw [if_neg (show ¬ c = 93 by omega), if_neg (show ¬ c = 93 by omega), if_pos h0]
  | cons a w ih =>
    intro b n i fuel r c hn hd hw hstop hf
    cases fuel with
    | zero => simp at hf
    | succ fuel =>
      have ha : rd b i = a := by
        have := rd_stop_of_drop (w := []) (by simpa using hd)
        simpa using this
      have hlt : i < n := by
        have := drop_len_lt (w := []) (c := a) (by simpa using hd)
        omega
      obtain ⟨ha9, ha0⟩ := hw a (by simp)
      simp only [scanName]
      rw [if_pos hlt, ha, if_neg ha9, if_neg ha0]
      rw [ih b n (i + 1) fuel r c hn (by simpa using drop_cons_succ hd)
          (fun x hx => hw x (by simp [hx])) hstop (by simpa using Nat.lt_of_succ_lt_succ hf)]
      have heq : i + 1 + w.length = i + (a :: w).length := by simp; omega
      rw [heq]

theorem scanVal_eq (w : List Nat) :
    ∀ (b : Buf) (n i fuel : Nat) (r : List Nat) (c : Nat),
    n = b.length →
    b.drop i = w ++ c :: r →
    (∀ x ∈ w, x ≠ 0 ∧ ¬ (x = 35 ∨ x = 59)) →
    (c = 0 ∨ c = 35 ∨ c = 59) →
    w.length < fuel →
    scanVal fuel b n i =
      (if c = 0 then .ok (i + w.length)
       else if rd b (i + w.length - 1) ≠ 32 ∧ rd b (i + w.length - 1) ≠ 9 then .error ()
       else .ok (i + w.length)) := by
  induction w with
  | nil =>
    intro b n i fuel r c hn hd hw hstop hf
    cases fuel with
    | zero => omega
    | succ fuel =>
      have hc : rd b i = c := by simpa using rd_stop_of_drop (w := []) hd
      have hlt : i < n := by
        have := drop_len_lt (w := []) (c := c) hd
        omega
      simp only [scanVal]
      rw [if_pos hlt, hc]
      rcases hstop with h0 | hcm
      · rw [if_pos h0, if_pos h0]
        simp
      · rw [if_neg (show ¬ c = 0 by omega), if_pos hcm, if_neg (show ¬ c = 0 by omega)]
        simp
  | cons a w ih =>
    intro b n i fuel r c hn hd hw hstop hf
    cases fuel with
    | zero => simp at hf
    | succ fuel =>
      have ha : rd b i = a := by
        have := rd_stop_of_drop (w := []) (by simpa using hd)
        simpa using this
      have hlt : i < n := by
        have := drop_len_lt (w := []) (c := a) (by simpa using hd)
        omega
      obtain ⟨ha0, hacm⟩ := hw a (by simp)
      simp only [scanVal]
      rw [if_pos hlt, ha, if_neg ha0, if_neg hacm]
      rw [ih b n (i + 1) fuel r c hn (by simpa using drop_cons_succ hd)
          (fun x hx => hw x (by simp [hx])) hstop (by simpa using Nat.lt_of_succ_lt_succ hf)]
      have heq : i + 1 + w.length = i + (a :: w).length := by simp; omega
      rw [heq]

theorem scanEOL_lf (w : List Nat) :
    ∀ (b : Buf) (n i fuel : Nat) (r : List Nat),
    n = b.length →
    b.drop i = w ++ 10 :: r →
    (∀ x ∈ w, x ≠ 10 ∧ x ≠ 13) →
    w.length < fuel →
    scanEOL fuel b n i = .ok (wr b (i + w.length) 0, i + w.length) := by
  induction w with
  | nil =>
    intro b n i fuel r hn hd hw hf
    cases fuel with
    | zero => omega
    | succ fuel =>
      have hc : rd b i = 10 := by simpa using rd_stop_of_drop (w := []) hd
      have hlt : i < n := by
        have := drop_len_lt (w := []) (c := 10) hd
        omega
      simp only [scanEOL]
      rw [if_pos hlt, hc]
      rw [if_neg (show ¬ (10 : Nat) = 13 by omega), if_pos rfl]
      simp
  | cons a w ih =>
    intro b n i fuel r hn hd hw hf
    cases fuel with
    | zero => simp at hf
    | succ fuel =>
      have ha : rd b i = a := by
        have := rd_stop_of_drop (w := []) (by simpa using hd)
        simpa using this
      obtain ⟨ha10, ha13⟩ := hw a (by simp)
      have hlt : i < n := by
        have := drop_len_lt (w := []) (c := a) (by simpa using hd)
        omega
      simp only [scanEOL]
      rw [if_pos hlt, ha, if_neg ha13, if_neg ha10]
      rw [ih b n (i + 1) fuel r hn (by simpa using drop_cons_succ hd)
          (fun x hx => hw x (by simp [hx])) (by simpa using Nat.lt_of_succ_lt_succ hf)]
      have heq : i + 1 + w.length = i + (a :: w).length := by simp; omega
      rw [heq]

theorem scanEOL_cr (w : List Nat) :
    ∀ (b : Buf) (n i fuel : Nat) (r : List Nat),
    n = b.length →
    b.drop i = w ++ 13 :: r →
    (∀ x ∈ w, x ≠ 10 ∧ x ≠ 13) →
    w.length < fuel →
    scanEOL fuel b n i =
      (if rd b (i + w.length + 1) = 10
       then .ok (wr (wr b (i + w.length) 0) (i + w.length + 1) 0, i + w.length + 1)
       else .error ()) := by
  induction w with
  | nil =>
    intro b n i fuel r hn hd hw hf
    cases fuel with
    | zero => omega
    | succ fuel =>
      have hc : rd b i = 13 := by simpa using rd_stop_of_drop (w := []) hd
      have hlt : i < n := by
        have := drop_len_lt (w := []) (c := 13) hd
        omega
      simp only [scanEOL]
      rw [if_pos hlt, hc, if_pos rfl]
      rw [rd_wr_ne b i 0 (i + 1) (by omega)]
      simp
  | cons a w ih =>
    intro b n i fuel r hn hd hw hf
    cases fuel with
    | zero => simp at hf
    | succ fuel =>
      have ha : rd b i = a := by
        have := rd_stop_of_drop (w := []) (by simpa using hd)
        simpa using this
      obtain ⟨ha10, ha13⟩ := hw a (by simp)
      have hlt : i < n := by
        have := drop_len_lt (w := []) (c := a) (by simpa using hd)
        omega
      simp only [scanEOL]
      rw [if_pos hlt, ha, if_neg ha13, if_neg ha10]
      rw [ih b n (i + 1) fuel r hn (by simpa using drop_cons_succ hd)
          (fun x hx => hw x (by simp [hx])) (by simpa using Nat.lt_of_succ_lt_succ hf)]
      have heq : i + 1 + w.length = i + (a :: w).length := by simp; omega
      rw [heq]

theorem trimBack_stop (b : Buf) (m : Nat) (h : ¬ (rd b m = 32 ∨ rd b m = 9)) :
    trimBack b m = m + 1 := by
  cases m with
  | zero =>
    simp only [trimBack]
    rw [if_neg h]
  | succ k =>
    simp only [trimBack]
    rw [if_neg h]

theorem trimTrail_last_ws {v : List Nat} {a : Nat} (hws : wsB a = true) :
    trimTrail (v ++ [a]) = trimTrail v := by
  simp [trimTrail, hws]

theorem trimTrail_last_not_ws {v : List Nat} {a : Nat} (hws : wsB a = false) :
    trimTrail (v ++ [a]) = v ++ [a] := by
  simp [trimTrail, hws]

theorem trimBack_eq (u : List Nat) :
    ∀ (b : Buf) (q : Nat) (r : List Nat),
    b.drop q = u ++ r →
    u ≠ [] →
    ¬ (u.headD 0 = 32 ∨ u.headD 0 = 9) →
    trimBack b (q + u.length - 1) = q + (trimTrail u).length := by
  induction u using List.reverseRecOn with
  | nil => intro b q r hd hne hh; exact absurd rfl hne
  | append_singleton v a ih =>
    intro b q r hd hne hh
    have hra : rd b (q + v.length) = a := by
      have hd2 : b.drop q = v ++ a :: r := by simpa using hd
      exact rd_stop_of_drop hd2
    have hidx : q + (v ++ [a]).length - 1 = q + v.length := by simp
    rw [hidx]
    by_cases hws : a = 32 ∨ a = 9
    · have hv : v ≠ [] := by
        rintro rfl
        simp only [List.nil_append, List.headD_cons] at hh
        exact hh hws
    
      obtain ⟨k, hk⟩ : ∃ k, q + v.length = k + 1 :=
        ⟨q + v.length - 1, by
          have : v.length ≠ 0 := by simpa using hv
          omega⟩
      rw [hk]
      simp only [trimBack]
      rw [if_pos (by rw [← hk, hra]; exact hws)]
      have hk2 : k = q + v.length - 1 := by omega
      rw [hk2]
      rw [ih b q (a :: r) (by simpa using hd) hv
          (by
            cases v with
            | nil => exact absurd rfl hv
            | cons x xs => simpa using hh)]
      rw [trimTrail_last_ws (by simp [wsB]; tauto)]
    · rw [trimBack_stop b (q + v.length) (by rw [hra]; exact hws)]
      rw [trimTrail_last_not_ws (by simp [wsB]; tauto)]
      simp
      omega

/-! ### Segment-level analysis of the input lines -/

theorem rd_ge (b : Buf) (t : Nat) (h : b.length ≤ t) : rd b t = 0 := by
  simp [rd, List.getD_eq_getElem?_getD, List.getElem?_eq_none h]

theorem dropWhile_head_false {p : Nat → Bool} :
    ∀ {l : List Nat} {x : Nat} {xs : List Nat}, l.dropWhile p = x :: xs → p x = false := by
  intro l
  induction l with
  | nil => intro x xs h; simp at h
  | cons a as ih =>
    intro x xs h
    rw [List.dropWhile_cons] at h
    by_cases hp : p a
    · rw [if_pos hp] at h
      exact ih h
    · rw [if_neg hp] at h
      cases h
      simpa using hp

theorem dropWhile_append_cons {p : Nat → Bool} {y : Nat} (hy : p y = false) :
    ∀ (l ys : List Nat), (l ++ y :: ys).dropWhile p = l.dropWhile p ++ y :: ys := by
  intro l ys
  induction l with
  | nil => simp [List.dropWhile_cons, hy]
  | cons a as ih =>
    rw [List.cons_append, List.dropWhile_cons, List.dropWhile_cons]
    by_cases hp : p a
    · rw [if_pos hp, if_pos hp, ih]
    · rw [if_neg hp, if_neg hp, List.cons_append]

/-- The line content seen by the parser is the leading-whitespace-skipped
segment with a trailing carriage return removed. -/
theorem lineTrim_eq (seg : List Nat) : lineTrim seg = stripCR (seg.dropWhile wsB) := by
  unfold lineTrim stripCR
  by_cases hcr : seg.getLast? = some 13
  · rw [if_pos hcr]
    obtain ⟨s0, rfl⟩ : ∃ s0, seg = s0 ++ [13] := by
      cases seg using List.reverseRecOn with
      | nil => simp at hcr
      | append_singleton s0 a =>
        refine ⟨s0, ?_⟩
        have := List.getLast?_concat (l := s0) (a := a)
        rw [this] at hcr
        cases hcr
        rfl
    rw [dropWhile_append_cons (by simp [wsB]) s0 []]
    rw [if_pos (List.getLast?_concat _), List.dropLast_concat, List.dropLast_concat]
  · rw [if_neg hcr]
    by_cases he : seg.dropWhile wsB = []
    · rw [he]
      simp
    · rw [if_neg ?_]
      obtain ⟨d, rem, hrem⟩ := List.exists_cons_of_ne_nil he
      intro hc
      apply hcr
      have hsuf : (seg.dropWhile wsB).getLast? = seg.getLast? := by
        conv_rhs => rw [← List.takeWhile_append_dropWhile wsB seg]
        rw [List.getLast?_append_of_ne_nil _ he]
      rw [← hsuf, hc]

/-- Case analysis of a valid (no interior carriage return, no line feed)
segment after its leading whitespace. -/
theorem rem_cases (seg : List Nat) (h10 : (10:Nat) ∉ seg) (hbad : ¬ segBad seg) :
    seg.dropWhile wsB = [] ∨ seg.dropWhile wsB = [13] ∨
    (∃ d rem, seg.dropWhile wsB = d :: rem ∧ d ≠ 13 ∧ d ≠ 10 ∧ wsB d = false) := by
  cases hrem : seg.dropWhile wsB with
  | nil => exact Or.inl rfl
  | cons d rem =>
    by_cases hd13 : d = 13
    · subst hd13
      cases rem with
      | nil => exact Or.inr (Or.inl rfl)
      | cons e rem2 =>
        exfalso
        apply hbad
        unfold segBad
        have hsub : seg.dropWhile wsB <:+ seg := List.dropWhile_suffix wsB
        obtain ⟨w, hw⟩ := hsub
        rw [← hw, hrem]
        have : (13:Nat) ∈ (w ++ 13 :: e :: rem2).dropLast := by
          have hwd : (w ++ 13 :: e :: rem2).dropLast = w ++ (13 :: e :: rem2).dropLast := by
            rw [List.dropLast_append_of_ne_nil]
            simp
          rw [hwd]
          simp
        exact this
    · refine Or.inr (Or.inr ⟨d, rem, rfl, hd13, ?_, dropWhile_head_false hrem⟩)
      intro hd10
      apply h10
      have hsub : seg.dropWhile wsB <:+ seg := List.dropWhile_suffix wsB
      have : d ∈ seg := hsub.subset (by rw [hrem]; simp)
      rw [← hd10]
      exact this

theorem getD_mem {l : List Nat} {t : Nat} (h : t < l.length) : l.getD t 0 ∈ l := by
  rw [List.getD_eq_getElem?_getD, List.getElem?_eq_getElem h]
  exact List.getElem_mem h

/-- The head of the parser's line content, when the line is not blank:
from `rem = d :: rem'` (the segment after leading whitespace, `d` not a
line-ending byte), `lineTrim` is non-empty with head `d`. -/
theorem lineTrim_head {seg : List Nat} {d : Nat} {rem : List Nat}
    (hrem : seg.dropWhile wsB = d :: rem) (hd13 : d ≠ 13) :
    lineTrim seg ≠ [] ∧ (lineTrim seg).headD 0 = d := by
  rw [lineTrim_eq, hrem]
  unfold stripCR
  by_cases hlast : (d :: rem).getLast? = some 13
  · rw [if_pos hlast]
    cases rem with
    | nil => simp at hlast; omega
    | cons e rem2 =>
      constructor
      · simp
      · rw [List.dropLast_cons₂]
        simp
  · rw [if_neg hlast]
    exact ⟨by simp, by simp⟩

theorem drop_add_of_drop {b : Buf} {i : Nat} {L1 L2 : List Nat}
    (h : b.drop i = L1 ++ L2) : b.drop (i + L1.length) = L2 := by
  have h1 : b.drop (i + L1.length) = (b.drop i).drop L1.length := by
    rw [List.drop_drop, Nat.add_comm]
  rw [h1, h, List.drop_left]

theorem zeroB_eq_self {c : Nat} (h10 : c ≠ 10) (h13 : c ≠ 13) : zeroB c = c := by
  simp [zeroB, h10, h13]

/-- One full pass-1 iteration over one segment: where the whitespace
skip stops, how the stop byte classifies the line, and what `scanEOL`
does to the buffer. -/
theorem pass1_step (seg R : List Nat) (b : Buf) (n i : Nat)
    (hn : n = b.length)
    (hd : b.drop i = seg ++ 10 :: R)
    (h10 : (10:Nat) ∉ seg)
    (hbad : ¬ segBad seg) :
    skipWS (n + 1) b n i = i + (seg.takeWhile wsB).length ∧
    ((rd b (i + (seg.takeWhile wsB).length) = 91) ↔ isHeadSeg seg = true) ∧
    ((rd b (i + (seg.takeWhile wsB).length) ≠ 91 ∧ rd b (i + (seg.takeWhile wsB).length) ≠ 35 ∧
      rd b (i + (seg.takeWhile wsB).length) ≠ 59 ∧ rd b (i + (seg.takeWhile wsB).length) ≠ 10 ∧
      rd b (i + (seg.takeWhile wsB).length) ≠ 13) ↔ isParamSeg seg = true) ∧
    ∃ b1, scanEOL (n + 1) b n (i + (seg.takeWhile wsB).length) = .ok (b1, i + seg.length) ∧
      b1.length = b.length ∧
      (∀ t, t < i → rd b1 t = rd b t) ∧
      (∀ t, i ≤ t → t ≤ i + seg.length → rd b1 t = zeroB (rd b t)) ∧
      (∀ t, i + seg.length < t → rd b1 t = rd b t) := by
  have hlen : i + seg.length < b.length := drop_len_lt hd
  have hsplit : seg.takeWhile wsB ++ seg.dropWhile wsB = seg :=
    List.takeWhile_append_dropWhile wsB seg
  have hwmem : ∀ x ∈ seg.takeWhile wsB, x = 32 ∨ x = 9 := by
    intro x hx
    have := List.mem_takeWhile_imp hx
    simpa [wsB] using this
  have hsegbyte : ∀ t, t < seg.length → rd b (i + t) = seg.getD t 0 := by
    intro t ht
    exact rd_lt_of_drop hd t ht
  have hsegend : rd b (i + seg.length) = 10 := rd_stop_of_drop hd
  have hwlle : (seg.takeWhile wsB).length ≤ seg.length := by
    conv_rhs => rw [← hsplit]
    rw [List.length_append]
    omega
  have hfuelw : (seg.takeWhile wsB).length < n + 1 := by omega
  rcases rem_cases seg h10 hbad with hrem | hrem | ⟨d, rem, hrem, hd13, hd10, hdws⟩
  · -- blank line: the whole segment is whitespace, the stop byte is the LF
    have hseg : seg.takeWhile wsB = seg := by
      conv_rhs => rw [← hsplit, hrem]
      simp
    have hLL : (seg.takeWhile wsB).length = seg.length := by rw [hseg]
    have hd0 : b.drop i = seg.takeWhile wsB ++ 10 :: R := by rw [hseg]; exact hd
    have hski : skipWS (n + 1) b n i = i + (seg.takeWhile wsB).length :=
      skipWS_eq (seg.takeWhile wsB) b n i (n + 1) R 10 hn hd0 hwmem
        (show ¬ ((10:Nat) = 32 ∨ (10:Nat) = 9) by decide) hfuelw
    have hstop : rd b (i + (seg.takeWhile wsB).length) = 10 := by
      rw [hLL]; exact hsegend
    have hblank : lineTrim seg = [] := by rw [lineTrim_eq, hrem]; rfl
    have hdropend : b.drop (i + seg.length) = 10 :: R := drop_add_of_drop hd
    refine ⟨hski, ?_, ?_, ?_⟩
    · rw [hstop]; simp [isHeadSeg, hblank]
    · rw [hstop]; simp [isParamSeg, hblank]
    · refine ⟨wr b (i + seg.length) 0, ?_, wr_length .., ?_, ?_, ?_⟩
      · rw [hLL]
        have hsc := scanEOL_lf [] b n (i + seg.length) (n + 1) R hn
          (by simpa using hdropend) (by simp) (by simp)
        simpa using hsc
      · intro t ht
        exact rd_wr_ne b (i + seg.length) 0 t (by omega)
      · intro t ht1 ht2
        by_cases he : t = i + seg.length
        · subst he
          rw [rd_wr_self b _ 0 (by omega), hsegend]
          rfl
        · rw [rd_wr_ne b _ 0 t he]
          have htl : t - i < seg.length := by omega
          have hb := hsegbyte (t - i) htl
          rw [show i + (t - i) = t by omega] at hb
          have hws : seg.getD (t - i) 0 = 32 ∨ seg.getD (t - i) 0 = 9 := by
            apply hwmem
            rw [hseg]
            exact getD_mem htl
          rw [hb]
          exact (zeroB_eq_self (by omega) (by omega)).symm
      · intro t ht
        exact rd_wr_ne b (i + seg.length) 0 t (by omega)
  · -- blank line ending in CR: stop byte is the CR, both CR and LF zeroed
    have hseg : seg = seg.takeWhile wsB ++ [13] := by
      conv_lhs => rw [← hsplit, hrem]
    have hlw : seg.length = (seg.takeWhile wsB).length + 1 := by
      conv_lhs => rw [hseg]
      simp
    have hd2 : b.drop i = seg.takeWhile wsB ++ 13 :: (10 :: R) := by
      rw [hd]
      conv_lhs => rw [hseg]
      simp
    have hski : skipWS (n + 1) b n i = i + (seg.takeWhile wsB).length :=
      skipWS_eq (seg.takeWhile wsB) b n i (n + 1) (10 :: R) 13 hn hd2 hwmem
        (show ¬ ((13:Nat) = 32 ∨ (13:Nat) = 9) by decide) hfuelw
    have hstop : rd b (i + (seg.takeWhile wsB).length) = 13 := rd_stop_of_drop hd2
    have hblank : lineTrim seg = [] := by
      rw [lineTrim_eq, hrem]
      rfl
    have hnext : rd b (i + (seg.takeWhile wsB).length + 1) = 10 := by
      have hd3 : b.drop i = (seg.takeWhile wsB ++ [13]) ++ 10 :: R := by
        rw [hd2]; simp
      have hh := rd_stop_of_drop hd3
      simpa [Nat.add_assoc] using hh
    refine ⟨hski, ?_, ?_, ?_⟩
    · rw [hstop]; simp [isHeadSeg, hblank]
    · rw [hstop]; simp [isParamSeg, hblank]
    · refine ⟨wr (wr b (i + (seg.takeWhile wsB).length) 0)
        (i + (seg.takeWhile wsB).length + 1) 0, ?_, ?_, ?_, ?_, ?_⟩
      · have hsc := scanEOL_cr [] b n (i + (seg.takeWhile wsB).length) (n + 1) (10 :: R) hn
          (by simpa using drop_add_of_drop hd2) (by simp) (by simp)
        simp only [List.length_nil, Nat.add_zero] at hsc
        rw [hsc, if_pos hnext]
        rw [show i + seg.length = i + (seg.takeWhile wsB).length + 1 by omega]
      · rw [wr_length, wr_length]
      · intro t ht
        rw [rd_wr_ne _ _ 0 t (by omega), rd_wr_ne _ _ 0 t (by omega)]
      · intro t ht1 ht2
        by_cases he1 : t = i + (seg.takeWhile wsB).length + 1
        · subst he1
          rw [rd_wr_self _ _ 0 (by rw [wr_length]; omega), hnext]
          rfl
        · rw [rd_wr_ne _ _ 0 t he1]
          by_cases he2 : t = i + (seg.takeWhile wsB).length
          · subst he2
            rw [rd_wr_self _ _ 0 (by omega), hstop]
            rfl
          · rw [rd_wr_ne _ _ 0 t he2]
            have htl : t - i < (seg.takeWhile wsB).length := by omega
            have hb : rd b t = (seg.takeWhile wsB).getD (t - i) 0 := by
              have hh := rd_lt_of_drop hd2 (t - i) htl
              rw [show i + (t - i) = t by omega] at hh
              exact hh
            have hws : (seg.takeWhile wsB).getD (t - i) 0 = 32 ∨
                (seg.takeWhile wsB).getD (t - i) 0 = 9 :=
              hwmem _ (getD_mem htl)
            rw [hb]
            exact (zeroB_eq_self (by omega) (by omega)).symm
      · intro t ht
        rw [rd_wr_ne _ _ 0 t (by omega), rd_wr_ne _ _ 0 t (by omega)]
  · -- content line: stop byte is the first non-whitespace byte d
    have hseg : seg = seg.takeWhile wsB ++ d :: rem := by
      conv_lhs => rw [← hsplit, hrem]
    have hlw : seg.length = (seg.takeWhile wsB).length + rem.length + 1 := by
      conv_lhs => rw [hseg]
      simp
      omega
    have hd2 : b.drop i = seg.takeWhile wsB ++ d :: (rem ++ 10 :: R) := by
      rw [hd]
      conv_lhs => rw [hseg]
      simp
    have hski : skipWS (n + 1) b n i = i + (seg.takeWhile wsB).length :=
      skipWS_eq (seg.takeWhile wsB) b n i (n + 1) (rem ++ 10 :: R) d hn hd2 hwmem
        (show ¬ (d = 32 ∨ d = 9) by simp [wsB] at hdws; tauto) hfuelw
    have hstop : rd b (i + (seg.takeWhile wsB).length) = d := rd_stop_of_drop hd2
    obtain ⟨hlt_ne, hlt_head⟩ := lineTrim_head hrem hd13
    have hih : (isHeadSeg seg = true) ↔ d = 91 := by
      unfold isHeadSeg
      rw [hlt_head]
      simp
    have hip : (isParamSeg seg = true) ↔ (d ≠ 91 ∧ d ≠ 35 ∧ d ≠ 59) := by
      unfold isParamSeg
      rw [hlt_head]
      simp [isCmB, hlt_ne]
    have hdrem : b.drop (i + (seg.takeWhile wsB).length) = (d :: rem) ++ 10 :: R := by
      have hh := drop_add_of_drop hd2
      simpa using hh
    have hmemdr : ∀ x ∈ d :: rem, x ∈ seg := by
      intro x hx
      rw [hseg]
      exact List.mem_append_right _ hx
    refine ⟨hski, ?_, ?_, ?_⟩
    · rw [hstop, hih]
    · rw [hstop, hip]
      constructor
      · rintro ⟨a1, a2, a3, _, _⟩
        exact ⟨a1, a2, a3⟩
      · rintro ⟨a1, a2, a3⟩
        exact ⟨a1, a2, a3, hd10, hd13⟩
    · by_cases hcr : (13:Nat) ∈ seg
      · -- the line ends in CR LF
        obtain ⟨rem0, hrem0⟩ : ∃ rem0, rem = rem0 ++ [13] := by
          cases rem using List.reverseRecOn with
          | nil =>
            exfalso
            have : (13:Nat) ∈ seg.takeWhile wsB ++ [d] := by rw [← hseg]; exact hcr
            rcases List.mem_append.mp this with h | h
            · rcases hwmem 13 h with h | h <;> omega
            · simp at h; omega
          | append_singleton r0 a =>
            refine ⟨r0, ?_⟩
            by_cases ha : a = 13
            · rw [ha]
            · exfalso
              apply hbad
              unfold segBad
              have hdl : seg.dropLast = seg.takeWhile wsB ++ d :: r0 := by
                conv_lhs => rw [hseg]
                rw [show seg.takeWhile wsB ++ d :: (r0 ++ [a]) =
                     (seg.takeWhile wsB ++ d :: r0) ++ [a] by simp]
                exact List.dropLast_concat ..
              rw [hdl]
              have h13in : (13:Nat) ∈ seg.takeWhile wsB ++ d :: (r0 ++ [a]) := by
                rw [← hseg]; exact hcr
              rcases List.mem_append.mp h13in with h | h
              · exact List.mem_append_left _ h
              · rcases List.mem_cons.mp h with h | h
                · omega
                · rcases List.mem_append.mp h with h | h
                  · exact List.mem_append_right _ (List.mem_cons_of_mem _ h)
                  · simp at h; omega
        have hremlen : rem.length = rem0.length + 1 := by rw [hrem0]; simp
        have h13mid : (13:Nat) ∉ seg.takeWhile wsB ++ d :: rem0 := by
          intro hx
          apply hbad
          unfold segBad
          have hdl : seg.dropLast = seg.takeWhile wsB ++ d :: rem0 := by
            conv_lhs => rw [hseg, hrem0]
            rw [show seg.takeWhile wsB ++ d :: (rem0 ++ [13]) =
                 (seg.takeWhile wsB ++ d :: rem0) ++ [13] by simp]
            exact List.dropLast_concat ..
          rw [hdl]
          exact hx
        have hdr2 : b.drop (i + (seg.takeWhile wsB).length) =
            (d :: rem0) ++ 13 :: (10 :: R) := by
          rw [hdrem, hrem0]
          simp
        have hw2 : ∀ x ∈ d :: rem0, x ≠ 10 ∧ x ≠ 13 := by
          intro x hx
          constructor
          · intro h
            apply h10
            have : x ∈ d :: rem := by
              rcases List.mem_cons.mp hx with h1 | h1
              · simp [h1]
              · rw [hrem0]
                exact List.mem_cons_of_mem _ (List.mem_append_left _ h1)
            rw [← h]
            exact hmemdr x this
          · intro h
            apply h13mid
            rw [← h]
            exact List.mem_append_right _ hx
        have hfw2 : (d :: rem0).length < n + 1 := by
          have : rem0.length < rem.length := by rw [hrem0]; simp
          simp only [List.length_cons]
          omega
        have hsc := scanEOL_cr (d :: rem0) b n (i + (seg.takeWhile wsB).length) (n + 1)
          (10 :: R) hn hdr2 hw2 hfw2
        have hpos : i + (seg.takeWhile wsB).length + (d :: rem0).length + 1 = i + seg.length := by
          have : rem.length = rem0.length + 1 := by rw [hrem0]; simp
          simp only [List.length_cons]
          omega
        have h1310 : rd b (i + (seg.takeWhile wsB).length + (d :: rem0).length + 1) = 10 := by
          rw [hpos]; exact hsegend
        have hcrpos : rd b (i + (seg.takeWhile wsB).length + (d :: rem0).length) = 13 :=
          rd_stop_of_drop hdr2
        refine ⟨wr (wr b (i + (seg.takeWhile wsB).length + (d :: rem0).length) 0)
          (i + (seg.takeWhile wsB).length + (d :: rem0).length + 1) 0, ?_, ?_, ?_, ?_, ?_⟩
        · rw [hsc, if_pos h1310, hpos]
        · rw [wr_length, wr_length]
        · intro t ht
          rw [rd_wr_ne _ _ 0 t (by omega), rd_wr_ne _ _ 0 t (by omega)]
        · intro t ht1 ht2
          by_cases he1 : t = i + (seg.takeWhile wsB).length + (d :: rem0).length + 1
          · subst he1
            rw [rd_wr_self _ _ 0 (by rw [wr_length]; omega), h1310]
            rfl
          · rw [rd_wr_ne _ _ 0 t he1]
            by_cases he2 : t = i + (seg.takeWhile wsB).length + (d :: rem0).length
            · subst he2
              rw [rd_wr_self _ _ 0 (by omega), hcrpos]
              rfl
            · rw [rd_wr_ne _ _ 0 t he2]
              have htl : t - i < (seg.takeWhile wsB ++ d :: rem0).length := by
                simp only [List.length_append, List.length_cons]
                simp only [List.length_cons] at he1 he2
                omega
              have hb : rd b t = (seg.takeWhile wsB ++ d :: rem0).getD (t - i) 0 := by
                have hds : b.drop i = (seg.takeWhile wsB ++ d :: rem0) ++ 13 :: (10 :: R) := by
                  rw [hd]
                  conv_lhs => rw [hseg, hrem0]
                  simp
                have hh := rd_lt_of_drop hds (t - i) htl
                rw [show i + (t - i) = t by omega] at hh
                exact hh
              have hmem : (seg.takeWhile wsB ++ d :: rem0).getD (t - i) 0 ∈
                  seg.takeWhile wsB ++ d :: rem0 := getD_mem htl
              rw [hb]
              have hxseg : (List.takeWhile wsB seg ++ d :: rem0).getD (t - i) 0 ∈ seg := by
                rcases List.mem_append.mp hmem with hq | hq
                · exact (List.takeWhile_prefix wsB).subset hq
                · refine hmemdr _ ?_
                  rcases List.mem_cons.mp hq with h1 | h1
                  · rw [h1]
                    exact List.mem_cons_self ..
                  · rw [hrem0]
                    exact List.mem_cons_of_mem _ (List.mem_append_left _ h1)
              refine (zeroB_eq_self ?_ ?_).symm
              · intro h
                exact h10 (h ▸ hxseg)
              · intro h
                exact h13mid (h ▸ hmem)
        · intro t ht
          rw [rd_wr_ne _ _ 0 t (by omega), rd_wr_ne _ _ 0 t (by omega)]
      · -- the line ends in a bare LF
        have hw2 : ∀ x ∈ d :: rem, x ≠ 10 ∧ x ≠ 13 := by
          intro x hx
          constructor
          · intro h
            exact h10 (h ▸ hmemdr x hx)
          · intro h
            exact hcr (h ▸ hmemdr x hx)
        have hfw2 : (d :: rem).length < n + 1 := by
          simp only [List.length_cons]
          omega
        have hsc := scanEOL_lf (d :: rem) b n (i + (seg.takeWhile wsB).length) (n + 1)
          R hn hdrem hw2 hfw2
        have hpos : i + (seg.takeWhile wsB).length + (d :: rem).length = i + seg.length := by
          simp only [List.length_cons]
          omega
        refine ⟨wr b (i + seg.length) 0, ?_, wr_length .., ?_, ?_, ?_⟩
        · rw [hsc, hpos]
        · intro t ht
          exact rd_wr_ne b _ 0 t (by omega)
        · intro t ht1 ht2
          by_cases he : t = i + seg.length
          · subst he
            rw [rd_wr_self b _ 0 (by omega), hsegend]
            rfl
          · rw [rd_wr_ne b _ 0 t he]
            have htl : t - i < seg.length := by omega
            have hb := hsegbyte (t - i) htl
            rw [show i + (t - i) = t by omega] at hb
            have hmem : seg.getD (t - i) 0 ∈ seg := getD_mem htl
            rw [hb]
            refine (zeroB_eq_self ?_ ?_).symm
            · intro h
              exact h10 (h ▸ hmem)
            · intro h
              exact hcr (h ▸ hmem)
        · intro t ht
          exact rd_wr_ne b _ 0 t (by omega)

/-! ### The segment decomposition of the logical buffer -/

theorem joinLF_cons (s : List Nat) (segs : List (List Nat)) :
    joinLF (s :: segs) = s ++ 10 :: joinLF segs := rfl

theorem segsAux_join : ∀ (l cur : List Nat), l.getLast? = some 10 →
    joinLF (segsAux l cur) = cur.reverse ++ l := by
  intro l
  induction l with
  | nil => intro cur h; simp at h
  | cons c rest ih =>
    intro cur h
    by_cases hc : c = 10
    · subst hc
      rw [show segsAux (10 :: rest) cur = cur.reverse :: segsAux rest [] from by
        simp [segsAux]]
      cases rest with
      | nil => simp [joinLF, segsAux]
      | cons e r2 =>
        have hlast : (e :: r2).getLast? = some 10 := by
          rw [← h]
          exact (List.getLast?_cons_cons ..).symm
        rw [joinLF_cons, ih [] hlast]
        simp
    · rw [show segsAux (c :: rest) cur = segsAux rest (c :: cur) from by
        simp [segsAux, hc]]
      have hrest : rest ≠ [] := by
        rintro rfl
        simp at h
        exact hc h
      have hlast : rest.getLast? = some 10 := by
        rw [← h]
        cases rest with
        | nil => exact absurd rfl hrest
        | cons e r2 => exact (List.getLast?_cons_cons ..).symm
      rw [ih (c :: cur) hlast]
      simp

theorem joinLF_segsOf (f : List Nat) : joinLF (segsOf f) = f ++ [10] := by
  unfold segsOf
  rw [segsAux_join (f ++ [10]) [] (by simp)]
  simp

theorem segsAux_no10 : ∀ (l cur : List Nat), (10:Nat) ∉ cur →
    ∀ s ∈ segsAux l cur, (10:Nat) ∉ s := by
  intro l
  induction l with
  | nil => intro cur h s hs; simp [segsAux] at hs
  | cons c rest ih =>
    intro cur h s hs
    by_cases hc : c = 10
    · subst hc
      simp only [segsAux, if_pos rfl] at hs
      rcases List.mem_cons.mp hs with rfl | hs
      · simpa using h
      · exact ih [] (by simp) s hs
    · simp only [segsAux, if_neg hc] at hs
      refine ih (c :: cur) ?_ s hs
      intro hmem
      rcases List.mem_cons.mp hmem with h1 | h1
      · exact hc h1.symm
      · exact h h1

theorem segsOf_no10 (f : List Nat) : ∀ s ∈ segsOf f, (10:Nat) ∉ s :=
  segsAux_no10 _ [] (by simp)

theorem drop_eq_of_rd (b b2 : Buf) (q : Nat) (hlen : b2.length = b.length)
    (h : ∀ t, q ≤ t → rd b2 t = rd b t) : b2.drop q = b.drop q := by
  apply List.ext_getElem?
  intro t
  rw [List.getElem?_drop, List.getElem?_drop]
  by_cases hb : q + t < b.length
  · have h1 : b2[q + t]? = some (rd b2 (q + t)) := by
      rw [rd, List.getD_eq_getElem?_getD, List.getElem?_eq_getElem (by omega)]
      simp
    have h2 : b[q + t]? = some (rd b (q + t)) := by
      rw [rd, List.getD_eq_getElem?_getD, List.getElem?_eq_getElem hb]
      simp
    rw [h1, h2, h (q + t) (by omega)]
  · rw [List.getElem?_eq_none (by omega), List.getElem?_eq_none (by omega)]

/-- The pass-1 loop on a buffer whose remainder splits into valid
segments: it succeeds, records exactly the per-segment line starts,
counts header and parameter lines per the segment classification, and
overwrites every line-terminator byte from `i` on with NUL. -/
theorem pass1Loop_ok (segs : List (List Nat)) :
    ∀ (b : Buf) (n i : Nat) (ls : List Nat) (sc pc fuel : Nat),
    n = b.length →
    b.drop i = joinLF segs →
    (∀ s ∈ segs, (10:Nat) ∉ s) →
    (∀ s ∈ segs, ¬ segBad s) →
    segs.length < fuel →
    ∃ b1 : Buf,
      pass1Loop fuel b n i ls sc pc =
        .ok ⟨b1, ls ++ lineStarts i segs,
             sc + segs.countP isHeadSeg, pc + segs.countP isParamSeg⟩ ∧
      b1.length = b.length ∧
      (∀ t, t < i → rd b1 t = rd b t) ∧
      (∀ t, i ≤ t → rd b1 t = zeroB (rd b t)) := by
  induction segs with
  | nil =>
    intro b n i ls sc pc fuel hn hdrop h10 hbad hfuel
    cases fuel with
    | zero => omega
    | succ fuel =>
      have hi : b.length ≤ i := by
        have hl := congrArg List.length hdrop
        rw [List.length_drop] at hl
        simp [joinLF] at hl
        omega
      refine ⟨b, ?_, rfl, fun t _ => rfl, fun t ht => ?_⟩
      · simp only [pass1Loop]
        rw [if_neg (by omega)]
        simp [lineStarts]
      · rw [rd_ge b t (by omega)]
        rfl
  | cons seg rest ih =>
    intro b n i ls sc pc fuel hn hdrop h10 hbad hfuel
    cases fuel with
    | zero => simp at hfuel
    | succ fuel =>
      rw [joinLF_cons] at hdrop
      obtain ⟨hski, hHead, hParam, b2, hscan, hlen2, hlow, hmid, hhigh⟩ :=
        pass1_step seg (joinLF rest) b n i hn hdrop (h10 seg (by simp)) (hbad seg (by simp))
      have hseglen : i + seg.length < b.length := drop_len_lt hdrop
      have hlt : i < n := by omega
      have hdrop2 : b2.drop (i + seg.length + 1) = joinLF rest := by
        rw [drop_eq_of_rd b b2 (i + seg.length + 1) hlen2
            (fun t ht => hhigh t (by omega))]
        have hd2 : b.drop i = (seg ++ [10]) ++ joinLF rest := by
          rw [hdrop]; simp
        have := drop_add_of_drop hd2
        simpa using this
      obtain ⟨b1, hrec, hlen1, hlow1, hhigh1⟩ :=
        ih b2 n (i + seg.length + 1) (ls ++ [i + (seg.takeWhile wsB).length])
          (if rd b (i + (seg.takeWhile wsB).length) = 91 then sc + 1 else sc)
          (if rd b (i + (seg.takeWhile wsB).length) ≠ 91 ∧
              rd b (i + (seg.takeWhile wsB).length) ≠ 35 ∧
              rd b (i + (seg.takeWhile wsB).length) ≠ 59 ∧
              rd b (i + (seg.takeWhile wsB).length) ≠ 10 ∧
              rd b (i + (seg.takeWhile wsB).length) ≠ 13 then pc + 1 else pc)
          fuel (by rw [hn, ← hlen2]) hdrop2 (fun s hs => h10 s (by simp [hs]))
          (fun s hs => hbad s (by simp [hs])) (by simpa using Nat.lt_of_succ_lt_succ hfuel)
      refine ⟨b1, ?_, by omega, ?_, ?_⟩
      · simp only [pass1Loop]
        rw [if_pos hlt, hski, hscan]
        refine Eq.trans hrec ?_
        congr 2
        · rw [lineStarts]
          simp
        · by_cases hh : isHeadSeg seg = true
          · rw [if_pos (hHead.mpr hh), List.countP_cons, hh]
            simp only [if_true]
            omega
          · rw [if_neg (fun hc => hh (hHead.mp hc)), List.countP_cons]
            simp only [Bool.not_eq_true] at hh
            rw [hh]
            simp
        · by_cases hh : isParamSeg seg = true
          · rw [if_pos (hParam.mpr hh), List.countP_cons, hh]
            simp only [if_true]
            omega
          · rw [if_neg (fun hc => hh (hParam.mp hc)), List.countP_cons]
            simp only [Bool.not_eq_true] at hh
            rw [hh]
            simp
      · intro t ht
        rw [hlow1 t (by omega), hlow t ht]
      · intro t ht
        by_cases hc : t < i + seg.length + 1
        · rw [hlow1 t (by omega), hmid t ht (by omega)]
        · rw [hhigh1 t (by omega), hhigh t (by omega)]

theorem joinLF_append (xs ys : List (List Nat)) :
    joinLF (xs ++ ys) = joinLF xs ++ joinLF ys := by
  induction xs with
  | nil => simp [joinLF]
  | cons s xs ih =>
    rw [List.cons_append, joinLF_cons, joinLF_cons, ih]
    simp

/-- Decompose a list at its first occurrence of 13. -/
theorem first13_decomp {l : List Nat} (h : (13:Nat) ∈ l) :
    ∃ v, l = l.takeWhile (fun c => c ≠ 13) ++ 13 :: v ∧
      (∀ x ∈ l.takeWhile (fun c => c ≠ 13), x ≠ 13) := by
  have hsplit : l.takeWhile (fun c => c ≠ 13) ++ l.dropWhile (fun c => c ≠ 13) = l :=
    List.takeWhile_append_dropWhile ..
  have hne : l.dropWhile (fun c => c ≠ 13) ≠ [] := by
    intro he
    rw [he, List.append_nil] at hsplit
    rw [← hsplit] at h
    have := List.mem_takeWhile_imp h
    simp at this
  obtain ⟨x, xs, hx⟩ := List.exists_cons_of_ne_nil hne
  have hx13 : x = 13 := by
    have := dropWhile_head_false hx
    simpa using this
  refine ⟨xs, ?_, ?_⟩
  · conv_lhs => rw [← hsplit]
    rw [hx, hx13]
  · intro y hy
    have := List.mem_takeWhile_imp hy
    simpa using this

theorem takeWhile_append_all {p : Nat → Bool} {xs : List Nat}
    (h : ∀ x ∈ xs, p x) (ys : List Nat) :
    (xs ++ ys).takeWhile p = xs ++ ys.takeWhile p := by
  induction xs with
  | nil => simp
  | cons a as ih =>
    rw [List.cons_append, List.takeWhile_cons, if_pos (h a (by simp))]
    rw [ih (fun x hx => h x (by simp [hx]))]
    rfl

theorem seg_13_final {seg : List Nat} (hclean : ¬ segBad seg) {k : Nat}
    (hk : k < seg.length) (h13 : seg.getD k 0 = 13) : k = seg.length - 1 := by
  by_contra hne
  apply hclean
  unfold segBad
  have hnil : seg ≠ [] := by
    intro h
    rw [h] at hk
    simp at hk
  have hdec : seg.dropLast ++ [seg.getLast hnil] = seg := List.dropLast_append_getLast hnil
  have hklt : k < seg.dropLast.length := by
    rw [List.length_dropLast]
    omega
  have : seg.getD k 0 = seg.dropLast.getD k 0 := by
    conv_lhs => rw [← hdec]
    rw [List.getD_eq_getElem?_getD, List.getD_eq_getElem?_getD,
        List.getElem?_append_left hklt]
  rw [this] at h13
  rw [← h13]
  exact getD_mem hklt

/-- The pass-1 loop fails on the first segment containing an interior
carriage return, reporting the 1-based index of that line; the offending
carriage return — the first one not followed by a line feed — sits at a
position determined by the preceding segments. -/
theorem pass1Loop_err (good : List (List Nat)) :
    ∀ (badseg : List Nat) (rest : List (List Nat)) (b : Buf) (n i : Nat)
      (ls : List Nat) (sc pc fuel : Nat),
    n = b.length →
    b.drop i = joinLF (good ++ badseg :: rest) →
    (∀ s ∈ good ++ badseg :: rest, (10:Nat) ∉ s) →
    (∀ s ∈ good, ¬ segBad s) →
    segBad badseg →
    (good ++ badseg :: rest).length < fuel →
    pass1Loop fuel b n i ls sc pc = .error (ls.length + good.length + 1) ∧
    (rd b (i + (joinLF good).length + (badseg.takeWhile (fun c => c ≠ 13)).length) = 13 ∧
     rd b (i + (joinLF good).length + (badseg.takeWhile (fun c => c ≠ 13)).length + 1) ≠ 10) ∧
    (∀ t, i ≤ t →
      t < i + (joinLF good).length + (badseg.takeWhile (fun c => c ≠ 13)).length →
      ¬ (rd b t = 13 ∧ rd b (t + 1) ≠ 10)) := by
  induction good with
  | nil =>
    intro badseg rest b n i ls sc pc fuel hn hdrop h10 hgood hbad hfuel
    cases fuel with
    | zero => simp at hfuel
    | succ fuel =>
      rw [List.nil_append, joinLF_cons] at hdrop
      have h10b : (10:Nat) ∉ badseg := h10 badseg (by simp)
      have h13mem : (13:Nat) ∈ badseg := List.dropLast_subset _ hbad
      -- split off the leading whitespace
      have hsplit : badseg.takeWhile wsB ++ badseg.dropWhile wsB = badseg :=
        List.takeWhile_append_dropWhile ..
      have hwmem : ∀ x ∈ badseg.takeWhile wsB, x = 32 ∨ x = 9 := by
        intro x hx
        have := List.mem_takeWhile_imp hx
        simpa [wsB] using this
      cases hrem : badseg.dropWhile wsB with
      | nil =>
        exfalso
        rw [hrem, List.append_nil] at hsplit
        rcases hwmem 13 (by rw [hsplit]; exact h13mem) with h | h <;> omega
      | cons d remB =>
        have hdws : wsB d = false := dropWhile_head_false hrem
        have hsegB : badseg = badseg.takeWhile wsB ++ d :: remB := by
          conv_lhs => rw [← hsplit, hrem]
        have h13dr : (13:Nat) ∈ d :: remB := by
          have := h13mem
          rw [hsegB] at this
          rcases List.mem_append.mp this with h | h
          · rcases hwmem 13 h with h1 | h1 <;> omega
          · exact h
        obtain ⟨v, hdecomp, hu13⟩ := first13_decomp h13dr
        -- the 13-free prefix of the whole segment
        have huall : badseg.takeWhile (fun c => c ≠ 13) =
            badseg.takeWhile wsB ++ (d :: remB).takeWhile (fun c => c ≠ 13) := by
          conv_lhs => rw [hsegB]
          refine takeWhile_append_all ?_ _
          intro x hx
          rcases hwmem x hx with h | h <;> simp [h]
        have hvne : v ≠ [] := by
          rintro rfl
          apply absurd hbad
          unfold segBad
          intro hc
          have hdl : badseg.dropLast =
              badseg.takeWhile wsB ++ (d :: remB).takeWhile (fun c => c ≠ 13) := by
            conv_lhs => rw [hsegB, hdecomp]
            rw [show badseg.takeWhile wsB ++
                  ((d :: remB).takeWhile (fun c => c ≠ 13) ++ [13]) =
                (badseg.takeWhile wsB ++ (d :: remB).takeWhile (fun c => c ≠ 13)) ++ [13] by
              simp]
            exact List.dropLast_concat ..
          rw [hdl] at hc
          rcases List.mem_append.mp hc with h | h
          · rcases hwmem 13 h with h1 | h1 <;> omega
          · exact hu13 13 h rfl
        obtain ⟨e, v2, rfl⟩ := List.exists_cons_of_ne_nil hvne
        have he10 : e ≠ 10 := by
          intro h
          apply h10b
          rw [hsegB, hdecomp, h]
          simp
        -- buffer decompositions
        have hd2 : b.drop i = badseg.takeWhile wsB ++ d :: (remB ++ 10 :: joinLF rest) := by
          rw [hdrop]
          conv_lhs => rw [hsegB]
          simp
        have hd3 : b.drop i = (badseg.takeWhile wsB ++ (d :: remB).takeWhile (fun c => c ≠ 13))
            ++ 13 :: (e :: v2 ++ 10 :: joinLF rest) := by
          rw [hdrop]
          conv_lhs => rw [hsegB, hdecomp]
          simp
        have hlen : i + badseg.length < b.length := drop_len_lt hdrop
        have hlt : i < n := by omega
        have hski : skipWS (n + 1) b n i = i + (badseg.takeWhile wsB).length := by
          refine skipWS_eq (badseg.takeWhile wsB) b n i (n + 1) (remB ++ 10 :: joinLF rest)
            d hn hd2 hwmem (show ¬ (d = 32 ∨ d = 9) by simp [wsB] at hdws; tauto) ?_
          have : (badseg.takeWhile wsB).length ≤ badseg.length := by
            conv_rhs => rw [← hsplit]
            rw [List.length_append]
            omega
          omega
        have hdoff : b.drop (i + (badseg.takeWhile wsB).length) =
            (d :: remB).takeWhile (fun c => c ≠ 13) ++ 13 :: (e :: v2 ++ 10 :: joinLF rest) := by
          have hd4 : b.drop i = badseg.takeWhile wsB ++
              ((d :: remB).takeWhile (fun c => c ≠ 13) ++ 13 :: (e :: v2 ++ 10 :: joinLF rest)) := by
            rw [hd3]
            simp
          exact drop_add_of_drop hd4
        have hcr : rd b (i + (badseg.takeWhile wsB).length +
            ((d :: remB).takeWhile (fun c => c ≠ 13)).length) = 13 := rd_stop_of_drop hdoff
        have hnext : rd b (i + (badseg.takeWhile wsB).length +
            ((d :: remB).takeWhile (fun c => c ≠ 13)).length + 1) = e := by
          have hd5 : b.drop i = ((badseg.takeWhile wsB ++
              (d :: remB).takeWhile (fun c => c ≠ 13)) ++ [13]) ++
              (e :: (v2 ++ 10 :: joinLF rest)) := by
            rw [hd3]
            simp
          have := rd_stop_of_drop (w := (badseg.takeWhile wsB ++
              (d :: remB).takeWhile (fun c => c ≠ 13)) ++ [13])
            (c := e) (r := v2 ++ 10 :: joinLF rest) hd5
          simp only [List.length_append, List.length_cons, List.length_nil] at this ⊢
          rw [← this]
          congr 1
          omega
        have hw2mem : ∀ x ∈ (d :: remB).takeWhile (fun c => c ≠ 13), x ≠ 10 ∧ x ≠ 13 := by
          intro x hx
          refine ⟨?_, by simpa using List.mem_takeWhile_imp hx⟩
          intro h
          apply h10b
          rw [hsegB]
          refine List.mem_append_right _ ?_
          rw [← h]
          exact (List.takeWhile_prefix _).subset hx
        have hfw2 : ((d :: remB).takeWhile (fun c => c ≠ 13)).length < n + 1 := by
          have h1 : ((d :: remB).takeWhile (fun c => c ≠ 13)).length ≤ (d :: remB).length := by
            conv_rhs => rw [← List.takeWhile_append_dropWhile (fun c => c ≠ 13) (d :: remB)]
            rw [List.length_append]
            omega
          have h2 : (d :: remB).length ≤ badseg.length := by
            conv_rhs => rw [hsegB]
            rw [List.length_append]
            omega
          omega
        have hscan := scanEOL_cr ((d :: remB).takeWhile (fun c => c ≠ 13)) b n
          (i + (badseg.takeWhile wsB).length) (n + 1) (e :: v2 ++ 10 :: joinLF rest) hn
          hdoff hw2mem hfw2
        rw [if_neg (by rw [hnext]; exact he10)] at hscan
        refine ⟨?_, ⟨?_, ?_⟩, ?_⟩
        · simp only [pass1Loop]
          rw [if_pos hlt, hski, hscan]
          simp
        · rw [huall]
          simp only [joinLF, List.foldr_nil, List.length_nil, Nat.add_zero, List.length_append]
          rw [← Nat.add_assoc]
          exact hcr
        · rw [huall]
          simp only [joinLF, List.foldr_nil, List.length_nil, Nat.add_zero, List.length_append]
          rw [← Nat.add_assoc, hnext]
          exact he10
        · intro t ht1 ht2
          rintro ⟨h13t, _⟩
          rw [huall] at ht2
          simp only [joinLF, List.foldr_nil, List.length_nil, Nat.add_zero,
            List.length_append, ← Nat.add_assoc] at ht2
          have htl : t - i < (badseg.takeWhile wsB ++
              (d :: remB).takeWhile (fun c => c ≠ 13)).length := by
            simp only [List.length_append]
            omega
          have hb := rd_lt_of_drop hd3 (t - i) htl
          rw [show i + (t - i) = t by omega] at hb
          have hmem := getD_mem htl
          rw [hb] at h13t
          have h13g : (badseg.takeWhile wsB ++
              (d :: remB).takeWhile (fun c => c ≠ 13)).getD (t - i) 0 = 13 := h13t
          rw [h13g] at hmem
          rcases List.mem_append.mp hmem with h | h
          · rcases hwmem 13 h with h1 | h1 <;> omega
          · exact hu13 13 h rfl
  | cons seg good ih =>
    intro badseg rest b n i ls sc pc fuel hn hdrop h10 hgood hbad hfuel
    cases fuel with
    | zero => simp at hfuel
    | succ fuel =>
      rw [List.cons_append, joinLF_cons] at hdrop
      obtain ⟨hski, hHead, hParam, b2, hscan, hlen2, hlow, hmid, hhigh⟩ :=
        pass1_step seg (joinLF (good ++ badseg :: rest)) b n i hn hdrop
          (h10 seg (by simp)) (hgood seg (by simp))
      have hseglen : i + seg.length < b.length := drop_len_lt hdrop
      have hlt : i < n := by omega
      have hsegend : rd b (i + seg.length) = 10 := rd_stop_of_drop hdrop
      have hdrop2 : b2.drop (i + seg.length + 1) = joinLF (good ++ badseg :: rest) := by
        rw [drop_eq_of_rd b b2 (i + seg.length + 1) hlen2
            (fun t ht => hhigh t (by omega))]
        have hd2 : b.drop i = (seg ++ [10]) ++ joinLF (good ++ badseg :: rest) := by
          rw [hdrop]; simp
        have := drop_add_of_drop hd2
        simpa using this
      obtain ⟨herr, ⟨hcr, hnx⟩, hmin⟩ :=
        ih badseg rest b2 n (i + seg.length + 1)
          (ls ++ [i + (seg.takeWhile wsB).length])
          (if rd b (i + (seg.takeWhile wsB).length) = 91 then sc + 1 else sc)
          (if rd b (i + (seg.takeWhile wsB).length) ≠ 91 ∧
              rd b (i + (seg.takeWhile wsB).length) ≠ 35 ∧
              rd b (i + (seg.takeWhile wsB).length) ≠ 59 ∧
              rd b (i + (seg.takeWhile wsB).length) ≠ 10 ∧
              rd b (i + (seg.takeWhile wsB).length) ≠ 13 then pc + 1 else pc)
          fuel (by rw [hn, ← hlen2]) hdrop2 (fun s hs => h10 s (by simp [hs]))
          (fun s hs => hgood s (by simp [hs])) hbad
          (by simpa using Nat.lt_of_succ_lt_succ hfuel)
      have hjpos : i + seg.length + 1 + (joinLF good).length +
          (badseg.takeWhile (fun c => c ≠ 13)).length =
          i + (joinLF (seg :: good)).length +
          (badseg.takeWhile (fun c => c ≠ 13)).length := by
        rw [joinLF_cons]
        simp
        omega
      refine ⟨?_, ⟨?_, ?_⟩, ?_⟩
      · simp only [pass1Loop]
        rw [if_pos hlt, hski, hscan]
        refine Eq.trans herr ?_
        congr 1
        simp [List.length_append]
        omega
      · rw [← hjpos, ← hhigh _ (by omega)]
        exact hcr
      · rw [← hjpos, ← hhigh _ (by omega)]
        exact hnx
      · intro t ht1 ht2
        rw [← hjpos] at ht2
        by_cases hreg : i + seg.length + 1 ≤ t
        · have := hmin t hreg ht2
          rw [hhigh t (by omega), hhigh (t + 1) (by omega)] at this
          exact this
        · rintro ⟨h13t, hnot10⟩
          by_cases hend : t = i + seg.length
          · rw [hend, hsegend] at h13t
            omega
          · have htl : t - i < seg.length := by omega
            have hb := rd_lt_of_drop hdrop (t - i) htl
            rw [show i + (t - i) = t by omega] at hb
            rw [hb] at h13t
            have hfin := seg_13_final (hgood seg (by simp)) htl h13t
            have ht1eq : t + 1 = i + seg.length := by omega
            rw [ht1eq, hsegend] at hnot10
            omega


theorem joinLF_len_ge (segs : List (List Nat)) : segs.length ≤ (joinLF segs).length := by
  induction segs with
  | nil => simp [joinLF]
  | cons s rest ih =>
    rw [joinLF_cons]
    simp only [List.length_cons, List.length_append, List.length_cons]
    omega

theorem countP_joinLF (segs : List (List Nat)) (h : ∀ s ∈ segs, (10:Nat) ∉ s) :
    (joinLF segs).countP (fun c => c == 10) = segs.length := by
  induction segs with
  | nil => simp [joinLF]
  | cons s rest ih =>
    rw [joinLF_cons, List.countP_append, List.countP_cons]
    have hz : s.countP (fun c => c == 10) = 0 := by
      refine List.countP_eq_zero.mpr ?_
      intro a ha
      have : a ≠ 10 := fun hc => h s (by simp) (hc ▸ ha)
      simp [this]
    rw [hz, ih (fun t ht => h t (by simp [ht]))]
    simp

theorem first_bad_decomp (segs : List (List Nat)) (h : ∃ s ∈ segs, segBad s) :
    ∃ good badseg rest, segs = good ++ badseg :: rest ∧
      (∀ s ∈ good, ¬ segBad s) ∧ segBad badseg := by
  induction segs with
  | nil => simp at h
  | cons s rest ih =>
    by_cases hs : segBad s
    · exact ⟨[], s, rest, rfl, by simp, hs⟩
    · have hrest : ∃ t ∈ rest, segBad t := by
        obtain ⟨t, ht, hbad⟩ := h
        rcases List.mem_cons.mp ht with rfl | ht2
        · exact absurd hbad hs
        · exact ⟨t, ht2, hbad⟩
      obtain ⟨good, badseg, rest2, heq, hgood, hbad⟩ := ih hrest
      refine ⟨s :: good, badseg, rest2, by simp [heq], ?_, hbad⟩
      intro x hx
      rcases List.mem_cons.mp hx with rfl | hx2
      · exact hs
      · exact hgood x hx2

theorem clean_no_offend (segs : List (List Nat)) :
    ∀ (b : Buf) (i : Nat), b.drop i = joinLF segs →
    (∀ s ∈ segs, ¬ segBad s) → (∀ s ∈ segs, (10:Nat) ∉ s) →
    ∀ j, i ≤ j → j < i + (joinLF segs).length →
    ¬ (rd b j = 13 ∧ rd b (j + 1) ≠ 10) := by
  induction segs with
  | nil =>
    intro b i _ _ _ j h1 h2
    simp [joinLF] at h2
    omega
  | cons seg rest ih =>
    intro b i hdrop hclean h10 j h1 h2
    rw [joinLF_cons] at hdrop
    rintro ⟨h13, hn10⟩
    have hsegend : rd b (i + seg.length) = 10 := rd_stop_of_drop hdrop
    by_cases hreg : i + seg.length + 1 ≤ j
    · have hd2 : b.drop (i + seg.length + 1) = joinLF rest := by
        have hx : b.drop i = (seg ++ [10]) ++ joinLF rest := by
          rw [hdrop]
          simp
        simpa using drop_add_of_drop hx
      have hlen : (joinLF (seg :: rest)).length =
          seg.length + 1 + (joinLF rest).length := by
        rw [joinLF_cons]
        simp
        omega
      refine ih b (i + seg.length + 1) hd2 (fun s hs => hclean s (by simp [hs]))
        (fun s hs => h10 s (by simp [hs])) j hreg ?_ ⟨h13, hn10⟩
      rw [joinLF_cons] at h2
      simp only [List.length_append, List.length_cons] at h2
      omega
    · by_cases hend : j = i + seg.length
      · rw [hend, hsegend] at h13
        omega
      · have htl : j - i < seg.length := by omega
        have hb := rd_lt_of_drop hdrop (j - i) htl
        rw [show i + (j - i) = j by omega] at hb
        rw [hb] at h13
        have hfin := seg_13_final (hclean seg (by simp)) htl
          (show seg.getD (j - i) 0 = 13 from h13)
        have ht1 : j + 1 = i + seg.length := by omega
        rw [ht1, hsegend] at hn10
        omega

/-- Evaluation of the parse entry when pass 1 reports an error: the state
is cleared and carries `ParseFailure` with the reported line number. -/
theorem parse_pass1_error (f : Buf) (st0 : ConfState) (h0 : st0.fileBuf = none)
    (hfne : f.length ≠ 0) (ln : Nat)
    (herr : pass1Loop (f.length + 1 + 1) (f ++ [10]) (f.length + 1) 0 [] 1 0 =
      Except.error ln) :
    (confreaderParseFile (some f) [] false st0).2 = -1 ∧
    (confreaderParseFile (some f) [] false st0).1.errorNum = EPARSINGFILE ∧
    (confreaderParseFile (some f) [] false st0).1.errorLineNum = ln := by
  obtain ⟨fb, l, lc, p, pc, s, sc, e, eln⟩ := st0
  simp only [ConfState.fileBuf] at h0
  subst h0
  simp only [confreaderParseFile, confreaderInit, confreaderClear]
  repeat' split
  all_goals try (exfalso; simp_all; done)
  all_goals try (rw [herr] at *)
  all_goals simp_all

/-- **C9**: a parse of an input holding a carriage return that is not
immediately followed by a line feed fails with `ParseFailure` and reports
the 1-based number of the line containing that carriage return (the first
offending one, since the scan is left to right); on an input where every
carriage return is part of a CR-LF pair, pass 1 succeeds and overwrites
every line feed, and every carriage return of a pair, with a NUL
terminator. -/
theorem c9_cr_handling (f : Buf) (st0 : ConfState) (h0 : st0.fileBuf = none)
    (j : Nat) :
    ((∀ t, t < f.length → ¬ offendAt f t) →
      ∃ p1, pass1Loop (f.length + 2) (f ++ [10]) (f.length + 1) 0 [] 1 0 =
          Except.ok p1 ∧
        ∀ t, rd p1.buf t = zeroB (rd (f ++ [10]) t)) ∧
    (offendAt f j → (∀ t, t < j → ¬ offendAt f t) →
      (confreaderParseFile (some f) [] false st0).2 = -1 ∧
      (confreaderParseFile (some f) [] false st0).1.errorNum = EPARSINGFILE ∧
      (confreaderParseFile (some f) [] false st0).1.errorLineNum = lineNumAt f j) := by
  have hjoin : joinLF (segsOf f) = f ++ [10] := joinLF_segsOf f
  have h10s : ∀ s ∈ segsOf f, (10:Nat) ∉ s := segsOf_no10 f
  have hlastLF : rd (f ++ [10]) f.length = 10 := by
    have hx : (f ++ [10]).drop 0 = f ++ 10 :: [] := by simp
    simpa using rd_stop_of_drop hx
  have hsegn : (segsOf f).length < f.length + 2 := by
    have h1 := joinLF_len_ge (segsOf f)
    rw [hjoin] at h1
    simp at h1
    omega
  constructor
  · intro hno
    have hclean : ∀ s ∈ segsOf f, ¬ segBad s := by
      by_contra hc
      push_neg at hc
      obtain ⟨good, badseg, rest, hsegs, hgood, hbad⟩ :=
        first_bad_decomp (segsOf f) (by
          obtain ⟨s, hs1, hs2⟩ := hc
          exact ⟨s, hs1, hs2⟩)
      have hdrop : (f ++ [10]).drop 0 = joinLF (good ++ badseg :: rest) := by
        rw [List.drop_zero, ← hsegs, hjoin]
      obtain ⟨_, ⟨hcr, hnx⟩, _⟩ :=
        pass1Loop_err good badseg rest (f ++ [10]) (f.length + 1) 0 [] 1 0
          (f.length + 2) (by simp) hdrop (hsegs ▸ h10s)
          (fun s hs => hgood s hs) hbad (hsegs ▸ hsegn)
      have hjlt : (0 : Nat) + (joinLF good).length +
          (badseg.takeWhile (fun c => c ≠ 13)).length < f.length := by
        set q := (0 : Nat) + (joinLF good).length +
          (badseg.takeWhile (fun c => c ≠ 13)).length with hq
        have hql : q < (f ++ [10]).length := by
          by_contra hge
          rw [rd_ge _ q (by omega)] at hcr
          omega
        simp only [List.length_append, List.length_cons, List.length_nil] at hql
        by_contra hge
        have hqe : q = f.length := by omega
        rw [hqe, hlastLF] at hcr
        omega
      exact hno _ hjlt ⟨hcr, hnx⟩
    obtain ⟨b1, hok, _, _, hhigh⟩ :=
      pass1Loop_ok (segsOf f) (f ++ [10]) (f.length + 1) 0 [] 1 0 (f.length + 2)
        (by simp) (by rw [List.drop_zero, hjoin]) h10s hclean hsegn
    exact ⟨_, hok, fun t => hhigh t (Nat.zero_le t)⟩
  · intro hj hmin
    have hbadex : ∃ s ∈ segsOf f, segBad s := by
      by_contra hc
      push_neg at hc
      have hjlt : j < f.length := by
        obtain ⟨h13, _⟩ := hj
        have hql : j < (f ++ [10]).length := by
          by_contra hge
          rw [rd_ge _ j (by omega)] at h13
          omega
        simp only [List.length_append, List.length_cons, List.length_nil] at hql
        by_contra hge
        have hqe : j = f.length := by omega
        rw [hqe, hlastLF] at h13
        omega
      refine clean_no_offend (segsOf f) (f ++ [10]) 0
        (by rw [List.drop_zero, hjoin]) hc h10s j (Nat.zero_le j) ?_ hj
      rw [hjoin]
      simp
      omega
    obtain ⟨good, badseg, rest, hsegs, hgood, hbad⟩ := first_bad_decomp _ hbadex
    have hdrop : (f ++ [10]).drop 0 = joinLF (good ++ badseg :: rest) := by
      rw [List.drop_zero, ← hsegs, hjoin]
    obtain ⟨herr, ⟨hcr, hnx⟩, hminq⟩ :=
      pass1Loop_err good badseg rest (f ++ [10]) (f.length + 1) 0 [] 1 0
        (f.length + 2) (by simp) hdrop (hsegs ▸ h10s)
        (fun s hs => hgood s hs) hbad (hsegs ▸ hsegn)
    set q := (0 : Nat) + (joinLF good).length +
      (badseg.takeWhile (fun c => c ≠ 13)).length with hq
    have hjq : j = q := by
      have h1 : ¬ q < j := fun hlt => hmin q hlt ⟨hcr, hnx⟩
      have h2 : ¬ j < q := fun hlt => hminq j (Nat.zero_le j) hlt hj
      omega
    -- decompose the buffer around the bad segment
    have h13b : (13:Nat) ∈ badseg := List.dropLast_subset _ hbad
    obtain ⟨v, hbd, hu13⟩ := first13_decomp h13b
    have hkl : (badseg.takeWhile (fun c => c ≠ 13)).length < badseg.length := by
      have := congrArg List.length hbd
      simp only [List.length_append, List.length_cons, List.length_nil] at this
      omega
    have hbuf : f ++ [10] = joinLF good ++ (badseg ++ 10 :: joinLF rest) := by
      rw [← hjoin, hsegs, joinLF_append, joinLF_cons]
    have hlenb : f.length + 1 =
        (joinLF good).length + badseg.length + 1 + (joinLF rest).length := by
      have h := congrArg List.length hbuf
      simp only [List.length_append, List.length_cons, List.length_nil] at h
      omega
    have hqle : q ≤ f.length := by omega
    have htake : f.take q = joinLF good ++ badseg.takeWhile (fun c => c ≠ 13) := by
      have h1 : f.take q = (f ++ [10]).take q :=
        (List.take_append_of_le_length hqle).symm
      rw [h1, hbuf]
      rw [show q = (joinLF good).length +
            (badseg.takeWhile (fun c => c ≠ 13)).length from by omega]
      rw [List.take_append]
      congr 1
      rw [List.take_append_of_le_length (by omega)]
      exact (List.prefix_iff_eq_take.mp (List.takeWhile_prefix _)).symm
    have hcount : (f.take q).countP (fun c => c == 10) = good.length := by
      rw [htake, List.countP_append]
      rw [countP_joinLF good (fun s hs => h10s s (hsegs ▸ List.mem_append_left _ hs))]
      have hz : (badseg.takeWhile (fun c => c ≠ 13)).countP (fun c => c == 10) = 0 := by
        refine List.countP_eq_zero.mpr ?_
        intro a ha
        have haseg : a ∈ badseg := (List.takeWhile_prefix _).subset ha
        have h10bad : (10:Nat) ∉ badseg :=
          h10s badseg (hsegs ▸ List.mem_append_right _ (List.mem_cons_self ..))
        have : a ≠ 10 := fun hc => h10bad (hc ▸ haseg)
        simp [this]
      rw [hz]
      omega
    have hfne : f.length ≠ 0 := by
      intro hz
      rw [List.length_eq_zero] at hz
      subst hz
      obtain ⟨h13, _⟩ := hj
      rcases j with _ | j
      · simp [rd, List.getD] at h13
      · simp [rd, List.getD] at h13
    have hev := parse_pass1_error f st0 h0 hfne ([].length + good.length + 1) herr
    refine ⟨hev.1, hev.2.1, ?_⟩
    rw [hev.2.2]
    simp only [lineNumAt, hjq, hcount, List.length_nil]
    omega

/-- Witness for C9 at concrete inputs: on "a\r\nb" every carriage return
is part of a CR-LF pair and pass 1 succeeds, zeroing both bytes; on
"a\rb" the lone carriage return at offset 1 makes the parse fail with
`ParseFailure` at line 1. -/
theorem c9_cr_handling_witness :
    (∃ p1, pass1Loop ([97,13,10,98].length + 2) ([97,13,10,98] ++ [10])
        ([97,13,10,98].length + 1) 0 [] 1 0 = Except.ok p1 ∧
      ∀ t, rd p1.buf t = zeroB (rd ([97,13,10,98] ++ [10]) t)) ∧
    (confreaderParseFile (some [97,13,98]) [] false confreaderInitState).2 = -1 ∧
    (confreaderParseFile (some [97,13,98]) [] false confreaderInitState).1.errorNum =
      EPARSINGFILE ∧
    (confreaderParseFile (some [97,13,98]) [] false confreaderInitState).1.errorLineNum =
      lineNumAt [97,13,98] 1 :=
  ⟨(c9_cr_handling [97,13,10,98] confreaderInitState rfl 0).1 (by decide),
   (c9_cr_handling [97,13,98] confreaderInitState rfl 1).2 (by decide) (by decide)⟩

/-! ### Pass-2 refinement: basic facts about stored views -/

theorem OffHolds_stable {b b2 : Buf} {base base2 o : Nat} {w : List Nat}
    (h : OffHolds b base o w) (hb : base ≤ base2)
    (hagree : ∀ t, t < base → rd b2 t = rd b t) :
    OffHolds b2 base2 o w := by
  obtain ⟨hk, h0, hlt, hnz⟩ := h
  exact ⟨fun k hkk => (hagree (o + k) (by omega)).trans (hk k hkk),
         (hagree (o + w.length) hlt).trans h0, by omega, hnz⟩

theorem Repr2_stable {b b2 : Buf} {base base2 : Nat} {sects : List SectRec}
    {params : List (Nat × Nat)} {doc : List SpecSect}
    (h : Repr2 b base sects params doc) (hb : base ≤ base2)
    (hagree : ∀ t, t < base → rd b2 t = rd b t) :
    Repr2 b2 base2 sects params doc := by
  obtain ⟨hl, hp, hs, hm⟩ := h
  refine ⟨hl, hp, fun idx hidx => ?_, fun m hm2 => ?_⟩
  · obtain ⟨hn, hsz, he, hne⟩ := hs idx hidx
    refine ⟨?_, hsz, he, hne⟩
    cases hc1 : (sects.getD idx ⟨none, 0, none⟩).name with
    | none =>
      cases hc2 : (doc.getD idx (none, [])).1 with
      | none => simp
      | some nm => rw [hc1, hc2] at hn; exact hn
    | some o =>
      cases hc2 : (doc.getD idx (none, [])).1 with
      | none => rw [hc1, hc2] at hn; exact hn
      | some nm =>
        rw [hc1, hc2] at hn
        exact OffHolds_stable hn hb hagree
  · exact ⟨OffHolds_stable (hm m hm2).1 hb hagree,
           OffHolds_stable (hm m hm2).2 hb hagree⟩

theorem drop_decomp_of_rd {b : Buf} {o : Nat} {w : List Nat}
    (hw : ∀ k, k < w.length → rd b (o + k) = w.getD k 0)
    (h0 : rd b (o + w.length) = 0)
    (hlen : o + w.length < b.length) :
    b.drop o = w ++ 0 :: b.drop (o + w.length + 1) := by
  apply List.ext_getElem?
  intro t
  rw [List.getElem?_drop]
  by_cases h1 : t < w.length
  · rw [List.getElem?_append_left (by omega)]
    rw [List.getElem?_eq_getElem (by omega), List.getElem?_eq_getElem h1]
    have := hw t h1
    rw [rd, List.getD_eq_getElem?_getD, List.getElem?_eq_getElem (by omega),
        List.getD_eq_getElem?_getD, List.getElem?_eq_getElem h1] at this
    simpa using this
  · by_cases h2 : t = w.length
    · subst h2
      rw [List.getElem?_append_right (by omega)]
      simp only [Nat.sub_self, List.getElem?_cons_zero]
      rw [List.getElem?_eq_getElem (by omega)]
      have := h0
      rw [rd, List.getD_eq_getElem?_getD, List.getElem?_eq_getElem (by omega)] at this
      simpa using this
    · rw [List.getElem?_append_right (by omega)]
      have h3 : t - w.length = (t - w.length - 1) + 1 := by omega
      rw [h3, List.getElem?_cons_succ, List.getElem?_drop]
      congr 1
      omega

theorem OffHolds_of_drop {b : Buf} {o base : Nat} {w r : List Nat}
    (hd : b.drop o = w ++ 0 :: r)
    (hbase : o + w.length < base) (h0 : (0:Nat) ∉ w) :
    OffHolds b base o w := by
  refine ⟨fun k hk => rd_lt_of_drop hd k hk, rd_stop_of_drop hd, hbase, h0⟩

theorem cstr_of_OffHolds {b : Buf} {base o : Nat} {w : List Nat}
    (h : OffHolds b base o w) (hb : base ≤ b.length) : cstr b o = w := by
  obtain ⟨hk, h0, hlt, hnz⟩ := h
  have hd := drop_decomp_of_rd hk h0 (by omega)
  unfold cstr
  rw [hd, takeWhile_append_all (p := fun c => decide (c ≠ 0))
      (fun x hx => by simp; intro he; rw [he] at hx; exact hnz hx) _]
  simp

theorem map_zeroB_id {l : List Nat} (h : ∀ x ∈ l, x ≠ 10 ∧ x ≠ 13) :
    l.map zeroB = l := by
  induction l with
  | nil => rfl
  | cons a as ih =>
    obtain ⟨h10, h13⟩ := h a (by simp)
    rw [List.map_cons, zeroB_eq_self h10 h13, ih (fun x hx => h x (by simp [hx]))]

theorem map_zeroB_joinLF_cons (s : List Nat) (segs : List (List Nat)) :
    (joinLF (s :: segs)).map zeroB =
      s.map zeroB ++ 0 :: (joinLF segs).map zeroB := by
  rw [joinLF_cons, List.map_append, List.map_cons]
  simp [zeroB]

theorem lineTrim_subset {seg : List Nat} : ∀ x ∈ lineTrim seg, x ∈ seg := by
  intro x hx
  unfold lineTrim at hx
  have h1 : x ∈ stripCR seg := (List.dropWhile_suffix wsB).subset hx
  unfold stripCR at h1
  by_cases hc : seg.getLast? = some 13
  · rw [if_pos hc] at h1
    exact List.dropLast_subset _ h1
  · rw [if_neg hc] at h1
    exact h1

theorem lineTrim_no13 {seg : List Nat} (hbad : ¬ segBad seg) :
    (13:Nat) ∉ lineTrim seg := by
  intro hx
  unfold lineTrim at hx
  have h1 : (13:Nat) ∈ stripCR seg := (List.dropWhile_suffix wsB).subset hx
  unfold stripCR at h1
  apply hbad
  unfold segBad
  by_cases hc : seg.getLast? = some 13
  · rw [if_pos hc] at h1
    exact h1
  · rw [if_neg hc] at h1
    have hnil : seg ≠ [] := by rintro rfl; simp at h1
    have hdec := List.dropLast_append_getLast hnil
    have hx2 : (13:Nat) ∈ seg.dropLast ++ [seg.getLast hnil] := by
      rw [hdec]; exact h1
    rcases List.mem_append.mp hx2 with h | h
    · exact h
    · exfalso
      apply hc
      simp at h
      rw [List.getLast?_eq_getLast _ hnil, h]

theorem pass1_buf_eq {b b1 : Buf}
    (hlen : b1.length = b.length) (hz : ∀ t, rd b1 t = zeroB (rd b t)) :
    b1 = b.map zeroB := by
  apply List.ext_getElem (by simp [hlen])
  intro t h1 h2
  have hv := hz t
  rw [rd, rd, List.getD_eq_getElem?_getD, List.getD_eq_getElem?_getD,
      List.getElem?_eq_getElem h1, List.getElem?_eq_getElem (by simpa using h2)] at hv
  simp only [Option.getD_some] at hv
  rw [List.getElem_map]
  exact hv

/-- Layout of one line region of the pass-1 output buffer: from the
recorded line-start offset the buffer holds the NUL-terminated line
content, and the next segment region starts after this segment and its
terminator. -/
theorem line_layout (seg R0 : List Nat) (b : Buf) (base : Nat)
    (hdrop : b.drop base = (seg ++ 10 :: R0).map zeroB)
    (h10 : (10:Nat) ∉ seg) (hbad : ¬ segBad seg) :
    (∃ r, b.drop (base + (seg.takeWhile wsB).length) = lineTrim seg ++ 0 :: r) ∧
    b.drop (base + seg.length + 1) = R0.map zeroB ∧
    (seg.takeWhile wsB).length + (lineTrim seg).length ≤ seg.length := by
  have hsplit : seg.takeWhile wsB ++ seg.dropWhile wsB = seg :=
    List.takeWhile_append_dropWhile ..
  have hwsid : (seg.takeWhile wsB).map zeroB = seg.takeWhile wsB := by
    refine map_zeroB_id ?_
    intro x hx
    have := List.mem_takeWhile_imp hx
    simp [wsB] at this
    omega
  have hmapseg : seg.map zeroB =
      seg.takeWhile wsB ++ (seg.dropWhile wsB).map zeroB := by
    conv_lhs => rw [← hsplit]
    rw [List.map_append, hwsid]
  have hdropm : (seg ++ 10 :: R0).map zeroB =
      seg.map zeroB ++ 0 :: R0.map zeroB := by
    rw [List.map_append, List.map_cons]
    simp [zeroB]
  have hd1 : b.drop base = seg.takeWhile wsB ++
      ((seg.dropWhile wsB).map zeroB ++ 0 :: R0.map zeroB) := by
    rw [hdrop, hdropm, hmapseg]
    simp
  have hdo : b.drop (base + (seg.takeWhile wsB).length) =
      (seg.dropWhile wsB).map zeroB ++ 0 :: R0.map zeroB :=
    drop_add_of_drop hd1
  have hnext : b.drop (base + seg.length + 1) = R0.map zeroB := by
    have hd2 : b.drop base = (seg.map zeroB ++ [0]) ++ R0.map zeroB := by
      rw [hdrop, hdropm]
      simp
    have := drop_add_of_drop hd2
    simp only [List.length_append, List.length_map, List.length_cons,
      List.length_nil] at this
    rw [show base + (seg.length + 1) = base + seg.length + 1 from by omega] at this
    exact this
  have hltlen : (lineTrim seg).length ≤ (seg.dropWhile wsB).length := by
    rw [lineTrim_eq]
    unfold stripCR
    by_cases hc : (seg.dropWhile wsB).getLast? = some 13
    · rw [if_pos hc]
      simp [List.length_dropLast]
    · rw [if_neg hc]
  have hlens : (seg.takeWhile wsB).length + (seg.dropWhile wsB).length = seg.length := by
    conv_rhs => rw [← hsplit]
    rw [List.length_append]
  refine ⟨?_, hnext, by omega⟩
  rcases rem_cases seg h10 hbad with hrem | hrem | ⟨d, rem, hrem, hd13, hd10, hdws⟩
  · refine ⟨R0.map zeroB, ?_⟩
    rw [hdo, hrem, lineTrim_eq, hrem]
    simp [stripCR]
  · refine ⟨0 :: R0.map zeroB, ?_⟩
    rw [hdo, hrem, lineTrim_eq, hrem]
    simp [stripCR, zeroB]
  · have htr : lineTrim seg = stripCR (d :: rem) := by rw [lineTrim_eq, hrem]
    by_cases hlast : (d :: rem).getLast? = some 13
    · have hnil2 : (d :: rem) ≠ [] := by simp
      have hgl : (d :: rem).getLast hnil2 = 13 := by
        have h := List.getLast?_eq_getLast (d :: rem) hnil2
        rw [hlast] at h
        exact (Option.some.injEq .. ▸ h).symm
      obtain ⟨rem0, hrem0⟩ : ∃ rem0, d :: rem = rem0 ++ [13] :=
        ⟨(d :: rem).dropLast, by
          rw [← hgl]
          exact (List.dropLast_append_getLast hnil2).symm⟩
      have hrem0no : ∀ x ∈ rem0, x ≠ 10 ∧ x ≠ 13 := by
        intro x hx
        constructor
        · intro he
          subst he
          apply h10
          rw [← hsplit, hrem, hrem0]
          exact List.mem_append_right _ (List.mem_append_left _ hx)
        · intro he
          subst he
          apply hbad
          unfold segBad
          have hseg2 : seg = (seg.takeWhile wsB ++ rem0) ++ [13] := by
            conv_lhs => rw [← hsplit, hrem, hrem0]
            simp
          rw [hseg2, List.dropLast_concat]
          exact List.mem_append_right _ hx
      have htr2 : lineTrim seg = rem0 := by
        rw [htr]
        unfold stripCR
        rw [if_pos hlast, hrem0, List.dropLast_concat]
      refine ⟨0 :: R0.map zeroB, ?_⟩
      rw [hdo, hrem, hrem0, htr2, List.map_append, map_zeroB_id hrem0no]
      simp [zeroB]
    · have hno : ∀ x ∈ d :: rem, x ≠ 10 ∧ x ≠ 13 := by
        intro x hx
        constructor
        · intro he
          subst he
          apply h10
          rw [← hsplit, hrem]
          exact List.mem_append_right _ hx
        · intro he
          subst he
          apply hbad
          unfold segBad
          have hnil2 : (d :: rem) ≠ [] := by simp
          have hdec := List.dropLast_append_getLast hnil2
          have hx2 : (13:Nat) ∈ (d :: rem).dropLast ++ [(d :: rem).getLast hnil2] := by
            rw [hdec]; exact hx
          have hseg2 : seg = seg.takeWhile wsB ++ (d :: rem) := by
            conv_lhs => rw [← hsplit, hrem]
          rcases List.mem_append.mp hx2 with h | h
          · rw [hseg2]
            have hdl : (seg.takeWhile wsB ++ (d :: rem)).dropLast =
                seg.takeWhile wsB ++ (d :: rem).dropLast := by
              rw [List.dropLast_append_of_ne_nil]
              simp
            rw [hdl]
            exact List.mem_append_right _ h
          · exfalso
            apply hlast
            simp at h
            rw [List.getLast?_eq_getLast _ hnil2, h]
      have htr2 : lineTrim seg = d :: rem := by
        rw [htr]
        unfold stripCR
        rw [if_neg hlast]
      refine ⟨R0.map zeroB, ?_⟩
      rw [hdo, hrem, htr2, map_zeroB_id hno]

/-! ### Pass-2 refinement: one line -/

theorem findIdx_none {p : Nat → Bool} :
    ∀ {l : List Nat}, l.findIdx? p = none → ∀ x ∈ l, p x = false := by
  intro l
  induction l with
  | nil => intro _ x hx; simp at hx
  | cons a as ih =>
    intro h x hx
    rw [List.findIdx?_cons] at h
    by_cases hp : p a
    · rw [if_pos hp] at h
      simp at h
    · rw [if_neg hp, List.findIdx?_succ] at h
      rcases List.mem_cons.mp hx with rfl | hx2
      · simpa using hp
      · refine ih ?_ x hx2
        cases hfa : as.findIdx? p with
        | none => rfl
        | some k => rw [hfa] at h; simp at h

theorem findIdx_decomp {p : Nat → Bool} :
    ∀ {l : List Nat} {k : Nat}, l.findIdx? p = some k →
    ∃ u c v, l = u ++ c :: v ∧ u.length = k ∧ p c = true ∧
      ∀ x ∈ u, p x = false := by
  intro l
  induction l with
  | nil => intro k h; simp at h
  | cons a as ih =>
    intro k h
    rw [List.findIdx?_cons] at h
    by_cases hp : p a
    · rw [if_pos hp] at h
      cases h
      exact ⟨[], a, as, rfl, rfl, hp, by simp⟩
    · rw [if_neg hp, List.findIdx?_succ] at h
      cases hfa : as.findIdx? p with
      | none => rw [hfa] at h; simp at h
      | some k2 =>
        rw [hfa] at h
        simp at h
        obtain ⟨u, c, v, he, hl, hc, hu⟩ := ih hfa
        refine ⟨a :: u, c, v, by simp [he], by simp [hl, ← h], hc, ?_⟩
        intro x hx
        rcases List.mem_cons.mp hx with rfl | hx2
        · simpa using hp
        · exact hu x hx2

/-- A blank or comment line is skipped by the pass-2 loop body. -/
theorem doLine_skip (b : Buf) (n o lineNo : Nat) (t r : List Nat)
    (sects : List SectRec) (params : List (Nat × Nat))
    (hd : b.drop o = t ++ 0 :: r)
    (hskip : t = [] ∨ isCmB (t.headD 0) = true) :
    doLine n ⟨b, sects, params⟩ lineNo o = .ok ⟨b, sects, params⟩ := by
  rcases hskip with rfl | hcm
  · have h0 : rd b o = 0 := by simpa using rd_stop_of_drop (w := []) hd
    unfold doLine
    rw [if_neg (by rw [h0]; omega), if_neg (by rw [h0]; omega)]
  · cases t with
    | nil => simp [isCmB] at hcm
    | cons c t2 =>
      have hc : rd b o = c := by
        simpa using rd_stop_of_drop (w := []) (by simpa using hd)
      simp only [List.headD_cons] at hcm
      have hc2 : c = 35 ∨ c = 59 := by
        simp [isCmB] at hcm
        tauto
      unfold doLine
      rw [if_neg (by rw [hc]; omega), if_neg (by rw [hc]; omega)]

/-- A section-header line: the pass-2 loop body fails exactly when the
reference `parseHeader` fails, and otherwise links a new section whose
name view is the spec name, mutating only the `]` byte. -/
theorem doLine_header (b : Buf) (n o lineNo : Nat) (a r : List Nat)
    (sects : List SectRec) (params : List (Nat × Nat))
    (hn : n = b.length)
    (hd : b.drop o = (91 :: a) ++ 0 :: r)
    (h0t : (0:Nat) ∉ (91 :: a)) :
    match parseHeader (91 :: a) with
    | none => doLine n ⟨b, sects, params⟩ lineNo o = .error lineNo
    | some nm =>
      ∃ b1 r1, doLine n ⟨b, sects, params⟩ lineNo o =
          .ok ⟨b1, sects ++ [⟨some (o + 1), 0, none⟩], params⟩ ∧
        b1.length = b.length ∧
        (∀ p, p ≠ o + 1 + nm.length → rd b1 p = rd b p) ∧
        b1.drop (o + 1) = nm ++ 0 :: r1 ∧
        o + 1 + nm.length ≤ o + (91 :: a).length := by
  have h91 : rd b o = 91 := by
    simpa using rd_stop_of_drop (w := []) (by simpa using hd)
  have hda : b.drop (o + 1) = a ++ 0 :: r := by
    have := drop_cons_succ (show b.drop o = 91 :: (a ++ 0 :: r) by simpa using hd)
    exact this
  have hlen : o + 1 + a.length < b.length := by
    have := drop_len_lt hda
    omega
  have h0a : (0:Nat) ∉ a := fun hx => h0t (by simp [hx])
  cases hfi : a.findIdx? (fun c => c == 93) with
  | none =>
    have hno : ∀ x ∈ a, x ≠ 93 := by
      intro x hx
      have := findIdx_none hfi x hx
      simpa using this
    have hsn := scanName_eq a b n (o + 1) (n + 1) r 0 hn hda
      (fun x hx => ⟨hno x hx, fun hc => h0a (hc ▸ hx)⟩) (Or.inr rfl)
      (by omega)
    rw [if_neg (by omega)] at hsn
    have hph : parseHeader (91 :: a) = none := by
      simp [parseHeader, hfi]
    rw [hph]
    unfold doLine
    rw [if_pos h91]
    simp only []
    rw [hsn]
  | some k =>
    obtain ⟨u, c, v, hav, hul, hc93, hu93⟩ := findIdx_decomp hfi
    have hc93n : c = 93 := by simpa using hc93
    subst hc93n
    have hdu : b.drop (o + 1) = u ++ 93 :: (v ++ 0 :: r) := by
      rw [hda, hav]
      simp
    have h0u : (0:Nat) ∉ u := fun hx => h0a (hav ▸ List.mem_append_left _ hx)
    have hsn := scanName_eq u b n (o + 1) (n + 1) (v ++ 0 :: r) 93 hn hdu
      (fun x hx => ⟨by simpa using hu93 x hx, fun hc => h0u (hc ▸ hx)⟩) (Or.inl rfl)
      (by have := congrArg List.length hav; simp at this; omega)
    rw [if_pos rfl] at hsn
    set b1 := wr b (o + 1 + u.length) 0 with hb1
    have hb1len : b1.length = b.length := wr_length ..
    have hwrpos : o + 1 + u.length < b.length := by
      have := congrArg List.length hav
      simp at this
      omega
    have hb1ne : ∀ p, p ≠ o + 1 + u.length → rd b1 p = rd b p := by
      intro p hp
      exact rd_wr_ne b _ 0 p hp
    -- layout of b1 past the written NUL
    have hdv : b1.drop (o + 1 + u.length + 1) = v ++ 0 :: r := by
      rw [drop_wr_of_lt (by omega)]
      have hx : b.drop (o + 1) = (u ++ [93]) ++ (v ++ 0 :: r) := by
        rw [hdu]; simp
      have := drop_add_of_drop hx
      simp only [List.length_append, List.length_cons, List.length_nil] at this
      rw [show o + 1 + (u.length + 1) = o + 1 + u.length + 1 from by omega] at this
      exact this
    have hd1u : b1.drop (o + 1) = u ++ 0 :: (v ++ 0 :: r) := by
      have hrd : ∀ j, j < u.length → rd b1 (o + 1 + j) = u.getD j 0 := by
        intro j hj
        rw [hb1ne _ (by omega)]
        exact rd_lt_of_drop hdu j hj
      have hrd0 : rd b1 (o + 1 + u.length) = 0 :=
        rd_wr_self b _ 0 hwrpos
      have := drop_decomp_of_rd hrd hrd0 (by omega)
      rw [this, hdv]
    have hvsplit : v.takeWhile wsB ++ v.dropWhile wsB = v :=
      List.takeWhile_append_dropWhile ..
    have hwsv : ∀ x ∈ v.takeWhile wsB, x = 32 ∨ x = 9 := by
      intro x hx
      have := List.mem_takeWhile_imp hx
      simp [wsB] at this
      omega
    have hdvw : b1.drop (o + 1 + u.length + 1) =
        v.takeWhile wsB ++ (v.dropWhile wsB ++ 0 :: r) := by
      rw [hdv, ← List.append_assoc, hvsplit]
    have hvll : (v.takeWhile wsB).length ≤ v.length := by
      have h := congrArg List.length hvsplit
      rw [List.length_append] at h
      omega
    have hfuel : (v.takeWhile wsB).length < n + 1 := by
      have := congrArg List.length hav
      simp at this
      omega
    have hph : parseHeader (91 :: a) =
        (if (v.dropWhile wsB).isEmpty || isCmB ((v.dropWhile wsB).headD 0)
         then some u else none) := by
      simp only [parseHeader, List.drop_succ_cons, List.drop_zero, hfi]
      have hdk : a.drop (k + 1) = v := by
        rw [hav, ← hul]
        rw [show u.length + 1 = (u ++ [93]).length from by simp]
        rw [show u ++ 93 :: v = (u ++ [93]) ++ v from by simp]
        rw [List.drop_left]
      rw [hdk]
      have htk : a.take k = u := by
        rw [hav, ← hul]
        exact List.take_left ..
      rw [htk]
    cases hrem : v.dropWhile wsB with
    | nil =>
      have hdrw : b1.drop (o + 1 + u.length + 1) =
          v.takeWhile wsB ++ 0 :: r := by
        rw [hdvw, hrem]
        simp
      have hsk := skipWS_eq (v.takeWhile wsB) b1 n (o + 1 + u.length + 1) (n + 1) r 0
        (by rw [hn, hb1len]) hdrw hwsv (by omega) hfuel
      have hstop : rd b1 (o + 1 + u.length + 1 + (v.takeWhile wsB).length) = 0 :=
        rd_stop_of_drop hdrw
      rw [hph, hrem]
      simp only [List.isEmpty_nil, Bool.true_or, if_true]
      refine ⟨b1, v ++ 0 :: r, ?_, hb1len, hb1ne, hd1u, ?_⟩
      · unfold doLine
        rw [if_pos h91]
        simp only []
        rw [hsn]
        simp only []
        rw [hsk]
        rw [if_neg (by rw [hstop]; simp)]
      · have := congrArg List.length hav
        simp at this
        simp
        omega
    | cons e v2 =>
      have he : wsB e = false := dropWhile_head_false hrem
      have hewv : ¬ (e = 32 ∨ e = 9) := by
        simp [wsB] at he
        omega
      have hdrw : b1.drop (o + 1 + u.length + 1) =
          v.takeWhile wsB ++ e :: (v2 ++ 0 :: r) := by
        rw [hdvw, hrem]
        simp
      have hsk := skipWS_eq (v.takeWhile wsB) b1 n (o + 1 + u.length + 1) (n + 1)
        (v2 ++ 0 :: r) e (by rw [hn, hb1len]) hdrw hwsv hewv hfuel
      have hstop : rd b1 (o + 1 + u.length + 1 + (v.takeWhile wsB).length) = e :=
        rd_stop_of_drop hdrw
      have hene : e ≠ 0 := by
        intro hc
        apply h0a
        rw [hav]
        refine List.mem_append_right _ (List.mem_cons_of_mem _ ?_)
        rw [← hc, ← hvsplit, hrem]
        exact List.mem_append_right _ (List.mem_cons_self ..)
      by_cases hecm : e = 35 ∨ e = 59
      · rw [hph, hrem]
        simp only [List.isEmpty_cons, Bool.false_or, List.headD_cons]
        rw [if_pos (by simp [isCmB]; omega)]
        refine ⟨b1, v ++ 0 :: r, ?_, hb1len, hb1ne, hd1u, ?_⟩
        · unfold doLine
          rw [if_pos h91]
          simp only []
          rw [hsn]
          simp only []
          rw [hsk]
          rw [if_neg (by rw [hstop]; omega)]
        · have := congrArg List.length hav
          simp at this
          simp
          omega
      · rw [hph, hrem]
        simp only [List.isEmpty_cons, Bool.false_or, List.headD_cons]
        rw [if_neg (by simp [isCmB]; omega)]
        unfold doLine
        rw [if_pos h91]
        simp only []
        rw [hsn]
        simp only []
        rw [hsk]
        rw [if_pos (by rw [hstop]; exact ⟨hene, by omega, by omega⟩)]

theorem getD_append_left {u w : List Nat} {j : Nat} (h : j < u.length) :
    (u ++ w).getD j 0 = u.getD j 0 := by
  rw [List.getD_eq_getElem?_getD, List.getD_eq_getElem?_getD, List.getElem?_append_left h]

theorem trimTrail_decomp (l : List Nat) :
    ∃ sfx, l = trimTrail l ++ sfx ∧ ∀ x ∈ sfx, wsB x = true := by
  refine ⟨(l.reverse.takeWhile wsB).reverse, ?_, ?_⟩
  · unfold trimTrail
    rw [← List.reverse_append, List.takeWhile_append_dropWhile, List.reverse_reverse]
  · intro x hx
    exact List.mem_takeWhile_imp (List.mem_reverse.mp hx)

theorem trimTrail_ne_nil {l : List Nat} (hne : l ≠ [])
    (hh : wsB (l.headD 0) = false) : trimTrail l ≠ [] := by
  obtain ⟨sfx, hdec, hws⟩ := trimTrail_decomp l
  intro hc
  rw [hc, List.nil_append] at hdec
  obtain ⟨c, l2, rfl⟩ := List.exists_cons_of_ne_nil hne
  have : wsB c = true := hws c (by rw [← hdec]; simp)
  simp at hh
  rw [hh] at this
  simp at this

/-- The trailing-whitespace trim and terminator write after a value has
been scanned: the buffer then holds the NUL-terminated trimmed value. -/
theorem trim_write (b1 : Buf) (i1 : Nat) (vlist SUF : List Nat)
    (hd1v : b1.drop i1 = vlist ++ SUF)
    (hvne : vlist ≠ [])
    (hvh : ¬ (vlist.headD 0 = 32 ∨ vlist.headD 0 = 9))
    (hv0 : (0:Nat) ∉ vlist)
    (hlen : i1 + vlist.length < b1.length) :
    ∃ b2, b2 = wr b1 (i1 + (trimTrail vlist).length) 0 ∧
      trimPos b1 (i1 + vlist.length) = i1 + (trimTrail vlist).length ∧
      b2.length = b1.length ∧
      (∀ p, p ≠ i1 + (trimTrail vlist).length → rd b2 p = rd b1 p) ∧
      b2.drop i1 = trimTrail vlist ++ 0 :: b2.drop (i1 + (trimTrail vlist).length + 1) ∧
      trimTrail vlist ≠ [] ∧ (trimTrail vlist).length ≤ vlist.length ∧
      (0:Nat) ∉ trimTrail vlist := by
  obtain ⟨sfx, hvdec, hsfxws⟩ := trimTrail_decomp vlist
  have htvne : trimTrail vlist ≠ [] := by
    refine trimTrail_ne_nil hvne ?_
    unfold wsB
    have h1 : vlist.headD 0 ≠ 32 := fun hc => hvh (Or.inl hc)
    have h2 : vlist.headD 0 ≠ 9 := fun hc => hvh (Or.inr hc)
    rw [Bool.or_eq_false_iff]
    exact ⟨beq_false_of_ne h1, beq_false_of_ne h2⟩
  have htvlen : (trimTrail vlist).length ≤ vlist.length := by
    have h := congrArg List.length hvdec
    rw [List.length_append] at h
    omega
  have hvlpos : 1 ≤ vlist.length := by
    cases vlist with
    | nil => exact absurd rfl hvne
    | cons a as => simp
  have htb := trimBack_eq vlist b1 i1 SUF hd1v hvne hvh
  have htp : trimPos b1 (i1 + vlist.length) = i1 + (trimTrail vlist).length := by
    have hpos : i1 + vlist.length = (i1 + vlist.length - 1) + 1 := by omega
    rw [hpos]
    simp only [trimPos]
    rw [← htb]
  refine ⟨wr b1 (i1 + (trimTrail vlist).length) 0, rfl, htp, wr_length ..,
          fun p hp => rd_wr_ne b1 _ 0 p hp, ?_, htvne, htvlen, ?_⟩
  · have hrdv : ∀ j, j < (trimTrail vlist).length →
        rd (wr b1 (i1 + (trimTrail vlist).length) 0) (i1 + j) =
        (trimTrail vlist).getD j 0 := by
      intro j hj
      have hne2 : i1 + j ≠ i1 + (trimTrail vlist).length := by omega
      rw [rd_wr_ne _ _ _ _ hne2]
      have h2 := rd_of_drop hd1v j
      rw [h2]
      show (vlist ++ SUF).getD j 0 = _
      rw [getD_append_left (by omega)]
      conv_lhs => rw [hvdec]
      exact getD_append_left hj
    have hrd0 : rd (wr b1 (i1 + (trimTrail vlist).length) 0)
        (i1 + (trimTrail vlist).length) = 0 := by
      refine rd_wr_self b1 _ 0 ?_
      omega
    refine drop_decomp_of_rd hrdv hrd0 ?_
    rw [wr_length]
    omega
  · intro hx
    apply hv0
    rw [hvdec]
    exact List.mem_append_left _ hx

/-- A parameter line: the pass-2 loop body fails exactly when the
reference `parseParam` fails, and otherwise appends a parameter whose
key and value views hold the spec key and value, mutating only bytes of
this line region. -/
theorem doLine_param (b : Buf) (n o lineNo : Nat) (t r : List Nat)
    (sects : List SectRec) (params : List (Nat × Nat))
    (hn : n = b.length)
    (hd : b.drop o = t ++ 0 :: r)
    (h0t : (0:Nat) ∉ t)
    (hne : t ≠ [])
    (hh91 : t.headD 0 ≠ 91) (hh35 : t.headD 0 ≠ 35) (hh59 : t.headD 0 ≠ 59) :
    match parseParam t with
    | none => doLine n ⟨b, sects, params⟩ lineNo o = .error lineNo
    | some kv =>
      ∃ b2 voff r1 r2,
        doLine n ⟨b, sects, params⟩ lineNo o =
          .ok (appendParam ⟨b2, sects, params⟩ o voff) ∧
        b2.length = b.length ∧
        (∀ p, p < o → rd b2 p = rd b p) ∧
        (∀ p, o + t.length + 1 ≤ p → rd b2 p = rd b p) ∧
        b2.drop o = kv.1 ++ 0 :: r1 ∧
        b2.drop voff = kv.2 ++ 0 :: r2 ∧
        o ≤ voff ∧ voff + kv.2.length ≤ o + t.length := by
  have hhead : rd b o = t.headD 0 := by
    obtain ⟨c0, t2, rfl⟩ := List.exists_cons_of_ne_nil hne
    simpa using rd_stop_of_drop (w := []) (by simpa using hd)
  have hh0 : t.headD 0 ≠ 0 := by
    obtain ⟨c0, t2, rfl⟩ := List.exists_cons_of_ne_nil hne
    simp only [List.headD_cons]
    intro hc
    exact h0t (by simp [hc])
  have htlen : o + t.length < b.length := drop_len_lt hd
  have hdo1 : doLine n ⟨b, sects, params⟩ lineNo o =
      (match scanKey (n + 1) b n o with
       | .error _ => .error lineNo
       | .ok sepPos =>
         let b1 := wr b sepPos 0
         let i1 := skipSep (n + 1) b1 n (sepPos + 1)
         if rd b1 i1 = 0 ∨ rd b1 i1 = 35 ∨ rd b1 i1 = 59 then .error lineNo
         else
           match scanVal (n + 1) b1 n i1 with
           | .error _ => .error lineNo
           | .ok stop =>
             let b2 := wr b1 (trimPos b1 stop) 0
             .ok (appendParam ⟨b2, sects, params⟩ o i1)) := by
    unfold doLine
    rw [if_neg (by rw [hhead]; exact hh91),
        if_pos (by rw [hhead]; exact ⟨hh35, hh59, hh0⟩)]
  set key := t.takeWhile (fun c => ! isSepB c) with hkeydef
  have hsplitk : key ++ t.dropWhile (fun c => ! isSepB c) = t :=
    List.takeWhile_append_dropWhile ..
  have hkeyprop : ∀ x ∈ key, x ≠ 0 ∧ ¬ (x = 61 ∨ x = 32 ∨ x = 9) := by
    intro x hx
    have h1 := List.mem_takeWhile_imp hx
    have h2 : x ∈ t := (List.takeWhile_prefix _).subset hx
    refine ⟨fun hc => h0t (hc ▸ h2), ?_⟩
    simp [isSepB] at h1
    omega
  have hdropk : t.drop key.length = t.dropWhile (fun c => ! isSepB c) := by
    conv_lhs => rw [← hsplitk]
    rw [List.drop_left]
  cases hdk : t.dropWhile (fun c => ! isSepB c) with
  | nil =>
    -- no separator on the line: both sides fail
    have hkt : key = t := by rw [← hsplitk, hdk, List.append_nil]
    have hsk := scanKey_eq key b n o (n + 1) r 0 hn (by rw [hkt]; exact hd)
      hkeyprop (Or.inl rfl) (by rw [hkt]; omega)
    rw [if_pos rfl] at hsk
    have hpp : parseParam t = none := by
      simp only [parseParam, ← hkeydef, hdropk, hdk]
      simp
    rw [hpp, hdo1, hsk]
  | cons s0 tail =>
    have hs0 : isSepB s0 = true := by
      have := dropWhile_head_false hdk
      simpa using this
    have hs0c : s0 = 61 ∨ s0 = 32 ∨ s0 = 9 := by
      simp [isSepB] at hs0
      omega
    have hs0t : s0 ∈ t := by
      rw [← hsplitk, hdk]
      exact List.mem_append_right _ (List.mem_cons_self ..)
    have hs00 : s0 ≠ 0 := fun hc => h0t (hc ▸ hs0t)
    have hdks : b.drop o = key ++ s0 :: (tail ++ 0 :: r) := by
      rw [hd, ← hsplitk, hdk]
      simp
    have htlen2 : t.length = key.length + 1 + tail.length := by
      have h := congrArg List.length hsplitk
      rw [hdk] at h
      simp only [List.length_append, List.length_cons] at h
      omega
    have hsplen : o + key.length < b.length := drop_len_lt hdks
    have hsk := scanKey_eq key b n o (n + 1) (tail ++ 0 :: r) s0 hn hdks
      hkeyprop (Or.inr hs0c) (by omega)
    rw [if_neg hs00] at hsk
    set b1 := wr b (o + key.length) 0 with hb1def
    have hb1len : b1.length = b.length := wr_length ..
    have hb1ne : ∀ p, p ≠ o + key.length → rd b1 p = rd b p :=
      fun p hp => rd_wr_ne b _ 0 p hp
    have hd1tail : b1.drop (o + key.length + 1) = tail ++ 0 :: r := by
      rw [hb1def, drop_wr_of_lt (by omega)]
      have hx : b.drop o = (key ++ [s0]) ++ (tail ++ 0 :: r) := by
        rw [hdks]; simp
      have := drop_add_of_drop hx
      simp only [List.length_append, List.length_cons, List.length_nil] at this
      rw [show o + (key.length + 1) = o + key.length + 1 from by omega] at this
      exact this
    have hsplitt : tail.takeWhile isSepB ++ tail.dropWhile isSepB = tail :=
      List.takeWhile_append_dropWhile ..
    have hsrprop : ∀ x ∈ tail.takeWhile isSepB, x = 61 ∨ x = 32 ∨ x = 9 := by
      intro x hx
      have := List.mem_takeWhile_imp hx
      simp [isSepB] at this
      omega
    have hsrlen : (tail.takeWhile isSepB).length ≤ tail.length := by
      have h := congrArg List.length hsplitt
      rw [List.length_append] at h
      omega
    have hr1 : (t.drop key.length).dropWhile isSepB = tail.dropWhile isSepB := by
      rw [hdropk, hdk, List.dropWhile_cons, if_pos hs0]
    cases hrem : tail.dropWhile isSepB with
    | nil =>
      -- separator run reaches the end of the line: empty value, both fail
      have hsrt : tail.takeWhile isSepB = tail := by
        conv_rhs => rw [← hsplitt, hrem]
        rw [List.append_nil]
      have hd1sr : b1.drop (o + key.length + 1) = tail.takeWhile isSepB ++ 0 :: r := by
        rw [hd1tail]
        conv_rhs => rw [hsrt]
      have hss := skipSep_eq (tail.takeWhile isSepB) b1 n (o + key.length + 1) (n + 1)
        r 0 (by rw [hn, hb1len]) hd1sr hsrprop (by omega) (by omega)
      have hstop : rd b1 (o + key.length + 1 + (tail.takeWhile isSepB).length) = 0 :=
        rd_stop_of_drop hd1sr
      have hpp : parseParam t = none := by
        simp only [parseParam, ← hkeydef, hr1, hrem]
        simp
      rw [hpp, hdo1, hsk]
      try simp only []
      rw [← hb1def, hss]
      rw [if_pos (Or.inl hstop)]
    | cons e rem1 =>
      have htail2 : tail.length = (tail.takeWhile isSepB).length + 1 + rem1.length := by
        have h := congrArg List.length hsplitt
        rw [hrem] at h
        simp only [List.length_append, List.length_cons] at h
        omega
      have hes : isSepB e = false := dropWhile_head_false hrem
      have hesc : ¬ (e = 61 ∨ e = 32 ∨ e = 9) := by
        simp [isSepB] at hes
        omega
      have het : e ∈ t := by
        rw [← hsplitk, hdk]
        refine List.mem_append_right _ (List.mem_cons_of_mem _ ?_)
        rw [← hsplitt, hrem]
        exact List.mem_append_right _ (List.mem_cons_self ..)
      have he0 : e ≠ 0 := fun hc => h0t (hc ▸ het)
      have hd1sr : b1.drop (o + key.length + 1) =
          tail.takeWhile isSepB ++ e :: (rem1 ++ 0 :: r) := by
        rw [hd1tail]
        conv_lhs => rw [← hsplitt, hrem]
        simp
      have hss := skipSep_eq (tail.takeWhile isSepB) b1 n (o + key.length + 1) (n + 1)
        (rem1 ++ 0 :: r) e (by rw [hn, hb1len]) hd1sr hsrprop hesc (by omega)
      set i1 := o + key.length + 1 + (tail.takeWhile isSepB).length with hi1def
      have hstope : rd b1 i1 = e := rd_stop_of_drop hd1sr
      have hd1i1 : b1.drop i1 = (e :: rem1) ++ 0 :: r := by
        have hx : b1.drop (o + key.length + 1) =
            tail.takeWhile isSepB ++ ((e :: rem1) ++ 0 :: r) := by
          rw [hd1sr]; simp
        exact drop_add_of_drop hx
      have hi1len : i1 + rem1.length + 1 < b.length := by
        have h := drop_len_lt (w := (e :: rem1)) (c := 0) (b := b1) hd1i1
        rw [hb1len] at h
        simp only [List.length_cons] at h
        omega
      have hi1b : i1 + rem1.length + 1 ≤ o + t.length := by omega
      by_cases hecm : e = 35 ∨ e = 59
      · have hpp : parseParam t = none := by
          simp only [parseParam, ← hkeydef, hr1, hrem]
          have : isCmB e = true := by simp [isCmB]; omega
          simp [this]
        rw [hpp, hdo1, hsk]
        try simp only []
        rw [← hb1def, hss]
        rw [if_pos (by rw [hstope]; omega)]
      · -- a real value begins at i1
        have hchk : ¬ (rd b1 i1 = 0 ∨ rd b1 i1 = 35 ∨ rd b1 i1 = 59) := by
          rw [hstope]
          push_neg
          refine ⟨he0, ?_, ?_⟩ <;> omega
        have hrem1t : ∀ x ∈ e :: rem1, x ∈ t := by
          intro x hx
          rw [← hsplitk, hdk]
          refine List.mem_append_right _ (List.mem_cons_of_mem _ ?_)
          rw [← hsplitt, hrem]
          exact List.mem_append_right _ hx
        have hval0 : ∀ x ∈ e :: rem1, x ≠ 0 :=
          fun x hx hc => h0t (hc ▸ hrem1t x hx)
        cases hfi : (e :: rem1).findIdx? isCmB with
        | none =>
          have hnocm : ∀ x ∈ e :: rem1, isCmB x = false := findIdx_none hfi
          have hsv := scanVal_eq (e :: rem1) b1 n i1 (n + 1) r 0
            (by rw [hn, hb1len]) hd1i1
            (fun x hx => ⟨hval0 x hx, by have := hnocm x hx; simp [isCmB] at this; omega⟩)
            (Or.inl rfl) (by simp only [List.length_cons]; omega)
          rw [if_pos rfl] at hsv
          have hpp : parseParam t = some (key, trimTrail (e :: rem1)) := by
            simp only [parseParam, ← hkeydef, hr1, hrem, hfi]
            have : isCmB e = false := hnocm e (by simp)
            simp [this]
          rw [hpp]
          obtain ⟨b2, hb2def, htp, hb2len1, hb2ne, hvald, htvne, htvlen, htv0⟩ :=
            trim_write b1 i1 (e :: rem1) (0 :: r) hd1i1 (by simp)
              (by simp only [List.headD_cons]; omega)
              (fun hx => hval0 0 hx rfl)
              (by rw [hb1len]; simp only [List.length_cons]; omega)
          have hb2len : b2.length = b.length := by rw [hb2len1, hb1len]
          have htvlen2 : (trimTrail (e :: rem1)).length ≤ rem1.length + 1 := by
            simpa using htvlen
          have hkeyd : b2.drop o = key ++ 0 :: b2.drop (o + key.length + 1) := by
            have hrdk : ∀ j, j < key.length → rd b2 (o + j) = key.getD j 0 := by
              intro j hj
              rw [hb2ne _ (by omega), hb1ne _ (by omega)]
              exact rd_lt_of_drop hdks j hj
            have hrd0 : rd b2 (o + key.length) = 0 := by
              rw [hb2ne _ (by omega), hb1def]
              exact rd_wr_self b _ 0 hsplen
            exact drop_decomp_of_rd hrdk hrd0 (by rw [hb2len]; omega)
          refine ⟨b2, i1, _, _, ?_, hb2len, ?_, ?_, hkeyd, hvald, by omega, ?_⟩
          · rw [hdo1, hsk]
            try simp only []
            rw [← hb1def, hss]
            rw [if_neg hchk]
            try simp only []
            rw [hsv]
            try simp only []
            rw [htp, ← hb2def]
          · intro p hp
            rw [hb2ne _ (by omega), hb1ne _ (by omega)]
          · intro p hp
            rw [hb2ne _ (by omega), hb1ne _ (by omega)]
          · show i1 + (trimTrail (e :: rem1)).length ≤ o + t.length
            simp only [List.length_cons] at htvlen
            omega
        | some k =>
          obtain ⟨u1, cm, v1, hrv, hul, hcmt, hu1⟩ := findIdx_decomp hfi
          have hcm : cm = 35 ∨ cm = 59 := by
            simp [isCmB] at hcmt
            omega
          have hu1ne : u1 ≠ [] := by
            rintro rfl
            simp at hrv
            obtain ⟨he2, -⟩ := hrv
            subst he2
            exact hecm hcm
          have hu1len : u1.length + 1 + v1.length = rem1.length + 1 := by
            have h := congrArg List.length hrv
            simp only [List.length_append, List.length_cons] at h
            omega
          have hd1u1 : b1.drop i1 = u1 ++ cm :: (v1 ++ 0 :: r) := by
            rw [hd1i1, hrv]
            simp
          have hsv := scanVal_eq u1 b1 n i1 (n + 1) (v1 ++ 0 :: r) cm
            (by rw [hn, hb1len]) hd1u1
            (fun x hx => ⟨fun hc => hval0 x (by rw [hrv]; exact List.mem_append_left _ hx) hc,
              by have := hu1 x hx; simp [isCmB] at this; omega⟩)
            (Or.inr hcm)
            (by omega)
          rw [if_neg (by omega)] at hsv
          have hu1pos : 1 ≤ u1.length := by
            cases u1 with
            | nil => exact absurd rfl hu1ne
            | cons a as => simp
          have hprev : rd b1 (i1 + u1.length - 1) = u1.getD (u1.length - 1) 0 := by
            have h := rd_lt_of_drop hd1u1 (u1.length - 1) (by omega)
            rw [show i1 + (u1.length - 1) = i1 + u1.length - 1 from by omega] at h
            exact h
          have hgetd : (e :: rem1).getD (k - 1) 0 = u1.getD (u1.length - 1) 0 := by
            conv_lhs => rw [hrv]
            rw [← hul]
            exact getD_append_left (by omega)
          have hu1h : u1.headD 0 = e := by
            cases u1 with
            | nil => exact absurd rfl hu1ne
            | cons a as =>
              have := congrArg (fun l => l.headD 0) hrv
              simpa using this.symm
          by_cases hws : wsB ((e :: rem1).getD (k - 1) 0) = true
          · -- comment is whitespace-separated: value accepted
            have hws2 : (e :: rem1).getD (k - 1) 0 = 32 ∨
                (e :: rem1).getD (k - 1) 0 = 9 := by
              have h := hws
              unfold wsB at h
              rcases Bool.or_eq_true_iff.mp h with h1 | h1
              · exact Or.inl (eq_of_beq h1)
              · exact Or.inr (eq_of_beq h1)
            have hwsu : rd b1 (i1 + u1.length - 1) = 32 ∨
                rd b1 (i1 + u1.length - 1) = 9 := by
              rw [hprev, ← hgetd]
              exact hws2
            rw [if_neg (by omega)] at hsv
            have htake : (e :: rem1).take k = u1 := by
              conv_lhs => rw [hrv, ← hul]
              exact List.take_left ..
            have hpp : parseParam t = some (key, trimTrail u1) := by
              simp only [parseParam, ← hkeydef, hr1, hrem, hfi, List.isEmpty_cons,
                Bool.false_or, List.headD_cons]
              rw [if_neg (by simp [isCmB]; omega)]
              try simp only []
              rw [if_pos hws, htake]
            rw [hpp]
            obtain ⟨b2, hb2def, htp, hb2len1, hb2ne, hvald, htvne, htvlen, htv0⟩ :=
              trim_write b1 i1 u1 (cm :: (v1 ++ 0 :: r)) hd1u1 hu1ne
                (by rw [hu1h]; omega)
                (fun hx => hval0 0 (by rw [hrv]; exact List.mem_append_left _ hx) rfl)
                (by rw [hb1len]; omega)
            have hb2len : b2.length = b.length := by rw [hb2len1, hb1len]
            have hkeyd : b2.drop o = key ++ 0 :: b2.drop (o + key.length + 1) := by
              have hrdk : ∀ j, j < key.length → rd b2 (o + j) = key.getD j 0 := by
                intro j hj
                rw [hb2ne _ (by omega), hb1ne _ (by omega)]
                exact rd_lt_of_drop hdks j hj
              have hrd0 : rd b2 (o + key.length) = 0 := by
                rw [hb2ne _ (by omega), hb1def]
                exact rd_wr_self b _ 0 hsplen
              exact drop_decomp_of_rd hrdk hrd0 (by rw [hb2len]; omega)
            refine ⟨b2, i1, _, _, ?_, hb2len, ?_, ?_, hkeyd, hvald, by omega, ?_⟩
            · rw [hdo1, hsk]
              try simp only []
              rw [← hb1def, hss]
              rw [if_neg hchk]
              try simp only []
              rw [hsv]
              try simp only []
              rw [htp, ← hb2def]
            · intro p hp
              rw [hb2ne _ (by omega), hb1ne _ (by omega)]
            · intro p hp
              rw [hb2ne _ (by omega), hb1ne _ (by omega)]
            · show i1 + (trimTrail u1).length ≤ o + t.length
              omega
          · -- comment marker not whitespace-separated: both fail
            have hws2 : ¬ ((e :: rem1).getD (k - 1) 0 = 32 ∨
                (e :: rem1).getD (k - 1) 0 = 9) := by
              intro hc
              apply hws
              unfold wsB
              rcases hc with h1 | h1 <;> rw [h1] <;> simp
            have hwsu : ¬ (rd b1 (i1 + u1.length - 1) = 32 ∨
                rd b1 (i1 + u1.length - 1) = 9) := by
              rw [hprev, ← hgetd]
              exact hws2
            rw [if_pos (by omega)] at hsv
            have hpp : parseParam t = none := by
              simp only [parseParam, ← hkeydef, hr1, hrem, hfi, List.isEmpty_cons,
                Bool.false_or, List.headD_cons]
              rw [if_neg (by simp [isCmB]; omega)]
              try simp only []
              rw [if_neg hws]
            rw [hpp, hdo1, hsk]
            try simp only []
            rw [← hb1def, hss]
            rw [if_neg hchk]
            try simp only []
            rw [hsv]

/-! ### Pass-2 refinement: table maintenance -/

theorem getD_append_l2 {α : Type} {u w : List α} {j : Nat} {d : α} (h : j < u.length) :
    (u ++ w).getD j d = u.getD j d := by
  rw [List.getD_eq_getElem?_getD, List.getD_eq_getElem?_getD, List.getElem?_append_left h]

theorem getD_append_r0 {α : Type} (u : List α) (x d : α) :
    (u ++ [x]).getD u.length d = x := by
  rw [List.getD_eq_getElem?_getD, List.getElem?_append_right (le_refl _)]
  simp

theorem dropLast_getLastD {α : Type} {l : List α} (h : l ≠ []) (d : α) :
    l.dropLast ++ [l.getLastD d] = l := by
  rw [List.getLastD_eq_getLast? d l, List.getLast?_eq_getLast l h]
  simp only [Option.getD_some]
  exact List.dropLast_append_getLast h

theorem getD_last_eq_getLastD {α : Type} {l : List α} (h : l ≠ []) (d : α) :
    l.getD (l.length - 1) d = l.getLastD d := by
  have h2 := getD_append_r0 l.dropLast (l.getLastD d) d
  rw [dropLast_getLastD h d] at h2
  rw [List.length_dropLast] at h2
  exact h2

theorem kvsOf_append (A B : List SpecSect) : kvsOf (A ++ B) = kvsOf A ++ kvsOf B := by
  unfold kvsOf
  simp

theorem kvsOf_single (nm : Option (List Nat)) (kvs : List (List Nat × List Nat)) :
    kvsOf [(nm, kvs)] = kvs := by
  unfold kvsOf
  simp

theorem firstIdx_take_eq {doc1 doc2 : List SpecSect} {idx : Nat}
    (h : doc1.take idx = doc2.take idx) : firstIdx doc1 idx = firstIdx doc2 idx := by
  unfold firstIdx
  rw [h]

theorem firstIdx_last (doc : List SpecSect) (h : doc ≠ []) :
    firstIdx doc (doc.length - 1) = (kvsOf doc.dropLast).length := by
  unfold firstIdx kvsOf
  rw [← List.dropLast_eq_take, List.length_flatten, List.map_map]
  rfl

theorem take_dropLast_append {α : Type} (u : List α) (x : List α) {idx : Nat}
    (h : idx ≤ u.length) : (u ++ x).take idx = u.take idx := by
  exact List.take_append_of_le_length h

/-- Linking a fresh section keeps the representation, for any new base at
or above the old one, on any buffer agreeing below the old base. -/
theorem Repr2_header {b b1 : Buf} {base base2 : Nat} {sects : List SectRec}
    {params : List (Nat × Nat)} {doc : List SpecSect}
    (h : Repr2 b base sects params doc) (hb : base ≤ base2)
    (hagree : ∀ t, t < base → rd b1 t = rd b t)
    {noff : Nat} {nm : List Nat}
    (hoff : OffHolds b1 base2 noff nm) :
    Repr2 b1 base2 (sects ++ [⟨some noff, 0, none⟩]) params
      (doc ++ [(some nm, [])]) := by
  obtain ⟨hl, hp, hs, hm⟩ := @Repr2_stable b b1 base base2 sects params doc h hb hagree
  have hkv : kvsOf (doc ++ [(some nm, [])]) = kvsOf doc := by
    rw [kvsOf_append, kvsOf_single, List.append_nil]
  refine ⟨by simp [hl], by rw [hp, hkv], ?_, ?_⟩
  · intro idx hidx
    simp only [List.length_append, List.length_cons, List.length_nil] at hidx
    by_cases hlt : idx < doc.length
    · have hgs : (sects ++ [(⟨some noff, 0, none⟩ : SectRec)]).getD idx ⟨none, 0, none⟩ =
          sects.getD idx ⟨none, 0, none⟩ := getD_append_l2 (by omega)
      have hgd : (doc ++ [((some nm, []) : SpecSect)]).getD idx (none, []) =
          doc.getD idx (none, []) := getD_append_l2 hlt
      rw [hgs, hgd]
      obtain ⟨hn, hsz, he, hne⟩ := hs idx hlt
      refine ⟨hn, hsz, he, ?_⟩
      intro hx
      rw [hne hx]
      congr 1
      refine (firstIdx_take_eq ?_).symm
      exact take_dropLast_append doc _ (by omega)
    · have hidx2 : idx = doc.length := by omega
      subst hidx2
      have hgs : (sects ++ [(⟨some noff, 0, none⟩ : SectRec)]).getD doc.length ⟨none, 0, none⟩ =
          ⟨some noff, 0, none⟩ := by
        rw [← hl]
        exact getD_append_r0 ..
      have hgd : (doc ++ [((some nm, []) : SpecSect)]).getD doc.length (none, []) =
          (some nm, []) := getD_append_r0 ..
      rw [hgs, hgd]
      exact ⟨hoff, rfl, fun _ => rfl, fun hx => absurd rfl hx⟩
  · intro m hm2
    rw [hkv]
    exact hm m hm2

/-- Membership facts about the pieces `parseParam` returns: key and
value consist of bytes of the line, the key is shorter than the line and
holds no separator byte. -/
theorem parseParam_sub {t : List Nat} {kv : List Nat × List Nat}
    (h : parseParam t = some kv) :
    (∀ x ∈ kv.1, x ∈ t) ∧ (∀ x ∈ kv.2, x ∈ t) ∧ kv.1.length < t.length ∧
    (∀ x ∈ kv.1, isSepB x = false) := by
  unfold parseParam at h
  set key := t.takeWhile (fun c => ! isSepB c) with hkeydef
  set r1 := (t.drop key.length).dropWhile isSepB with hr1def
  have hkmem : ∀ x ∈ key, x ∈ t := fun x hx => (List.takeWhile_prefix _).subset hx
  have hksep : ∀ x ∈ key, isSepB x = false := by
    intro x hx
    have := List.mem_takeWhile_imp hx
    simpa using this
  have hr1mem : ∀ x ∈ r1, x ∈ t := by
    intro x hx
    have h1 : x ∈ t.drop key.length := (List.dropWhile_suffix isSepB).subset hx
    exact (List.drop_suffix _ _).subset h1
  by_cases hemp : r1.isEmpty || isCmB (r1.headD 0)
  · rw [if_pos hemp] at h
    simp at h
  · rw [if_neg hemp] at h
    have hr1ne : r1 ≠ [] := by
      intro hc
      rw [hc] at hemp
      simp at hemp
    have hklen : key.length < t.length := by
      have hsplit : key ++ t.dropWhile (fun c => ! isSepB c) = t :=
        List.takeWhile_append_dropWhile ..
      have hdw : t.dropWhile (fun c => ! isSepB c) ≠ [] := by
        intro hc
        apply hr1ne
        rw [hr1def]
        have hdropk : t.drop key.length = t.dropWhile (fun c => ! isSepB c) := by
          conv_lhs => rw [← hsplit]
          rw [List.drop_left]
        rw [hdropk, hc]
        rfl
      have h1 := congrArg List.length hsplit
      rw [List.length_append] at h1
      have h2 : 0 < (t.dropWhile (fun c => ! isSepB c)).length := by
        cases hc : t.dropWhile (fun c => ! isSepB c) with
        | nil => exact absurd hc hdw
        | cons a as => simp
      omega
    have htrim : ∀ (l : List Nat), (∀ x ∈ l, x ∈ t) → ∀ x ∈ trimTrail l, x ∈ t := by
      intro l hl x hx
      obtain ⟨sfx, hdec, -⟩ := trimTrail_decomp l
      exact hl x (by rw [hdec]; exact List.mem_append_left _ hx)
    cases hfi : r1.findIdx? isCmB with
    | none =>
      rw [hfi] at h
      try simp only [] at h
      cases h
      exact ⟨hkmem, htrim r1 hr1mem, hklen, hksep⟩
    | some k =>
      rw [hfi] at h
      try simp only [] at h
      by_cases hws : wsB (r1.getD (k - 1) 0) = true
      · rw [if_pos hws] at h
        cases h
        refine ⟨hkmem, htrim _ ?_, hklen, hksep⟩
        intro x hx
        exact hr1mem x ((List.take_prefix k r1).subset hx)
      · rw [if_neg hws] at h
        simp at h

/-- Appending a parameter to the last section keeps the representation. -/
theorem Repr2_param {b b2 : Buf} {base base2 : Nat} {sects : List SectRec}
    {params : List (Nat × Nat)} {doc : List SpecSect}
    (h : Repr2 b base sects params doc) (hdne : doc ≠ []) (hb : base ≤ base2)
    (hagree : ∀ t, t < base → rd b2 t = rd b t)
    {koff voff : Nat} {kv : List Nat × List Nat}
    (hk : OffHolds b2 base2 koff kv.1) (hv : OffHolds b2 base2 voff kv.2) :
    Repr2 b2 base2
      (sects.dropLast ++ [{ sects.getLastD ⟨none, 0, none⟩ with
        size := (sects.getLastD ⟨none, 0, none⟩).size + 1,
        firstParam := match (sects.getLastD ⟨none, 0, none⟩).firstParam with
                      | none => some params.length
                      | some f => some f }])
      (params ++ [(koff, voff)])
      (doc.dropLast ++ [((doc.getLastD (none, [])).1,
        (doc.getLastD (none, [])).2 ++ [kv])]) := by
  obtain ⟨hl, hp, hs, hm⟩ := @Repr2_stable b b2 base base2 sects params doc h hb hagree
  have hsne : sects ≠ [] := by
    intro hc
    apply hdne
    rw [hc] at hl
    simp only [List.length_nil] at hl
    exact List.length_eq_zero.mp hl.symm
  have hdocdec : doc.dropLast ++ [doc.getLastD (none, [])] = doc :=
    dropLast_getLastD hdne _
  have hkv2 : kvsOf (doc.dropLast ++ [((doc.getLastD (none, [])).1,
      (doc.getLastD (none, [])).2 ++ [kv])]) = kvsOf doc ++ [kv] := by
    rw [kvsOf_append, kvsOf_single]
    conv_rhs => rw [← hdocdec, kvsOf_append, kvsOf_single]
    simp
  have hlast : sects.getD (sects.length - 1) ⟨none, 0, none⟩ =
      sects.getLastD ⟨none, 0, none⟩ := getD_last_eq_getLastD hsne _
  have hdlast : doc.getD (doc.length - 1) (none, []) = doc.getLastD (none, []) :=
    getD_last_eq_getLastD hdne _
  have hdll : doc.dropLast.length = doc.length - 1 := List.length_dropLast doc
  have hsll : sects.dropLast.length = sects.length - 1 := List.length_dropLast sects
  have hdpos : 1 ≤ doc.length := by
    cases doc with
    | nil => exact absurd rfl hdne
    | cons a as => simp
  obtain ⟨hnl, hszl, hel, hnel⟩ := hs (doc.length - 1) (by omega)
  constructor
  · simp only [List.length_append, List.length_cons, List.length_nil, hdll, hsll, hl]
  constructor
  · rw [hkv2]
    simp only [List.length_append, List.length_cons, List.length_nil, hp]
  constructor
  · intro idx hidx
    simp only [List.length_append, List.length_cons, List.length_nil, hdll] at hidx
    by_cases hlt : idx < doc.length - 1
    · have hgs : ∀ (z : SectRec), (sects.dropLast ++ [z]).getD idx ⟨none, 0, none⟩ =
          sects.getD idx ⟨none, 0, none⟩ := by
        intro z
        rw [getD_append_l2 (by omega)]
        conv_rhs => rw [← List.dropLast_append_getLast hsne]
        rw [getD_append_l2 (by omega)]
      have hgd : (doc.dropLast ++ [((doc.getLastD (none, [])).1,
          (doc.getLastD (none, [])).2 ++ [kv])]).getD idx (none, []) =
          doc.getD idx (none, []) := by
        rw [getD_append_l2 (by omega)]
        conv_rhs => rw [← List.dropLast_append_getLast hdne]
        rw [getD_append_l2 (by omega)]
      rw [hgs _, hgd]
      obtain ⟨hn, hsz, he, hne⟩ := hs idx (by omega)
      refine ⟨hn, hsz, he, ?_⟩
      intro hx
      rw [hne hx]
      congr 1
      refine (firstIdx_take_eq ?_).symm
      rw [take_dropLast_append _ _ (by omega)]
      conv_rhs => rw [← hdocdec]
      rw [take_dropLast_append _ _ (by omega)]
    · have hidx2 : idx = doc.length - 1 := by omega
      subst hidx2
      have hgs : (sects.dropLast ++ [{ sects.getLastD ⟨none, 0, none⟩ with
          size := (sects.getLastD ⟨none, 0, none⟩).size + 1,
          firstParam := match (sects.getLastD ⟨none, 0, none⟩).firstParam with
                        | none => some params.length
                        | some f => some f }]).getD (doc.length - 1) ⟨none, 0, none⟩ =
          { sects.getLastD ⟨none, 0, none⟩ with
            size := (sects.getLastD ⟨none, 0, none⟩).size + 1,
            firstParam := match (sects.getLastD ⟨none, 0, none⟩).firstParam with
                          | none => some params.length
                          | some f => some f } := by
        rw [show doc.length - 1 = sects.dropLast.length from by omega]
        exact getD_append_r0 ..
      have hgd : (doc.dropLast ++ [((doc.getLastD (none, [])).1,
          (doc.getLastD (none, [])).2 ++ [kv])]).getD (doc.length - 1) (none, []) =
          ((doc.getLastD (none, [])).1, (doc.getLastD (none, [])).2 ++ [kv]) := by
        rw [show doc.length - 1 = doc.dropLast.length from by omega]
        exact getD_append_r0 ..
      rw [hgs, hgd]
      rw [hl] at hlast
      rw [hlast, hdlast] at hnl hszl hel hnel
      refine ⟨?_, ?_, by simp, ?_⟩
      · -- the name view is untouched by the update
        cases hc1 : (sects.getLastD ⟨none, 0, none⟩).name with
        | none =>
          cases hc2 : (doc.getLastD (none, [])).1 with
          | none => simp
          | some nm2 => rw [hc1, hc2] at hnl; exact hnl
        | some o2 =>
          cases hc2 : (doc.getLastD (none, [])).1 with
          | none => rw [hc1, hc2] at hnl; exact hnl
          | some nm2 => rw [hc1, hc2] at hnl; exact hnl
      · show (sects.getLastD ⟨none, 0, none⟩).size + 1 =
          ((doc.getLastD (none, [])).2 ++ [kv]).length
        rw [hszl]
        simp
      · intro hx2
        have hfi : firstIdx (doc.dropLast ++ [((doc.getLastD (none, [])).1,
            (doc.getLastD (none, [])).2 ++ [kv])]) (doc.length - 1) =
            (kvsOf doc.dropLast).length := by
          have h2 := firstIdx_last (doc.dropLast ++ [((doc.getLastD (none, [])).1,
            (doc.getLastD (none, [])).2 ++ [kv])]) (by simp)
          simp only [List.length_append, List.length_cons, List.length_nil, hdll,
            List.dropLast_concat] at h2
          rw [show doc.length - 1 + 1 - 1 = doc.length - 1 from by omega] at h2
          exact h2
        rw [hfi]
        cases hc : (doc.getLastD (none, [])).2 with
        | nil =>
          rw [hel hc]
          have hpl : params.length = (kvsOf doc.dropLast).length := by
            rw [hp]
            conv_lhs => rw [← hdocdec, kvsOf_append, kvsOf_single]
            rw [List.length_append, hc]
            simp
          rw [hpl]
        | cons q qs =>
          rw [hnel (by rw [hc]; simp)]
          have := firstIdx_last doc hdne
          rw [this]
  · intro m hm2
    simp only [List.length_append, List.length_cons, List.length_nil] at hm2
    rw [hkv2]
    by_cases hlt : m < params.length
    · rw [getD_append_l2 hlt, getD_append_l2 (by omega)]
      exact hm m hlt
    · have hm3 : m = params.length := by omega
      subst hm3
      rw [getD_append_r0, show params.length = (kvsOf doc).length from hp]
      rw [getD_append_r0]
      exact ⟨hk, hv⟩

theorem parseHeader_sub {t : List Nat} {nm : List Nat}
    (h : parseHeader t = some nm) : ∀ x ∈ nm, x ∈ t := by
  simp only [parseHeader] at h
  cases hfi : (t.drop 1).findIdx? (fun c => c == 93) with
  | none => rw [hfi] at h; simp at h
  | some k =>
    rw [hfi] at h
    try simp only [] at h
    by_cases hc : ((((t.drop 1).drop (k + 1)).dropWhile wsB).isEmpty ||
        isCmB ((((t.drop 1).drop (k + 1)).dropWhile wsB).headD 0)) = true
    · rw [if_pos hc] at h
      cases h
      intro x hx
      have h1 : x ∈ t.drop 1 := (List.take_prefix _ _).subset hx
      exact (List.drop_suffix _ _).subset h1
    · rw [if_neg hc] at h
      simp at h

/-- Folding the reference step over lines none of which is a parameter
line only appends empty named sections. -/
theorem specFold_no_params (segs : List (List Nat)) :
    ∀ (doc sdoc : List SpecSect),
    (∀ s ∈ segs, isParamSeg s = false) →
    specFold doc (segs.map lineTrim) = some sdoc →
    ∃ trail, sdoc = doc ++ trail ∧ ∀ x ∈ trail, x.1 ≠ none ∧ x.2 = [] := by
  induction segs with
  | nil =>
    intro doc sdoc _ hf
    simp only [List.map_nil, specFold] at hf
    cases hf
    exact ⟨[], by simp, by simp⟩
  | cons s rest ih =>
    intro doc sdoc hnp hf
    simp only [List.map_cons, specFold] at hf
    cases hstep : specStep doc (lineTrim s) with
    | none => rw [hstep] at hf; simp at hf
    | some d1 =>
      rw [hstep] at hf
      try simp only [] at hf
      have hd1 : d1 = doc ∨ ∃ nm, d1 = doc ++ [(some nm, [])] := by
        unfold specStep at hstep
        by_cases hemp : (lineTrim s).isEmpty
        · rw [if_pos hemp] at hstep
          cases hstep
          exact Or.inl rfl
        · rw [if_neg hemp] at hstep
          by_cases h91 : (lineTrim s).headD 0 = 91
          · rw [if_pos h91] at hstep
            cases hh : parseHeader (lineTrim s) with
            | none => rw [hh] at hstep; simp at hstep
            | some nm =>
              rw [hh] at hstep
              simp only [Option.map] at hstep
              cases hstep
              exact Or.inr ⟨nm, rfl⟩
          · rw [if_neg h91] at hstep
            by_cases hcm : isCmB ((lineTrim s).headD 0) = true
            · rw [if_pos hcm] at hstep
              cases hstep
              exact Or.inl rfl
            · exfalso
              have hp := hnp s (by simp)
              unfold isParamSeg at hp
              have e1 : (lineTrim s).isEmpty = false := by
                cases hx : (lineTrim s).isEmpty
                · rfl
                · exact absurd hx hemp
              have e2 : ((lineTrim s).headD 0 == 91) = false := beq_false_of_ne h91
              have e3 : isCmB ((lineTrim s).headD 0) = false := by
                cases hx : isCmB ((lineTrim s).headD 0)
                · rfl
                · exact absurd hx hcm
              rw [e1, e2, e3] at hp
              simp at hp
      rcases hd1 with rfl | ⟨nm, rfl⟩
      · exact ih _ sdoc (fun x hx => hnp x (by simp [hx])) hf
      · obtain ⟨trail, htr, hall⟩ := ih _ sdoc (fun x hx => hnp x (by simp [hx])) hf
        refine ⟨(some nm, []) :: trail, by rw [htr]; simp, ?_⟩
        intro x hx
        rcases List.mem_cons.mp hx with rfl | hx2
        · exact ⟨by simp, rfl⟩
        · exact hall x hx2

/-- The pass-2 loop against the reference fold: on success the linked
tables represent the document built from the processed lines, and the
remaining reference lines (skipped when the parameter bound was already
reached) contribute only empty trailing sections. -/
theorem pass2Loop_correct (segs : List (List Nat)) :
    ∀ (b : Buf) (n base lineIdx paramCount : Nat) (sects : List SectRec)
      (params : List (Nat × Nat)) (doc sdoc : List SpecSect) (st2 : Pass2St),
    n = b.length →
    b.drop base = (joinLF segs).map zeroB →
    base ≤ n →
    (∀ s ∈ segs, (10:Nat) ∉ s ∧ ¬ segBad s ∧ (0:Nat) ∉ s) →
    Repr2 b base sects params doc →
    doc ≠ [] →
    paramCount = params.length + segs.countP isParamSeg →
    specFold doc (segs.map lineTrim) = some sdoc →
    pass2Loop n paramCount (lineStarts base segs) lineIdx ⟨b, sects, params⟩ =
      .ok st2 →
    ∃ docC trail, sdoc = docC ++ trail ∧
      (∀ x ∈ trail, x.1 ≠ none ∧ x.2 = []) ∧
      docC ≠ [] ∧
      st2.buf.length = b.length ∧
      st2.params.length = paramCount ∧
      st2.sects.length ≤ sects.length + segs.countP isHeadSeg ∧
      Repr2 st2.buf n st2.sects st2.params docC := by
  induction segs with
  | nil =>
    intro b n base lineIdx paramCount sects params doc sdoc st2 hn hdrop hbase hsegs
      hrepr hdne hpc hfold hloop
    simp only [lineStarts, pass2Loop] at hloop
    cases hloop
    simp only [List.map_nil, specFold] at hfold
    cases hfold
    refine ⟨doc, [], by simp, by simp, hdne, rfl, ?_, ?_, ?_⟩
    · show params.length = paramCount
      simp only [List.countP_nil] at hpc
      omega
    · simp
    · exact Repr2_stable hrepr (by omega) (fun t ht => rfl)
  | cons seg rest ih =>
    intro b n base lineIdx paramCount sects params doc sdoc st2 hn hdrop hbase hsegs
      hrepr hdne hpc hfold hloop
    rw [joinLF_cons] at hdrop
    obtain ⟨h10s, hbads, h0s⟩ := hsegs seg (by simp)
    have hsegs2 := fun s hs => hsegs s (List.mem_cons_of_mem _ hs)
    have hlenrel : base + seg.length + 1 + (joinLF rest).length = b.length := by
      have h := congrArg List.length hdrop
      rw [List.length_drop, List.length_map] at h
      simp only [List.length_append, List.length_cons] at h
      omega
    obtain ⟨⟨rr, hline⟩, hnextd, hwsle⟩ := line_layout seg (joinLF rest) b base hdrop
      h10s hbads
    have h0t : (0:Nat) ∉ lineTrim seg := fun hx => h0s (lineTrim_subset _ hx)
    have hbase2 : base + seg.length + 1 ≤ n := by omega
    have hob : base + (seg.takeWhile wsB).length + (lineTrim seg).length ≤
        base + seg.length := by omega
    simp only [lineStarts, pass2Loop] at hloop
    by_cases hparam : params.length < paramCount
    case neg =>
      rw [if_neg (by simpa using hparam)] at hloop
      cases hloop
      have hcz : (seg :: rest).countP isParamSeg = 0 := by omega
      have hnop := List.countP_eq_zero.mp hcz
      obtain ⟨trail, htr, hall⟩ := specFold_no_params (seg :: rest) doc sdoc
        (fun s hs => by simpa using hnop s hs) hfold
      refine ⟨doc, trail, htr, hall, hdne, rfl, by show params.length = paramCount; omega, ?_, ?_⟩
      · simp
      · exact Repr2_stable hrepr (by omega) (fun t ht => rfl)
    case pos =>
      rw [if_pos (by simpa using hparam)] at hloop
      simp only [List.map_cons, specFold] at hfold
      by_cases hemp : (lineTrim seg).isEmpty
      · -- blank line
        have htnil : lineTrim seg = [] := by
          cases hc : lineTrim seg with
          | nil => rfl
          | cons a as => rw [hc] at hemp; simp at hemp
        have hstep : specStep doc (lineTrim seg) = some doc := by
          unfold specStep
          rw [if_pos hemp]
        rw [hstep] at hfold
        try simp only [] at hfold
        have hskip := doLine_skip b n (base + (seg.takeWhile wsB).length) (lineIdx + 1)
          (lineTrim seg) rr sects params hline (Or.inl htnil)
        rw [hskip] at hloop
        try simp only [] at hloop
        have hps : isParamSeg seg = false := by
          unfold isParamSeg
          rw [htnil]
          simp
        have hhs : isHeadSeg seg = false := by
          unfold isHeadSeg
          rw [htnil]
          simp
        obtain ⟨docC, trail, h1, h2, h3, h4, h5, h6, h7⟩ :=
          ih b n (base + seg.length + 1) (lineIdx + 1) paramCount sects params doc sdoc
            st2 hn hnextd hbase2 hsegs2
            (Repr2_stable hrepr (by omega) (fun t ht => rfl)) hdne
            (by rw [hpc, List.countP_cons, hps]; simp) hfold hloop
        have hcp : (seg :: rest).countP isHeadSeg = rest.countP isHeadSeg := by
          rw [List.countP_cons, hhs]
          simp
        refine ⟨docC, trail, h1, h2, h3, h4, h5, ?_, h7⟩
        rw [hcp]
        exact h6
      · by_cases hcm : isCmB ((lineTrim seg).headD 0) = true
        · -- comment line
          have hcm2 : (lineTrim seg).headD 0 = 35 ∨ (lineTrim seg).headD 0 = 59 := by
            have hx := hcm
            unfold isCmB at hx
            rcases Bool.or_eq_true_iff.mp hx with h1 | h1
            · exact Or.inl (eq_of_beq h1)
            · exact Or.inr (eq_of_beq h1)
          have h91n : (lineTrim seg).headD 0 ≠ 91 := by omega
          have hstep : specStep doc (lineTrim seg) = some doc := by
            unfold specStep
            rw [if_neg hemp, if_neg h91n, if_pos hcm]
          rw [hstep] at hfold
          try simp only [] at hfold
          have hskip := doLine_skip b n (base + (seg.takeWhile wsB).length) (lineIdx + 1)
            (lineTrim seg) rr sects params hline (Or.inr hcm)
          rw [hskip] at hloop
          try simp only [] at hloop
          have hps : isParamSeg seg = false := by
            unfold isParamSeg
            rw [hcm]
            simp
          have hhs : isHeadSeg seg = false := by
            unfold isHeadSeg
            refine beq_false_of_ne ?_
            omega
          obtain ⟨docC, trail, h1, h2, h3, h4, h5, h6, h7⟩ :=
            ih b n (base + seg.length + 1) (lineIdx + 1) paramCount sects params doc sdoc
              st2 hn hnextd hbase2 hsegs2
              (Repr2_stable hrepr (by omega) (fun t ht => rfl)) hdne
              (by rw [hpc, List.countP_cons, hps]; simp) hfold hloop
          have hcp : (seg :: rest).countP isHeadSeg = rest.countP isHeadSeg := by
            rw [List.countP_cons, hhs]
            simp
          refine ⟨docC, trail, h1, h2, h3, h4, h5, ?_, h7⟩
          rw [hcp]
          exact h6
        · by_cases h91 : (lineTrim seg).headD 0 = 91
          · -- section header line
            have hne2 : lineTrim seg ≠ [] := by
              intro hc
              rw [hc] at hemp
              simp at hemp
            obtain ⟨c0, a, hta⟩ := List.exists_cons_of_ne_nil hne2
            have hc091 : c0 = 91 := by
              rw [hta] at h91
              simpa using h91
            subst hc091
            have hstep : specStep doc (lineTrim seg) =
                (parseHeader (lineTrim seg)).map (fun nm => doc ++ [(some nm, [])]) := by
              unfold specStep
              rw [if_neg hemp, if_pos h91]
            rw [hstep] at hfold
            have hdh := doLine_header b n (base + (seg.takeWhile wsB).length) (lineIdx + 1)
              a rr sects params hn (by rw [← hta]; exact hline) (by rw [← hta]; exact h0t)
            cases hph : parseHeader (lineTrim seg) with
            | none =>
              rw [hph] at hfold
              simp at hfold
            | some nm =>
              rw [hta] at hph
              rw [hph] at hdh
              try simp only [] at hdh
              obtain ⟨b1, r1, hok, hb1len, hb1ne, hb1drop, hnmb⟩ := hdh
              simp only [List.length_cons] at hnmb
              rw [hok] at hloop
              try simp only [] at hloop
              rw [← hta] at hph
              rw [hph] at hfold
              simp only [Option.map] at hfold
              try simp only [] at hfold
              have hnmt : ∀ x ∈ nm, x ∈ lineTrim seg := parseHeader_sub hph
              have hoff : OffHolds b1 (base + seg.length + 1)
                  (base + (seg.takeWhile wsB).length + 1) nm := by
                refine OffHolds_of_drop hb1drop ?_ ?_
                · rw [hta] at hob
                  simp only [List.length_cons] at hob
                  omega
                · intro hx
                  exact h0t (hnmt 0 hx)
              have hagree : ∀ p, p < base → rd b1 p = rd b p := by
                intro p hp
                refine hb1ne p ?_
                omega
              have hdrop2 : b1.drop (base + seg.length + 1) = (joinLF rest).map zeroB := by
                rw [drop_eq_of_rd b b1 (base + seg.length + 1) hb1len ?_]
                · exact hnextd
                · intro p hp
                  refine hb1ne p ?_
                  rw [hta] at hob
                  simp only [List.length_cons] at hob
                  omega
              have hps : isParamSeg seg = false := by
                unfold isParamSeg
                rw [h91]
                simp
              have hhs : isHeadSeg seg = true := by
                unfold isHeadSeg
                rw [h91]
                simp
              obtain ⟨docC, trail, h1, h2, h3, h4, h5, h6, h7⟩ :=
                ih b1 n (base + seg.length + 1) (lineIdx + 1) paramCount
                  (sects ++ [⟨some (base + (seg.takeWhile wsB).length + 1), 0, none⟩])
                  params (doc ++ [(some nm, [])]) sdoc st2
                  (by rw [hn, hb1len]) hdrop2 hbase2 hsegs2
                  (Repr2_header hrepr (by omega) hagree hoff) (by simp)
                  (by rw [hpc, List.countP_cons, hps]; simp) hfold hloop
              have hcp : (seg :: rest).countP isHeadSeg = rest.countP isHeadSeg + 1 := by
                rw [List.countP_cons, hhs]
                simp
              refine ⟨docC, trail, h1, h2, h3, by rw [h4, hb1len], h5, ?_, h7⟩
              rw [hcp]
              simp only [List.length_append, List.length_cons, List.length_nil] at h6
              omega
          · -- parameter line
            have hne2 : lineTrim seg ≠ [] := by
              intro hc
              rw [hc] at hemp
              simp at hemp
            have h35 : (lineTrim seg).headD 0 ≠ 35 := by
              intro hc
              apply hcm
              unfold isCmB
              rw [hc]
              rfl
            have h59 : (lineTrim seg).headD 0 ≠ 59 := by
              intro hc
              apply hcm
              unfold isCmB
              rw [hc]
              rfl
            have hstep : specStep doc (lineTrim seg) =
                (parseParam (lineTrim seg)).map (fun kv => doc.dropLast ++
                  [((doc.getLastD (none, [])).1, (doc.getLastD (none, [])).2 ++ [kv])]) := by
              unfold specStep
              rw [if_neg hemp, if_neg h91, if_neg hcm]
            rw [hstep] at hfold
            have hdp := doLine_param b n (base + (seg.takeWhile wsB).length) (lineIdx + 1)
              (lineTrim seg) rr sects params hn hline h0t hne2 h91 h35 h59
            cases hppv : parseParam (lineTrim seg) with
            | none =>
              rw [hppv] at hfold
              simp at hfold
            | some kv =>
              rw [hppv] at hdp
              try simp only [] at hdp
              obtain ⟨b2, voff, r1, r2, hok, hb2len, hlow, hhigh, hkd, hvd, hole, hvb⟩ := hdp
              rw [hok] at hloop
              try simp only [] at hloop
              rw [hppv] at hfold
              simp only [Option.map] at hfold
              try simp only [] at hfold
              obtain ⟨hkmem, hvmem, hklen, -⟩ := parseParam_sub hppv
              have hk : OffHolds b2 (base + seg.length + 1)
                  (base + (seg.takeWhile wsB).length) kv.1 := by
                refine OffHolds_of_drop hkd ?_ ?_
                · omega
                · intro hx
                  exact h0t (hkmem 0 hx)
              have hv : OffHolds b2 (base + seg.length + 1) voff kv.2 := by
                refine OffHolds_of_drop hvd ?_ ?_
                · omega
                · intro hx
                  exact h0t (hvmem 0 hx)
              have hagree : ∀ p, p < base → rd b2 p = rd b p :=
                fun p hp => hlow p (by omega)
              have hdrop2 : b2.drop (base + seg.length + 1) = (joinLF rest).map zeroB := by
                rw [drop_eq_of_rd b b2 (base + seg.length + 1) hb2len ?_]
                · exact hnextd
                · intro p hp
                  refine hhigh p ?_
                  omega
              have hps : isParamSeg seg = true := by
                have e1 : (lineTrim seg).isEmpty = false := by
                  cases hx : (lineTrim seg).isEmpty
                  · rfl
                  · exact absurd hx hemp
                have e2 : ((lineTrim seg).headD 0 == 91) = false := beq_false_of_ne h91
                have e3 : isCmB ((lineTrim seg).headD 0) = false := by
                  cases hx : isCmB ((lineTrim seg).headD 0)
                  · rfl
                  · exact absurd hx hcm
                unfold isParamSeg
                rw [e1, e2, e3]
                rfl
              have hhs : isHeadSeg seg = false := beq_false_of_ne h91
              have hslen : 1 ≤ sects.length := by
                have hx := hrepr.1
                cases doc with
                | nil => exact absurd rfl hdne
                | cons d ds => rw [hx]; simp
              have happ : appendParam ⟨b2, sects, params⟩
                  (base + (seg.takeWhile wsB).length) voff =
                  ⟨b2, sects.dropLast ++ [{ sects.getLastD ⟨none, 0, none⟩ with
                    size := (sects.getLastD ⟨none, 0, none⟩).size + 1,
                    firstParam := match (sects.getLastD ⟨none, 0, none⟩).firstParam with
                                  | none => some params.length
                                  | some f => some f }],
                    params ++ [(base + (seg.takeWhile wsB).length, voff)]⟩ := rfl
              rw [happ] at hloop
              obtain ⟨docC, trail, h1, h2, h3, h4, h5, h6, h7⟩ :=
                ih b2 n (base + seg.length + 1) (lineIdx + 1) paramCount
                  (sects.dropLast ++ [{ sects.getLastD ⟨none, 0, none⟩ with
                    size := (sects.getLastD ⟨none, 0, none⟩).size + 1,
                    firstParam := match (sects.getLastD ⟨none, 0, none⟩).firstParam with
                                  | none => some params.length
                                  | some f => some f }])
                  (params ++ [(base + (seg.takeWhile wsB).length, voff)])
                  (doc.dropLast ++ [((doc.getLastD (none, [])).1,
                    (doc.getLastD (none, [])).2 ++ [kv])]) sdoc st2
                  (by rw [hn, hb2len]) hdrop2 hbase2 hsegs2
                  (Repr2_param hrepr hdne (by omega) hagree hk hv) (by simp)
                  (by
                    rw [hpc, List.countP_cons, hps]
                    simp only [List.length_append, List.length_cons, List.length_nil,
                      if_true]
                    omega) hfold hloop
              have hcp : (seg :: rest).countP isParamSeg = rest.countP isParamSeg + 1 := by
                rw [List.countP_cons, hps]
                simp
              have hcph : (seg :: rest).countP isHeadSeg = rest.countP isHeadSeg := by
                rw [List.countP_cons, hhs]
                simp
              refine ⟨docC, trail, h1, h2, h3, by rw [h4, hb2len], h5, ?_, h7⟩
              rw [hcph]
              simp only [List.length_append, List.length_cons, List.length_nil,
                List.length_dropLast] at h6
              omega

theorem get?_eq_some_getD {α : Type} (l : List α) (m : Nat) (d : α)
    (h : m < l.length) : l.get? m = some (l.getD m d) := by
  rw [List.get?_eq_getElem?, List.getElem?_eq_getElem h, List.getD_eq_getElem?_getD,
      List.getElem?_eq_getElem h]
  rfl

theorem getD_append_right2 {α : Type} (u w : List α) (j : Nat) (d : α) :
    (u ++ w).getD (u.length + j) d = w.getD j d := by
  rw [List.getD_eq_getElem?_getD, List.getD_eq_getElem?_getD,
      List.getElem?_append_right (Nat.le_add_right ..)]
  have h : u.length + j - u.length = j := by omega
  rw [h]

theorem getD_drop {α : Type} (l : List α) (i j : Nat) (d : α) :
    (l.drop i).getD j d = l.getD (i + j) d := by
  rw [List.getD_eq_getElem?_getD, List.getD_eq_getElem?_getD, List.getElem?_drop]

theorem mem_joinLF {x : Nat} {s : List Nat} {segs : List (List Nat)}
    (hs : s ∈ segs) (hx : x ∈ s) : x ∈ joinLF segs := by
  induction segs with
  | nil => cases hs
  | cons a as ih =>
    rw [joinLF_cons]
    rcases List.mem_cons.mp hs with rfl | hs2
    · exact List.mem_append_left _ hx
    · exact List.mem_append_right _ (List.mem_cons_of_mem _ (ih hs2))

theorem find_append_eq {α : Type} (p : α → Bool) (l1 l2 : List α) :
    (l1 ++ l2).find? p = match l1.find? p with
      | some x => some x
      | none => l2.find? p := by
  induction l1 with
  | nil => rfl
  | cons a l1 ih =>
    rw [List.cons_append, List.find?_cons, List.find?_cons]
    cases ha : p a
    · simpa using ih
    · rfl

/-- Peel one index off the parameter scan of `findInSect`: test the first
slot, then continue one slot further with one fewer to scan. -/
theorem findInSect_succ (b : Buf) (ps : List (Nat × Nat)) (first sz : Nat)
    (key : List Nat) :
    findInSect b ps first (sz + 1) key =
      match ps.get? first with
      | some kv => if casEq key (cstr b kv.1) then some kv.2
                   else findInSect b ps (first + 1) sz key
      | none => findInSect b ps (first + 1) sz key := by
  unfold findInSect
  rw [List.range_succ_eq_map, List.findSome?_cons]
  simp only [Nat.add_zero]
  have hrec : (List.map Nat.succ (List.range sz)).findSome? (fun j =>
      match ps.get? (first + j) with
      | some kv => if casEq key (cstr b kv.1) then some kv.2 else none
      | none => none) = (List.range sz).findSome? (fun j =>
      match ps.get? (first + 1 + j) with
      | some kv => if casEq key (cstr b kv.1) then some kv.2 else none
      | none => none) := by
    rw [List.findSome?_map]
    congr 1
    funext j
    show (match ps.get? (first + (j + 1)) with
      | some kv => if casEq key (cstr b kv.1) then some kv.2 else none
      | none => none) = _
    have h : first + (j + 1) = first + 1 + j := by omega
    rw [h]
  rw [hrec]
  cases hg : ps.get? first with
  | none => rfl
  | some kv =>
    simp only []
    by_cases hc : casEq key (cstr b kv.1) = true
    · rw [if_pos hc, if_pos hc]
    · rw [if_neg hc, if_neg hc]

/-- The section-scan of `findInSect` against the reference `lookupKey`:
when the `sz` consecutive parameter-table slots starting at `first` hold
the views of the reference pairs `kvs`, the scan finds exactly the first
case-insensitive match. -/
theorem findInSect_lookup (b : Buf) (key : List Nat) :
    ∀ (kvs : List (List Nat × List Nat)) (ps : List (Nat × Nat)) (first : Nat),
    (∀ m, m < kvs.length → ∃ kv : Nat × Nat, ps.get? (first + m) = some kv ∧
      cstr b kv.1 = (kvs.getD m ([], [])).1 ∧
      cstr b kv.2 = (kvs.getD m ([], [])).2) →
    (findInSect b ps first kvs.length key).map (cstr b) = lookupKey kvs key := by
  intro kvs
  induction kvs with
  | nil =>
    intro ps first h
    simp [findInSect, lookupKey]
  | cons kv0 rest ih =>
    intro ps first h
    obtain ⟨kvp, hget, hck, hcv⟩ := h 0 (by simp)
    simp only [List.getD_cons_zero] at hck hcv
    have hget' : ps.get? first = some kvp := hget
    rw [List.length_cons, findInSect_succ, hget']
    simp only []
    rw [hck]
    unfold lookupKey
    rw [List.find?_cons]
    by_cases hc : casEq key kv0.1 = true
    · rw [if_pos hc, hc]
      simp [hcv]
    · have hc' : casEq key kv0.1 = false := by
        cases hx : casEq key kv0.1
        · rfl
        · exact absurd hx hc
      rw [if_neg hc, hc']
      have hshift : ∀ m, m < rest.length → ∃ kv : Nat × Nat,
          ps.get? (first + 1 + m) = some kv ∧
          cstr b kv.1 = (rest.getD m ([], [])).1 ∧
          cstr b kv.2 = (rest.getD m ([], [])).2 := by
        intro m hm
        obtain ⟨kv, h1, h2, h3⟩ := h (m + 1) (by simp; omega)
        have he : first + (m + 1) = first + 1 + m := by omega
        rw [he] at h1
        simp only [List.getD_cons_succ] at h2 h3
        exact ⟨kv, h1, h2, h3⟩
      exact ih ps (first + 1) hshift

/-- The indexed scan over `sects.get?` done by `findSect` is the scan of
the initialised prefix: once the index leaves the table the body returns
`none` forever. -/
theorem findSome_get_drop {α : Type} (g : SectRec → Option α) :
    ∀ (m a : Nat) (ss : List SectRec), ss.length ≤ a + m →
    (List.range' a m).findSome? (fun i =>
      match ss.get? i with
      | some s => g s
      | none => none) = (ss.drop a).findSome? g := by
  intro m
  induction m with
  | zero =>
    intro a ss h
    have hd : ss.drop a = [] := List.drop_eq_nil_of_le (by omega)
    rw [hd]
    rfl
  | succ m ih =>
    intro a ss h
    rw [List.range'_succ, List.findSome?_cons]
    by_cases ha : a < ss.length
    · have hget : ss.get? a = some ss[a] := by
        rw [List.get?_eq_getElem?, List.getElem?_eq_getElem ha]
      have hdrop : ss.drop a = ss[a] :: ss.drop (a + 1) := List.drop_eq_getElem_cons ha
      rw [hget, hdrop, List.findSome?_cons]
      simp only []
      cases hga : g ss[a] with
      | some x => rfl
      | none =>
        simp only []
        exact ih (a + 1) ss (by omega)
    · have hget : ss.get? a = none := by
        rw [List.get?_eq_getElem?, List.getElem?_eq_none (by omega)]
      have hd1 : ss.drop a = [] := List.drop_eq_nil_of_le (by omega)
      have hd2 : ss.drop (a + 1) = [] := List.drop_eq_nil_of_le (by omega)
      rw [hget, hd1]
      have := ih (a + 1) ss (by omega)
      rw [hd2] at this
      exact this

/-- `findSect` only ever sees the initialised prefix of the section
table: it is the first-match scan of the records with index ≥ 1. -/
theorem findSect_eq_drop (b : Buf) (snm : List Nat) (sects : List SectRec)
    (sectCount : Nat) (hlen : sects.length ≤ sectCount) (h1 : 1 ≤ sectCount) :
    findSect b sects sectCount snm = (sects.drop 1).findSome? (fun s =>
      match s.name with
      | some noff => if casEq snm (cstr b noff) then some s else none
      | none => none) := by
  unfold findSect
  exact findSome_get_drop _ (sectCount - 1) 1 sects (by omega)

/-- Pointwise-related section tables and reference documents produce
related first-match scans: both miss, or both hit the same index. -/
theorem findSome_name_rel (b : Buf) (snm : List Nat) :
    ∀ (ss : List SectRec) (ds : List SpecSect),
    ss.length = ds.length →
    (∀ j, j < ds.length →
      match (ss.getD j ⟨none, 0, none⟩).name, (ds.getD j (none, [])).1 with
      | none, none => True
      | some o, some nm => cstr b o = nm
      | _, _ => False) →
    (ss.findSome? (fun s =>
        match s.name with
        | some noff => if casEq snm (cstr b noff) then some s else none
        | none => none) = none ∧
      ds.find? (fun s =>
        match s.1 with
        | some nm => casEq snm nm
        | none => false) = none) ∨
    (∃ j, j < ds.length ∧
      ss.findSome? (fun s =>
        match s.name with
        | some noff => if casEq snm (cstr b noff) then some s else none
        | none => none) = some (ss.getD j ⟨none, 0, none⟩) ∧
      ds.find? (fun s =>
        match s.1 with
        | some nm => casEq snm nm
        | none => false) = some (ds.getD j (none, []))) := by
  intro ss
  induction ss with
  | nil =>
    intro ds hlen hrel
    left
    have hds : ds = [] := List.length_eq_zero.mp (by simpa using hlen.symm)
    subst hds
    exact ⟨rfl, rfl⟩
  | cons s ss ih =>
    intro ds hlen hrel
    cases ds with
    | nil => simp at hlen
    | cons d ds' =>
      have h0 := hrel 0 (by simp)
      simp only [List.getD_cons_zero] at h0
      have hlen' : ss.length = ds'.length := by
        simp only [List.length_cons] at hlen
        omega
      have hrel' : ∀ j, j < ds'.length →
          match (ss.getD j ⟨none, 0, none⟩).name, (ds'.getD j (none, [])).1 with
          | none, none => True
          | some o, some nm => cstr b o = nm
          | _, _ => False := by
        intro j hj
        have := hrel (j + 1) (by simp; omega)
        simpa only [List.getD_cons_succ] using this
      rw [List.findSome?_cons, List.find?_cons]
      cases hn : s.name with
      | none =>
        cases hd : d.1 with
        | some nm =>
          rw [hn, hd] at h0
          simp only [] at h0
        | none =>
          simp only []
          rcases ih ds' hlen' hrel' with ⟨h1, h2⟩ | ⟨j, hj, h1, h2⟩
          · left
            exact ⟨h1, h2⟩
          · right
            refine ⟨j + 1, by simp; omega, ?_, ?_⟩
            · rw [h1, List.getD_cons_succ]
            · rw [h2, List.getD_cons_succ]
      | some o =>
        cases hd : d.1 with
        | none =>
          rw [hn, hd] at h0
          simp only [] at h0
        | some nm =>
          rw [hn, hd] at h0
          simp only [] at h0
          simp only []
          by_cases hc : casEq snm (cstr b o) = true
          · have hc2 : casEq snm nm = true := by rw [← h0]; exact hc
            rw [if_pos hc, hc2]
            right
            exact ⟨0, by simp, by rw [List.getD_cons_zero], by rw [List.getD_cons_zero]⟩
          · have hc2 : casEq snm nm = false := by
              cases hx : casEq snm nm
              · rfl
              · rw [← h0] at hx; exact absurd hx hc
            rw [if_neg hc, hc2]
            rcases ih ds' hlen' hrel' with ⟨h1, h2⟩ | ⟨j, hj, h1, h2⟩
            · left
              exact ⟨h1, h2⟩
            · right
              refine ⟨j + 1, by simp; omega, ?_, ?_⟩
              · rw [h1, List.getD_cons_succ]
              · rw [h2, List.getD_cons_succ]

/-- Reference lookup with a section name ignores empty trailing
sections: any first match among them has no parameters, so the lookup
misses either way. -/
theorem specFind_append_trail (key snm : List Nat) (docC trail : List SpecSect)
    (hd : docC ≠ []) (htrail : ∀ x ∈ trail, x.1 ≠ none ∧ x.2 = []) :
    specFind (docC ++ trail) key (some snm) =
      (match (docC.drop 1).find? (fun s =>
          match s.1 with
          | some nm => casEq snm nm
          | none => false) with
       | some s => lookupKey s.2 key
       | none => none) := by
  unfold specFind
  simp only []
  have hdrop : (docC ++ trail).drop 1 = docC.drop 1 ++ trail := by
    cases docC with
    | nil => exact absurd rfl hd
    | cons a as => simp
  rw [hdrop, find_append_eq]
  cases hfa : (docC.drop 1).find? (fun s =>
      match s.1 with
      | some nm => casEq snm nm
      | none => false) with
  | some s => rfl
  | none =>
    simp only []
    cases hft : trail.find? (fun s =>
        match s.1 with
        | some nm => casEq snm nm
        | none => false) with
    | none => rfl
    | some x =>
      have hx := List.mem_of_find?_eq_some hft
      have hx2 : x.2 = [] := (htrail x hx).2
      simp only [hx2]
      rfl

/-- Reference lookup without a section name only consults the unscoped
bucket, which trailing sections never affect. -/
theorem specFind_append_none (key : List Nat) (docC trail : List SpecSect)
    (hd : docC ≠ []) :
    specFind (docC ++ trail) key none = lookupKey (docC.headD (none, [])).2 key := by
  unfold specFind
  cases docC with
  | nil => exact absurd rfl hd
  | cons a as => rfl

/-- Slice addressing of the flattened pair list: entry `m` of section
`idx` sits at offset `firstIdx doc idx + m`. -/
theorem kvsOf_slice (doc : List SpecSect) :
    ∀ (idx : Nat), idx < doc.length →
    ∀ m, m < (doc.getD idx (none, [])).2.length →
      firstIdx doc idx + m < (kvsOf doc).length ∧
      (kvsOf doc).getD (firstIdx doc idx + m) ([], []) =
        (doc.getD idx (none, [])).2.getD m ([], []) := by
  induction doc with
  | nil =>
    intro idx h
    simp at h
  | cons d doc ih =>
    intro idx hidx m hm
    have hk : kvsOf (d :: doc) = d.2 ++ kvsOf doc := by
      unfold kvsOf
      rw [List.map_cons, List.flatten_cons]
    cases idx with
    | zero =>
      have h0 : firstIdx (d :: doc) 0 = 0 := rfl
      simp only [List.getD_cons_zero] at hm ⊢
      constructor
      · rw [hk, h0]
        simp only [List.length_append]
        omega
      · rw [h0, hk, Nat.zero_add, getD_append_l2 hm]
    | succ idx =>
      have hfi : firstIdx (d :: doc) (idx + 1) = d.2.length + firstIdx doc idx := by
        unfold firstIdx
        rw [List.take_succ_cons, List.map_cons, List.sum_cons]
      simp only [List.getD_cons_succ] at hm ⊢
      obtain ⟨hlt, heq⟩ := ih idx (by simp at hidx; omega) m hm
      constructor
      · rw [hk, hfi]
        simp only [List.length_append]
        omega
      · have hsh : d.2.length + firstIdx doc idx + m =
            d.2.length + (firstIdx doc idx + m) := by omega
        rw [hk, hfi, hsh, getD_append_right2, heq]

/-- The lookup of `confreaderFind` against the reference lookup: when the
loaded tables represent the document `docC` and the section count may
exceed the initialised prefix only by empty trailing reference sections,
both lookups return the same value string. -/
theorem find_eq_specFind (st : ConfState) (b : Buf) (ss : List SectRec)
    (ps : List (Nat × Nat)) (docC trail : List SpecSect)
    (key : List Nat) (sq : Option (List Nat))
    (hfb : st.fileBuf = some b) (hss : st.sects = some ss) (hps : st.params = some ps)
    (hrepr : Repr2 b b.length ss ps docC)
    (hdC : docC ≠ [])
    (hsc : ss.length ≤ st.sectCount) (hsc1 : 1 ≤ st.sectCount)
    (htrail : ∀ x ∈ trail, x.1 ≠ none ∧ x.2 = []) :
    (confreaderFind st key sq).2 = specFind (docC ++ trail) key sq := by
  obtain ⟨hlens, hlenp, hsect, hpar⟩ := hrepr
  have hsectEq : ∀ idx, idx < docC.length →
      (findInSect b ps ((ss.getD idx ⟨none, 0, none⟩).firstParam.getD 0)
        (ss.getD idx ⟨none, 0, none⟩).size key).map (cstr b) =
      lookupKey (docC.getD idx (none, [])).2 key := by
    intro idx hidx
    obtain ⟨hname, hsize, hfpE, hfpN⟩ := hsect idx hidx
    by_cases hkv : (docC.getD idx (none, [])).2 = []
    · rw [hfpE hkv, hsize, hkv]
      simp [findInSect, lookupKey]
    · rw [hfpN hkv, hsize]
      simp only [Option.getD_some]
      refine findInSect_lookup b key (docC.getD idx (none, [])).2 ps
        (firstIdx docC idx) ?_
      intro m hm
      obtain ⟨hlt, heq⟩ := kvsOf_slice docC idx hidx m hm
      obtain ⟨hk, hv⟩ := hpar (firstIdx docC idx + m) (by omega)
      refine ⟨ps.getD (firstIdx docC idx + m) (0, 0),
        get?_eq_some_getD _ _ _ (by omega), ?_, ?_⟩
      · rw [cstr_of_OffHolds hk (le_refl _), heq]
      · rw [cstr_of_OffHolds hv (le_refl _), heq]
  cases sq with
  | none =>
    rw [specFind_append_none key docC trail hdC]
    have hd0 : 0 < docC.length := List.length_pos.mpr hdC
    have h0lt : 0 < ss.length := by omega
    unfold confreaderFind
    rw [hfb]
    simp only []
    rw [hss, hps]
    simp only []
    rw [get?_eq_some_getD ss 0 ⟨none, 0, none⟩ h0lt]
    simp only []
    have hhead : docC.headD (none, []) = docC.getD 0 (none, []) := by
      cases docC with
      | nil => exact absurd rfl hdC
      | cons a as => rfl
    have heq := hsectEq 0 hd0
    cases hres : findInSect b ps ((ss.getD 0 ⟨none, 0, none⟩).firstParam.getD 0)
        (ss.getD 0 ⟨none, 0, none⟩).size key with
    | some voff =>
      rw [hres] at heq
      simp only [Option.map_some'] at heq
      show some (cstr b voff) = lookupKey (docC.headD (none, [])).2 key
      rw [hhead]
      exact heq
    | none =>
      rw [hres] at heq
      simp only [Option.map_none'] at heq
      show (none : Option (List Nat)) = lookupKey (docC.headD (none, [])).2 key
      rw [hhead]
      exact heq
  | some snm =>
    rw [specFind_append_trail key snm docC trail hdC htrail]
    unfold confreaderFind
    rw [hfb]
    simp only []
    rw [hss, hps]
    simp only []
    rw [findSect_eq_drop b snm ss st.sectCount hsc hsc1]
    have hlen' : (ss.drop 1).length = (docC.drop 1).length := by
      simp only [List.length_drop]
      omega
    have hrel : ∀ j, j < (docC.drop 1).length →
        match ((ss.drop 1).getD j ⟨none, 0, none⟩).name,
              ((docC.drop 1).getD j (none, [])).1 with
        | none, none => True
        | some o, some nm => cstr b o = nm
        | _, _ => False := by
      intro j hj
      rw [getD_drop, getD_drop]
      have hjlt : 1 + j < docC.length := by
        simp only [List.length_drop] at hj
        omega
      have h := (hsect (1 + j) hjlt).1
      cases hn : (ss.getD (1 + j) ⟨none, 0, none⟩).name with
      | none =>
        cases hd : (docC.getD (1 + j) (none, [])).1 with
        | none => trivial
        | some nm =>
          rw [hn, hd] at h
          simp only [] at h
      | some o =>
        cases hd : (docC.getD (1 + j) (none, [])).1 with
        | none =>
          rw [hn, hd] at h
          simp only [] at h
        | some nm =>
          rw [hn, hd] at h
          simp only [] at h
          simp only []
          exact cstr_of_OffHolds h (le_refl _)
    rcases findSome_name_rel b snm (ss.drop 1) (docC.drop 1) hlen' hrel with
      ⟨h1, h2⟩ | ⟨j, hj, h1, h2⟩
    · rw [h1, h2]
    · rw [h1, h2]
      simp only []
      rw [getD_drop, getD_drop]
      have hjlt : 1 + j < docC.length := by
        simp only [List.length_drop] at hj
        omega
      have heq := hsectEq (1 + j) hjlt
      cases hres : findInSect b ps ((ss.getD (1 + j) ⟨none, 0, none⟩).firstParam.getD 0)
          (ss.getD (1 + j) ⟨none, 0, none⟩).size key with
      | some voff =>
        rw [hres] at heq
        simp only [Option.map_some'] at heq
        show some (cstr b voff) = lookupKey (docC.getD (1 + j) (none, [])).2 key
        exact heq
      | none =>
        rw [hres] at heq
        simp only [Option.map_none'] at heq
        show (none : Option (List Nat)) = lookupKey (docC.getD (1 + j) (none, [])).2 key
        exact heq

/-- Inversion of a successful parse of a non-empty file: both passes
succeeded and the final state holds exactly their results. -/
theorem parse_ok_inv (f : Buf) (st0 : ConfState) (h0 : st0.fileBuf = none)
    (hfne : f.length ≠ 0) (st : ConfState)
    (hparse : confreaderParseFile (some f) [] false st0 = (st, 0)) :
    ∃ p1 p2,
      pass1Loop (f.length + 1 + 1) (f ++ [10]) (f.length + 1) 0 [] 1 0 = .ok p1 ∧
      pass2Loop (f.length + 1) p1.paramCount p1.lines 0
        ⟨p1.buf, [⟨none, 0, none⟩], []⟩ = .ok p2 ∧
      st.fileBuf = some p2.buf ∧ st.params = some p2.params ∧
      st.sects = some p2.sects ∧ st.sectCount = p1.sectCount ∧
      st.paramCount = p1.paramCount ∧ st.errorNum = 0 := by
  obtain ⟨fb, l, lc, p, pc, s, sc, e, eln⟩ := st0
  simp only [ConfState.fileBuf] at h0
  subst h0
  simp only [confreaderParseFile, confreaderInit, confreaderClear] at hparse
  rw [if_neg (by simp)] at hparse
  rw [if_neg hfne] at hparse
  rw [if_neg (by simp)] at hparse
  rw [if_neg (by simp)] at hparse
  rw [if_neg (by simp)] at hparse
  cases hp1 : pass1Loop (f.length + 1 + 1) (f ++ [10]) (f.length + 1) 0 [] 1 0 with
  | error ln =>
    rw [hp1] at hparse
    simp only [] at hparse
    have hcon := congrArg Prod.snd hparse
    exact absurd hcon (by decide : ¬ ((-1 : Int) = 0))
  | ok p1 =>
    rw [hp1] at hparse
    simp only [] at hparse
    rw [if_neg (by simp), if_neg (by simp)] at hparse
    cases hp2 : pass2Loop (f.length + 1) p1.paramCount p1.lines 0
        ⟨p1.buf, [⟨none, 0, none⟩], []⟩ with
    | error ln =>
      rw [hp2] at hparse
      simp only [] at hparse
      have hcon := congrArg Prod.snd hparse
      exact absurd hcon (by decide : ¬ ((-1 : Int) = 0))
    | ok p2 =>
      rw [hp2] at hparse
      simp only [Prod.mk.injEq] at hparse
      obtain ⟨hst, -⟩ := hparse
      subst hst
      exact ⟨p1, p2, rfl, hp2, rfl, rfl, rfl, rfl, rfl, rfl⟩

theorem kvsOf_empty (trail : List SpecSect) (h : ∀ x ∈ trail, x.2 = []) :
    kvsOf trail = [] := by
  induction trail with
  | nil => rfl
  | cons a as ih =>
    unfold kvsOf at *
    rw [List.map_cons, List.flatten_cons, h a (by simp), List.nil_append]
    exact ih (fun x hx => h x (by simp [hx]))

/-- A successful parse of a non-empty NUL-free well-formed file leaves a
state whose tables represent a prefix of the reference document, the
remainder being empty trailing sections skipped by the pass-2 bound. -/
theorem parse_success_repr (f : Buf) (st0 : ConfState) (h0 : st0.fileBuf = none)
    (hne : f ≠ []) (h0f : (0:Nat) ∉ f) (sdoc : List SpecSect)
    (hspec : specDoc f = some sdoc) (st : ConfState)
    (hparse : confreaderParseFile (some f) [] false st0 = (st, 0)) :
    ∃ (b : Buf) (ss : List SectRec) (ps : List (Nat × Nat))
      (docC trail : List SpecSect),
      st.fileBuf = some b ∧ st.sects = some ss ∧ st.params = some ps ∧
      Repr2 b b.length ss ps docC ∧ docC ≠ [] ∧
      ss.length ≤ st.sectCount ∧ 1 ≤ st.sectCount ∧
      sdoc = docC ++ trail ∧ (∀ x ∈ trail, x.1 ≠ none ∧ x.2 = []) ∧
      kvsOf sdoc = kvsOf docC := by
  have hfne : f.length ≠ 0 := fun hc => hne (List.length_eq_zero.mp hc)
  obtain ⟨p1, p2, hp1, hp2, hfb, hps', hss', hsc', hpc', herr0⟩ :=
    parse_ok_inv f st0 h0 hfne st hparse
  have hjoin : joinLF (segsOf f) = f ++ [10] := joinLF_segsOf f
  have h10s : ∀ s ∈ segsOf f, (10:Nat) ∉ s := segsOf_no10 f
  have hsegn : (segsOf f).length < f.length + 1 + 1 := by
    have h1 := joinLF_len_ge (segsOf f)
    rw [hjoin] at h1
    simp at h1
    omega
  have hclean : ∀ s ∈ segsOf f, ¬ segBad s := by
    by_contra hc
    push_neg at hc
    obtain ⟨good, badseg, rest, hsegs, hgood, hbad⟩ :=
      first_bad_decomp (segsOf f) (by
        obtain ⟨s, hs1, hs2⟩ := hc
        exact ⟨s, hs1, hs2⟩)
    have hdrop : (f ++ [10]).drop 0 = joinLF (good ++ badseg :: rest) := by
      rw [List.drop_zero, ← hsegs, hjoin]
    obtain ⟨herr, -, -⟩ :=
      pass1Loop_err good badseg rest (f ++ [10]) (f.length + 1) 0 [] 1 0
        (f.length + 1 + 1) (by simp) hdrop (hsegs ▸ h10s)
        (fun s hs => hgood s hs) hbad (hsegs ▸ hsegn)
    rw [herr] at hp1
    simp at hp1
  obtain ⟨b1, hok, hlen1, -, hhigh⟩ :=
    pass1Loop_ok (segsOf f) (f ++ [10]) (f.length + 1) 0 [] 1 0 (f.length + 1 + 1)
      (by simp) (by rw [List.drop_zero, hjoin]) h10s hclean hsegn
  rw [hok] at hp1
  cases hp1
  have hbuf : b1 = (f ++ [10]).map zeroB :=
    pass1_buf_eq hlen1 (fun t => hhigh t (Nat.zero_le t))
  have hdrop0 : b1.drop 0 = (joinLF (segsOf f)).map zeroB := by
    rw [List.drop_zero, hbuf, hjoin]
  have hb1len : f.length + 1 = b1.length := by
    rw [hlen1]
    simp
  have hsegprops : ∀ s ∈ segsOf f, (10:Nat) ∉ s ∧ ¬ segBad s ∧ (0:Nat) ∉ s := by
    intro s hs
    refine ⟨h10s s hs, hclean s hs, ?_⟩
    intro hx
    have hmem : (0:Nat) ∈ joinLF (segsOf f) := mem_joinLF hs hx
    rw [hjoin] at hmem
    rcases List.mem_append.mp hmem with h | h
    · exact h0f h
    · simp at h
  have hrepr0 : Repr2 b1 0 [⟨none, 0, none⟩] [] [(none, [])] := by
    refine ⟨rfl, rfl, ?_, ?_⟩
    · intro idx hidx
      have hidx0 : idx = 0 := by
        simp only [List.length_cons, List.length_nil] at hidx
        omega
      subst hidx0
      exact ⟨trivial, rfl, fun _ => rfl, fun hc => absurd rfl hc⟩
    · intro m hm
      simp at hm
  have hfold : specFold [(none, [])] ((segsOf f).map lineTrim) = some sdoc := hspec
  have hp2' : pass2Loop (f.length + 1) (0 + (segsOf f).countP isParamSeg)
      (lineStarts 0 (segsOf f)) 0 ⟨b1, [⟨none, 0, none⟩], []⟩ = .ok p2 := hp2
  obtain ⟨docC, trail, hsdoc, htrail, hdC, hbl, hpl, hsl, hrepr2⟩ :=
    pass2Loop_correct (segsOf f) b1 (f.length + 1) 0 0
      (0 + (segsOf f).countP isParamSeg) [⟨none, 0, none⟩] [] [(none, [])] sdoc p2
      hb1len hdrop0 (by omega) hsegprops hrepr0 (by simp) (by simp) hfold hp2'
  have hscv : st.sectCount = 1 + (segsOf f).countP isHeadSeg := hsc'
  refine ⟨p2.buf, p2.sects, p2.params, docC, trail, hfb, hss', hps', ?_, hdC,
    ?_, ?_, hsdoc, htrail, ?_⟩
  · have hbl2 : p2.buf.length = f.length + 1 := by omega
    rw [hbl2]
    exact hrepr2
  · rw [hscv]
    simpa using hsl
  · rw [hscv]
    omega
  · rw [hsdoc, kvsOf_append, kvsOf_empty trail (fun x hx => (htrail x hx).2),
        List.append_nil]

theorem headD_mem {α : Type} {l : List α} (h : l ≠ []) (d : α) : l.headD d ∈ l := by
  cases l with
  | nil => exact absurd rfl h
  | cons a as => simp

theorem getLastD_mem {α : Type} {l : List α} (h : l ≠ []) (d : α) :
    l.getLastD d ∈ l := by
  rw [List.getLastD_eq_getLast?, List.getLast?_eq_getLast _ h]
  exact List.getLast_mem h

theorem getD_mem2 {α : Type} {l : List α} {m : Nat} {d : α} (h : m < l.length) :
    l.getD m d ∈ l := by
  rw [List.getD_eq_getElem?_getD, List.getElem?_eq_getElem h]
  exact List.getElem_mem ..

theorem trimTrail_head {l : List Nat} (h : trimTrail l ≠ []) :
    (trimTrail l).headD 0 = l.headD 0 := by
  obtain ⟨sfx, hdec, -⟩ := trimTrail_decomp l
  conv_rhs => rw [hdec]
  cases htt : trimTrail l with
  | nil => exact absurd htt h
  | cons a as => simp

theorem trimTrail_subset {l : List Nat} : ∀ x ∈ trimTrail l, x ∈ l := by
  intro x hx
  obtain ⟨sfx, hdec, -⟩ := trimTrail_decomp l
  rw [hdec]
  exact List.mem_append_left _ hx

theorem trimTrail_last {l : List Nat} (h : trimTrail l ≠ []) :
    wsB ((trimTrail l).getLastD 0) = false := by
  unfold trimTrail at *
  cases hdw : l.reverse.dropWhile wsB with
  | nil => rw [hdw] at h; simp at h
  | cons a as =>
    rw [List.reverse_cons, List.getLastD_concat]
    exact dropWhile_head_false hdw

theorem wsB_false_of_sep {c : Nat} (h : isSepB c = false) : wsB c = false := by
  unfold isSepB at h
  obtain ⟨h12, h3⟩ := Bool.or_eq_false_iff.mp h
  obtain ⟨h1, h2⟩ := Bool.or_eq_false_iff.mp h12
  unfold wsB
  rw [h2, h3]
  rfl

theorem mem_kvsOf {doc : List SpecSect} {s : SpecSect}
    {kv : List Nat × List Nat} (hs : s ∈ doc) (hkv : kv ∈ s.2) :
    kv ∈ kvsOf doc := by
  unfold kvsOf
  rw [List.mem_flatten]
  exact ⟨s.2, List.mem_map_of_mem _ hs, hkv⟩

theorem kvsOf_mem_dropLast {doc : List SpecSect} {kv : List Nat × List Nat}
    (h : kv ∈ kvsOf doc.dropLast) : kv ∈ kvsOf doc := by
  by_cases hne : doc = []
  · subst hne
    simpa using h
  · have hdec : doc = doc.dropLast ++ [doc.getLast hne] :=
      (List.dropLast_append_getLast hne).symm
    have hsplit : kvsOf doc = kvsOf doc.dropLast ++ kvsOf [doc.getLast hne] := by
      conv_lhs => rw [hdec]
      exact kvsOf_append ..
    rw [hsplit]
    exact List.mem_append_left _ h

theorem kvsOf_mem_last {doc : List SpecSect} {kv : List Nat × List Nat}
    (h : kv ∈ (doc.getLastD (none, [])).2) : kv ∈ kvsOf doc := by
  by_cases hne : doc = []
  · subst hne
    simp [List.getLastD] at h
  · have hlast : doc.getLastD (none, []) = doc.getLast hne := by
      rw [List.getLastD_eq_getLast?, List.getLast?_eq_getLast _ hne]
      rfl
    rw [hlast] at h
    exact mem_kvsOf (List.getLast_mem hne) h

/-- Shape of a successfully parsed parameter line: the key is the
separator-free prefix, and the value is a non-empty substring of the line
that neither starts nor ends with whitespace and holds no comment
marker. -/
theorem parseParam_props {t : List Nat} {kv : List Nat × List Nat}
    (h : parseParam t = some kv) :
    kv.1 = t.takeWhile (fun c => ! isSepB c) ∧
    (∀ c ∈ kv.1, isSepB c = false) ∧
    kv.2 ≠ [] ∧
    wsB (kv.2.headD 0) = false ∧
    (∀ c ∈ kv.2, isCmB c = false) ∧
    wsB (kv.2.getLastD 0) = false ∧
    (∀ c ∈ kv.2, c ∈ t) := by
  simp only [parseParam] at h
  set key := t.takeWhile (fun c => ! isSepB c) with hkeyd
  set r1 := (t.drop key.length).dropWhile isSepB with hr1d
  have hkeysep : ∀ c ∈ key, isSepB c = false := by
    intro c hc
    have := List.mem_takeWhile_imp hc
    simpa using this
  by_cases hg : (r1.isEmpty || isCmB (r1.headD 0)) = true
  · rw [if_pos hg] at h
    exact absurd h (by simp)
  · rw [if_neg hg] at h
    have hge : r1.isEmpty = false ∧ isCmB (r1.headD 0) = false := by
      refine Bool.or_eq_false_iff.mp ?_
      cases hx : (r1.isEmpty || isCmB (r1.headD 0))
      · rfl
      · exact absurd hx hg
    obtain ⟨hr1e, hr1cm⟩ := hge
    have hr1ne : r1 ≠ [] := by
      intro hc
      rw [hc] at hr1e
      simp at hr1e
    have hr1sub : ∀ c ∈ r1, c ∈ t := by
      intro c hc
      rw [hr1d] at hc
      exact List.drop_subset _ _ ((List.dropWhile_suffix isSepB).subset hc)
    have hr1head : isSepB (r1.headD 0) = false := by
      cases hr : r1 with
      | nil => exact absurd hr hr1ne
      | cons a as =>
        rw [hr1d] at hr
        have := dropWhile_head_false hr
        simpa using this
    cases hfi : r1.findIdx? isCmB with
    | none =>
      rw [hfi] at h
      simp only [Option.some.injEq] at h
      have hkv : kv = (key, trimTrail r1) := h.symm
      subst hkv
      have htne : trimTrail r1 ≠ [] := trimTrail_ne_nil hr1ne (wsB_false_of_sep hr1head)
      refine ⟨rfl, hkeysep, htne, ?_, ?_, trimTrail_last htne, ?_⟩
      · rw [trimTrail_head htne]
        exact wsB_false_of_sep hr1head
      · intro c hc
        exact findIdx_none hfi c (trimTrail_subset _ hc)
      · intro c hc
        exact hr1sub c (trimTrail_subset _ hc)
    | some k =>
      rw [hfi] at h
      simp only [] at h
      by_cases hws : wsB (r1.getD (k - 1) 0) = true
      · rw [if_pos hws] at h
        simp only [Option.some.injEq] at h
        have hkv : kv = (key, trimTrail (r1.take k)) := h.symm
        subst hkv
        obtain ⟨u, c0, v, hdecc, hulen, hpc0, hufalse⟩ := findIdx_decomp hfi
        have htake : r1.take k = u := by
          rw [hdecc, ← hulen]
          exact List.take_left ..
        have hk1 : 1 ≤ k := by
          by_contra hk0
          have hu0 : u = [] := List.length_eq_zero.mp (by omega)
          rw [hu0] at hdecc
          rw [hdecc] at hr1cm
          simp only [List.nil_append, List.headD_cons] at hr1cm
          rw [hpc0] at hr1cm
          cases hr1cm
        have htkne : r1.take k ≠ [] := by
          rw [htake]
          intro hc
          rw [hc] at hulen
          simp at hulen
          omega
        have hheadtk : (r1.take k).headD 0 = r1.headD 0 := by
          cases hrr : r1 with
          | nil => exact absurd hrr hr1ne
          | cons a as =>
            obtain ⟨k2, rfl⟩ : ∃ k2, k = k2 + 1 := ⟨k - 1, by omega⟩
            rw [List.take_succ_cons]
            simp
        have hheadsep : isSepB ((r1.take k).headD 0) = false := by
          rw [hheadtk]
          exact hr1head
        have htne : trimTrail (r1.take k) ≠ [] :=
          trimTrail_ne_nil htkne (wsB_false_of_sep hheadsep)
        refine ⟨rfl, hkeysep, htne, ?_, ?_, trimTrail_last htne, ?_⟩
        · rw [trimTrail_head htne]
          exact wsB_false_of_sep hheadsep
        · intro c hc
          have hcu : c ∈ u := by
            rw [← htake]
            exact trimTrail_subset _ hc
          exact hufalse c hcu
        · intro c hc
          exact hr1sub c (List.take_subset _ _ (trimTrail_subset _ hc))
      · rw [if_neg hws] at h
        exact absurd h (by simp)

/-- Any property of reference key/value pairs established by `parseParam`
on the processed lines is an invariant of the reference fold. -/
theorem specFold_kv_inv (P : List Nat × List Nat → Prop) :
    ∀ (ts : List (List Nat)) (doc sdoc : List SpecSect),
    (∀ t ∈ ts, ∀ kv, parseParam t = some kv → P kv) →
    specFold doc ts = some sdoc →
    (∀ kv ∈ kvsOf doc, P kv) →
    ∀ kv ∈ kvsOf sdoc, P kv := by
  intro ts
  induction ts with
  | nil =>
    intro doc sdoc hP hf hdoc
    simp only [specFold] at hf
    cases hf
    exact hdoc
  | cons t rest ih =>
    intro doc sdoc hP hf hdoc
    simp only [specFold] at hf
    cases hstep : specStep doc t with
    | none =>
      rw [hstep] at hf
      simp at hf
    | some d1 =>
      rw [hstep] at hf
      simp only [] at hf
      refine ih d1 sdoc (fun x hx => hP x (by simp [hx])) hf ?_
      intro kv hkv
      unfold specStep at hstep
      by_cases hemp : t.isEmpty
      · rw [if_pos hemp] at hstep
        cases hstep
        exact hdoc kv hkv
      · rw [if_neg hemp] at hstep
        by_cases h91 : t.headD 0 = 91
        · rw [if_pos h91] at hstep
          cases hh : parseHeader t with
          | none =>
            rw [hh] at hstep
            simp at hstep
          | some nm =>
            rw [hh] at hstep
            simp only [Option.map] at hstep
            cases hstep
            rw [kvsOf_append] at hkv
            rcases List.mem_append.mp hkv with hx | hx
            · exact hdoc kv hx
            · rw [kvsOf_single] at hx
              simp at hx
        · rw [if_neg h91] at hstep
          by_cases hcm : isCmB (t.headD 0) = true
          · rw [if_pos hcm] at hstep
            cases hstep
            exact hdoc kv hkv
          · rw [if_neg hcm] at hstep
            cases hpp : parseParam t with
            | none =>
              rw [hpp] at hstep
              simp at hstep
            | some kv2 =>
              rw [hpp] at hstep
              simp only [Option.map] at hstep
              cases hstep
              rw [kvsOf_append] at hkv
              rcases List.mem_append.mp hkv with hx | hx
              · exact hdoc kv (kvsOf_mem_dropLast hx)
              · rw [kvsOf_single] at hx
                rcases List.mem_append.mp hx with hy | hy
                · exact hdoc kv (kvsOf_mem_last hy)
                · have hkv2 : kv = kv2 := by simpa using hy
                  subst hkv2
                  exact hP t (by simp) kv hpp

/-- A successful reference lookup returns the value of some pair of the
document. -/
theorem specFind_mem {doc : List SpecSect} {key v : List Nat}
    {sq : Option (List Nat)} (h : specFind doc key sq = some v) :
    ∃ kv ∈ kvsOf doc, v = kv.2 := by
  unfold specFind at h
  cases sq with
  | none =>
    simp only [] at h
    unfold lookupKey at h
    cases hf : (doc.headD (none, [])).2.find? (fun kv => casEq key kv.1) with
    | none =>
      rw [hf] at h
      simp at h
    | some kv =>
      rw [hf] at h
      simp only [Option.map, Option.some.injEq] at h
      refine ⟨kv, ?_, h.symm⟩
      cases hd : doc with
      | nil =>
        rw [hd] at hf
        simp [List.headD] at hf
      | cons d rest =>
        rw [hd] at hf
        simp only [List.headD_cons] at hf
        have hmem := List.mem_of_find?_eq_some hf
        exact mem_kvsOf (by simp) hmem
  | some snm =>
    simp only [] at h
    cases hf : (doc.drop 1).find? (fun s =>
        match s.1 with
        | some nm => casEq snm nm
        | none => false) with
    | none =>
      rw [hf] at h
      simp at h
    | some s =>
      rw [hf] at h
      simp only [] at h
      unfold lookupKey at h
      cases hf2 : s.2.find? (fun kv => casEq key kv.1) with
      | none =>
        rw [hf2] at h
        simp at h
      | some kv =>
        rw [hf2] at h
        simp only [Option.map, Option.some.injEq] at h
        have hsmem : s ∈ doc := List.drop_subset _ _ (List.mem_of_find?_eq_some hf)
        exact ⟨kv, mem_kvsOf hsmem (List.mem_of_find?_eq_some hf2), h.symm⟩

/-- **C1** (amended): after a successful parse of a well-formed input
(one with a reference document, `specDoc f = some sdoc`),
`find(key, section)` returns exactly the reference lookup's value — the
substring of the FIRST case-insensitively matching parameter line of the
requested scope, lying between the `'='`/whitespace separator run after
the key and the whitespace-separated comment marker or line end, with
trailing whitespace trimmed (`parseParam`/`specFind`).  The original
claim's quantification over every parameter line fails for duplicate
keys (see the counterexample theorem). -/
theorem c1_find_returns_spec_substring (f : Buf) (st0 : ConfState)
    (h0 : st0.fileBuf = none) (hne : f ≠ []) (h0f : (0:Nat) ∉ f)
    (sdoc : List SpecSect) (hspec : specDoc f = some sdoc)
    (st : ConfState) (hparse : confreaderParseFile (some f) [] false st0 = (st, 0))
    (key : List Nat) (sq : Option (List Nat)) :
    (confreaderFind st key sq).2 = specFind sdoc key sq := by
  obtain ⟨b, ss, ps, docC, trail, hfb, hss, hps, hrepr, hdC, hsc, hsc1, hsdoc,
    htrail, -⟩ := parse_success_repr f st0 h0 hne h0f sdoc hspec st hparse
  rw [hsdoc]
  exact find_eq_specFind st b ss ps docC trail key sq hfb hss hps hrepr hdC
    hsc hsc1 htrail

theorem c1_find_returns_spec_substring_witness :
    (confreaderFind (confreaderParseFile
        (some [91, 83, 93, 10, 97, 32, 61, 32, 118, 50, 10]) [] false
        confreaderInitState).1 [97] (some [83])).2 =
      specFind [(none, []), (some [83], [([97], [118, 50])])] [97] (some [83]) :=
  c1_find_returns_spec_substring [91, 83, 93, 10, 97, 32, 61, 32, 118, 50, 10]
    confreaderInitState rfl (by decide) (by decide)
    [(none, []), (some [83], [([97], [118, 50])])] (by decide)
    (confreaderParseFile (some [91, 83, 93, 10, 97, 32, 61, 32, 118, 50, 10])
      [] false confreaderInitState).1 (by decide) [97] (some [83])

/-- **C8** (amended): after every successful parse every stored key view
is exactly the reference key of its parameter, a byte string free of
`'='`/space/tab separator bytes; and the key of a parameter line is
empty exactly when the first (non-whitespace) byte of the trimmed line
is `'='` — such a line is still linked as a parameter, refuting the
original claim's "the stored key view contains at least one byte". -/
theorem c8_key_nonempty_unless_eq (f : Buf) (st0 : ConfState)
    (h0 : st0.fileBuf = none) (hne : f ≠ []) (h0f : (0:Nat) ∉ f)
    (sdoc : List SpecSect) (hspec : specDoc f = some sdoc)
    (st : ConfState) (hparse : confreaderParseFile (some f) [] false st0 = (st, 0)) :
    (∀ m, m < (st.params.getD []).length →
      cstr (st.fileBuf.getD []) (((st.params.getD []).getD m (0, 0)).1) =
        ((kvsOf sdoc).getD m ([], [])).1 ∧
      ∀ c ∈ ((kvsOf sdoc).getD m ([], [])).1, isSepB c = false) ∧
    (∀ t kv, parseParam t = some kv → wsB (t.headD 0) = false →
      (kv.1 = [] ↔ t.headD 0 = 61)) := by
  obtain ⟨b, ss, ps, docC, trail, hfb, hss, hps, hrepr, hdC, hsc, hsc1, hsdoc,
    htrail, hkvs⟩ := parse_success_repr f st0 h0 hne h0f sdoc hspec st hparse
  have hPall : ∀ kv ∈ kvsOf sdoc, ∀ c ∈ kv.1, isSepB c = false := by
    refine specFold_kv_inv (fun kv => ∀ c ∈ kv.1, isSepB c = false)
      ((segsOf f).map lineTrim) [(none, [])] sdoc ?_ hspec ?_
    · intro t ht kv hkv
      exact (parseParam_props hkv).2.1
    · intro kv hkv
      simp [kvsOf] at hkv
  constructor
  · intro m hm
    rw [hps] at hm
    simp only [Option.getD_some] at hm
    rw [hps, hfb]
    simp only [Option.getD_some]
    obtain ⟨hk, -⟩ := hrepr.2.2.2 m hm
    constructor
    · rw [hkvs]
      exact cstr_of_OffHolds hk (le_refl _)
    · intro c hc
      have hml : m < (kvsOf sdoc).length := by
        have := hrepr.2.1
        rw [hkvs]
        omega
      exact hPall ((kvsOf sdoc).getD m ([], [])) (getD_mem2 hml) c hc
  · intro t kv hpp hws
    obtain ⟨hkey, -, hvne, -, -, -, hvsub⟩ := parseParam_props hpp
    rw [hkey]
    constructor
    · intro hemp
      cases ht : t with
      | nil =>
        exfalso
        obtain ⟨c, hc⟩ := List.exists_mem_of_ne_nil kv.2 hvne
        have := hvsub c hc
        rw [ht] at this
        simp at this
      | cons a as =>
        rw [ht] at hemp
        rw [List.takeWhile_cons] at hemp
        by_cases hp : (! isSepB a) = true
        · rw [if_pos hp] at hemp
          simp at hemp
        · have hsep : isSepB a = true := by simpa using hp
          rw [ht] at hws
          simp only [List.headD_cons] at hws
          simp only [List.headD_cons]
          unfold isSepB at hsep
          unfold wsB at hws
          obtain ⟨h32, h9⟩ := Bool.or_eq_false_iff.mp hws
          rcases Bool.or_eq_true_iff.mp hsep with h1 | h9'
          · rcases Bool.or_eq_true_iff.mp h1 with h61 | h32'
            · exact eq_of_beq h61
            · rw [h32'] at h32
              exact absurd h32 (by decide)
          · rw [h9'] at h9
            exact absurd h9 (by decide)
    · intro h61
      cases ht : t with
      | nil => rfl
      | cons a as =>
        rw [ht] at h61
        simp only [List.headD_cons] at h61
        rw [List.takeWhile_cons, h61]
        simp [isSepB]

theorem c8_key_nonempty_unless_eq_witness :
    (∀ m, m < (((confreaderParseFile (some [61, 120, 10]) [] false
        confreaderInitState).1).params.getD []).length →
      cstr (((confreaderParseFile (some [61, 120, 10]) [] false
          confreaderInitState).1).fileBuf.getD [])
        ((((confreaderParseFile (some [61, 120, 10]) [] false
          confreaderInitState).1).params.getD []).getD m (0, 0)).1 =
        ((kvsOf [(none, [([], [120])])]).getD m ([], [])).1 ∧
      ∀ c ∈ ((kvsOf [(none, [([], [120])])]).getD m ([], [])).1,
        isSepB c = false) ∧
    (∀ t kv, parseParam t = some kv → wsB (t.headD 0) = false →
      (kv.1 = [] ↔ t.headD 0 = 61)) :=
  c8_key_nonempty_unless_eq [61, 120, 10] confreaderInitState rfl (by decide)
    (by decide) [(none, [([], [120])])] (by decide)
    (confreaderParseFile (some [61, 120, 10]) [] false confreaderInitState).1
    (by decide)

/-- **C10**: after every successful parse every stored value view is
exactly the reference value of its parameter — a non-empty byte string
that neither begins nor ends with a space, a tab or a comment marker and
holds no NUL — so `getChar` on any parameter found by the lookup returns
the real first byte of the value, never a terminator, whitespace or
comment-marker byte. -/
theorem c10_value_invariant (f : Buf) (st0 : ConfState)
    (h0 : st0.fileBuf = none) (hne : f ≠ []) (h0f : (0:Nat) ∉ f)
    (sdoc : List SpecSect) (hspec : specDoc f = some sdoc)
    (st : ConfState) (hparse : confreaderParseFile (some f) [] false st0 = (st, 0)) :
    (∀ m, m < (st.params.getD []).length →
      cstr (st.fileBuf.getD []) (((st.params.getD []).getD m (0, 0)).2) =
        ((kvsOf sdoc).getD m ([], [])).2 ∧
      ((kvsOf sdoc).getD m ([], [])).2 ≠ [] ∧
      wsB (((kvsOf sdoc).getD m ([], [])).2.headD 0) = false ∧
      isCmB (((kvsOf sdoc).getD m ([], [])).2.headD 0) = false ∧
      wsB (((kvsOf sdoc).getD m ([], [])).2.getLastD 0) = false ∧
      isCmB (((kvsOf sdoc).getD m ([], [])).2.getLastD 0) = false ∧
      (0:Nat) ∉ ((kvsOf sdoc).getD m ([], [])).2) ∧
    (∀ (key : List Nat) (sq : Option (List Nat)) (d : Nat) (v : List Nat),
      specFind sdoc key sq = some v →
      (confreaderGetChar st key sq d).2 = v.headD 0 ∧
      v.headD 0 ≠ 0 ∧ wsB (v.headD 0) = false ∧ isCmB (v.headD 0) = false) := by
  obtain ⟨b, ss, ps, docC, trail, hfb, hss, hps, hrepr, hdC, hsc, hsc1, hsdoc,
    htrail, hkvs⟩ := parse_success_repr f st0 h0 hne h0f sdoc hspec st hparse
  have h0t : ∀ t ∈ (segsOf f).map lineTrim, (0:Nat) ∉ t := by
    intro t ht hx
    obtain ⟨s, hs, rfl⟩ := List.mem_map.mp ht
    have hxs : (0:Nat) ∈ s := lineTrim_subset _ hx
    have hmem : (0:Nat) ∈ joinLF (segsOf f) := mem_joinLF hs hxs
    rw [joinLF_segsOf] at hmem
    rcases List.mem_append.mp hmem with h | h
    · exact h0f h
    · simp at h
  have hPall : ∀ kv ∈ kvsOf sdoc,
      kv.2 ≠ [] ∧ wsB (kv.2.headD 0) = false ∧ (∀ c ∈ kv.2, isCmB c = false) ∧
      wsB (kv.2.getLastD 0) = false ∧ (0:Nat) ∉ kv.2 := by
    refine specFold_kv_inv (fun kv =>
        kv.2 ≠ [] ∧ wsB (kv.2.headD 0) = false ∧ (∀ c ∈ kv.2, isCmB c = false) ∧
        wsB (kv.2.getLastD 0) = false ∧ (0:Nat) ∉ kv.2)
      ((segsOf f).map lineTrim) [(none, [])] sdoc ?_ hspec ?_
    · intro t ht kv hkv
      obtain ⟨-, -, hvne, hvh, hvcm, hvl, hvsub⟩ := parseParam_props hkv
      exact ⟨hvne, hvh, hvcm, hvl, fun hc => h0t t ht (hvsub 0 hc)⟩
    · intro kv hkv
      simp [kvsOf] at hkv
  constructor
  · intro m hm
    rw [hps] at hm
    simp only [Option.getD_some] at hm
    rw [hps, hfb]
    simp only [Option.getD_some]
    have hml : m < (kvsOf sdoc).length := by
      have := hrepr.2.1
      rw [hkvs]
      omega
    obtain ⟨hvne, hvh, hvcm, hvl, h0v⟩ := hPall _ (getD_mem2 (d := ([], [])) hml)
    obtain ⟨-, hv⟩ := hrepr.2.2.2 m hm
    refine ⟨?_, hvne, hvh, hvcm _ (headD_mem hvne 0), hvl,
      hvcm _ (getLastD_mem hvne 0), h0v⟩
    rw [hkvs]
    exact cstr_of_OffHolds hv (le_refl _)
  · intro key sq d v hv
    have hfind : (confreaderFind st key sq).2 = specFind sdoc key sq := by
      rw [hsdoc]
      exact find_eq_specFind st b ss ps docC trail key sq hfb hss hps hrepr hdC
        hsc hsc1 htrail
    obtain ⟨kv, hkvmem, hveq⟩ := specFind_mem hv
    obtain ⟨hvne, hvh, hvcm, -, h0v⟩ := hPall kv hkvmem
    subst hveq
    have hhd : kv.2.headD 0 ∈ kv.2 := headD_mem hvne 0
    refine ⟨?_, fun hc => h0v (hc ▸ hhd), hvh, hvcm _ hhd⟩
    unfold confreaderGetChar
    cases hfc : confreaderFind st key sq with
    | mk st1 vo =>
      rw [hfc] at hfind
      have hvo : vo = specFind sdoc key sq := hfind
      rw [hv] at hvo
      subst hvo
      rfl

theorem c10_value_invariant_witness :
    (∀ m, m < (((confreaderParseFile (some [97, 61, 49, 10]) [] false
        confreaderInitState).1).params.getD []).length →
      cstr (((confreaderParseFile (some [97, 61, 49, 10]) [] false
          confreaderInitState).1).fileBuf.getD [])
        ((((confreaderParseFile (some [97, 61, 49, 10]) [] false
          confreaderInitState).1).params.getD []).getD m (0, 0)).2 =
        ((kvsOf [(none, [([97], [49])])]).getD m ([], [])).2 ∧
      ((kvsOf [(none, [([97], [49])])]).getD m ([], [])).2 ≠ [] ∧
      wsB (((kvsOf [(none, [([97], [49])])]).getD m ([], [])).2.headD 0) = false ∧
      isCmB (((kvsOf [(none, [([97], [49])])]).getD m ([], [])).2.headD 0) = false ∧
      wsB (((kvsOf [(none, [([97], [49])])]).getD m ([], [])).2.getLastD 0) = false ∧
      isCmB (((kvsOf [(none, [([97], [49])])]).getD m ([], [])).2.getLastD 0) = false ∧
      (0:Nat) ∉ ((kvsOf [(none, [([97], [49])])]).getD m ([], [])).2) ∧
    (∀ (key : List Nat) (sq : Option (List Nat)) (d : Nat) (v : List Nat),
      specFind [(none, [([97], [49])])] key sq = some v →
      (confreaderGetChar (confreaderParseFile (some [97, 61, 49, 10]) [] false
        confreaderInitState).1 key sq d).2 = v.headD 0 ∧
      v.headD 0 ≠ 0 ∧ wsB (v.headD 0) = false ∧ isCmB (v.headD 0) = false) :=
  c10_value_invariant [97, 61, 49, 10] confreaderInitState rfl (by decide)
    (by decide) [(none, [([97], [49])])] (by decide)
    (confreaderParseFile (some [97, 61, 49, 10]) [] false confreaderInitState).1
    (by decide)

end Confreader
